import Mathlib

/-!
# File Tree (A4): a shallow embedding of `ft.c` and `checkerDT.c`

The three state variables of `ft.c` (`bIsInitialized`, `oNRoot`, `ulCount`)
become the record `FT`; every `FT_*` function becomes a function from the
state before the call to the status (or value) returned and the state after.
The tree that `oNRoot` owns is an inductive value; a `Node_T` handle is the
position of a node in that tree (the child indices on the way down from the
root), and NULL is `none`.

`path.c`, `nodeFT.c` and `dynarray.c` are not part of the sources under
study; the `Path_*` and `Node_*` functions are modelled from the
specification and say so.
-/

namespace A4

/-! ## a4def.h -/

/-- Return statuses of `a4def.h`, in the order of the enumeration. -/
inductive Status where
  | SUCCESS
  | INITIALIZATION_ERROR
  | ALREADY_IN_TREE
  | NO_SUCH_PATH
  | CONFLICTING_PATH
  | BAD_PATH
  | NOT_A_DIRECTORY
  | NOT_A_FILE
  | MEMORY_ERROR
  deriving DecidableEq, Repr

open Status

/-- A `void *` buffer handle: NULL, or the bytes it points to. -/
inductive VoidPtr where
  | NULL
  | buf (bytes : List Nat)
  deriving DecidableEq, Repr

/-! ## Path -/

/-- A `Path_T`: the sequence of components of an absolute pathname. -/
abbrev Path := List (List Char)

/-- Modelled from the spec: the splitting that `Path_new` of `path.c` does;
the text after the leading separator is cut at every separator. -/
def Path_components : List Char → List (List Char)
  | [] => [[]]
  | c :: cs =>
    if c = '/' then [] :: Path_components cs
    else
      match Path_components cs with
      | [] => [[c]]
      | w :: ws => (c :: w) :: ws

/-- Modelled from the spec: `Path_new` of `path.c`. The text must be an
absolute pathname: a separator, then components cut by single separators,
none of them empty (so no doubled and no trailing separator). Anything else
is `BAD_PATH`. Allocation of a path is taken to succeed. -/
def Path_new (pcPath : String) : Except Status Path :=
  match pcPath.toList with
  | [] => .error BAD_PATH
  | c :: cs =>
    if c ≠ '/' then .error BAD_PATH
    else if (Path_components cs).any (fun w => w.isEmpty) then .error BAD_PATH
    else .ok (Path_components cs)

/-- Modelled from the spec: `Path_getDepth` of `path.c`, the number of
components. -/
def Path_getDepth (oPPath : Path) : Nat := oPPath.length

/-- Modelled from the spec: `Path_prefix` of `path.c`; the first `n`
components for `1 ≤ n ≤ depth`, a failure outside that range. -/
def Path_prefix (oPPath : Path) (n : Nat) : Except Status Path :=
  if 1 ≤ n ∧ n ≤ Path_getDepth oPPath then .ok (oPPath.take n) else .error BAD_PATH

/-- Modelled from the spec: `Path_getSharedPrefixDepth` of `path.c`, the
number of leading components two paths have in common. -/
def Path_getSharedPrefixDepth : Path → Path → Nat
  | a :: as, b :: bs => if a = b then Path_getSharedPrefixDepth as bs + 1 else 0
  | _, _ => 0

/-- Three-way comparison of two characters by code point. -/
def Char_compare (a b : Char) : Int :=
  if a.toNat < b.toNat then -1 else if b.toNat < a.toNat then 1 else 0

/-- Lexicographic three-way comparison of two sequences; a proper prefix
comes first. -/
def lexCompare {α : Type} (cmp : α → α → Int) : List α → List α → Int
  | [], [] => 0
  | [], _ :: _ => -1
  | _ :: _, [] => 1
  | a :: as, b :: bs => if cmp a b = 0 then lexCompare cmp as bs else cmp a b

/-- Modelled from the spec: `Path_comparePath` of `path.c`; a total order,
component-wise lexicographic, zero exactly on identical paths. -/
def Path_comparePath (a b : Path) : Int :=
  lexCompare (lexCompare Char_compare) a b

/-! ## Node -/

/-- A node of the tree with everything it owns. `oNParent` is the parent
back-reference, held as the path of the node it points to (all that is ever
read through it); `bIsFile` is the tag (`Node_type`, TRUE for a file);
`oDChildren` is the child sequence. -/
inductive Node where
  | mk (oPPath : Path) (oNParent : Option Path) (bIsFile : Bool)
      (pvContents : VoidPtr) (ulLength : Nat) (oDChildren : List Node)

/-- Modelled from the spec: `Node_getPath` of `nodeFT.c`. -/
def Node_getPath : Node → Path
  | .mk p _ _ _ _ _ => p

/-- Modelled from the spec: the path of `Node_getParent`, none for NULL. -/
def Node_getParentPath : Node → Option Path
  | .mk _ q _ _ _ _ => q

/-- Modelled from the spec: `Node_type` of `nodeFT.c`, TRUE for a file. -/
def Node_type : Node → Bool
  | .mk _ _ t _ _ _ => t

/-- Modelled from the spec: `Node_data` of `nodeFT.c`. -/
def Node_data : Node → VoidPtr
  | .mk _ _ _ d _ _ => d

/-- Modelled from the spec: `Node_len` of `nodeFT.c`. -/
def Node_len : Node → Nat
  | .mk _ _ _ _ l _ => l

/-- The child sequence of a node. -/
def Node_children : Node → List Node
  | .mk _ _ _ _ _ cs => cs

/-- The node with its child sequence replaced. -/
def Node_setChildren : Node → List Node → Node
  | .mk p q t d l _, cs => .mk p q t d l cs

/-- Modelled from the spec: `Node_getNumChildren` of `nodeFT.c`. -/
def Node_getNumChildren (oNNode : Node) : Nat := (Node_children oNNode).length

/-- Modelled from the spec: `Node_getChild` of `nodeFT.c`; the index must be
below the number of children. -/
def Node_getChild (oNNode : Node) (ulChildID : Nat) : Except Status Node :=
  match (Node_children oNNode)[ulChildID]? with
  | some c => .ok c
  | none => .error NO_SUCH_PATH

/-- Modelled from the spec: the search of `Node_hasChild` over the sorted
child sequence, from index `i` on. It stops at the first child whose path is
not below the sought one: the child sought, or the place where it would go.
On a sequence in strictly increasing order this is what a binary search
returns. -/
def Node_hasChild_from (oPPath : Path) : List Node → Nat → Bool × Nat
  | [], i => (false, i)
  | c :: cs, i =>
    if Path_comparePath (Node_getPath c) oPPath = 0 then (true, i)
    else if Path_comparePath (Node_getPath c) oPPath > 0 then (false, i)
    else Node_hasChild_from oPPath cs (i + 1)

/-- Modelled from the spec: `Node_hasChild` of `nodeFT.c`; whether a child
with this path exists, and its index or its insertion point. -/
def Node_hasChild (oNNode : Node) (oPPath : Path) : Bool × Nat :=
  Node_hasChild_from oPPath (Node_children oNNode) 0

mutual
/-- The number of nodes of a subtree: what `Node_free` returns. -/
def Node_size : Node → Nat
  | .mk _ _ _ _ _ cs => Node_sizeList cs + 1
/-- The number of nodes of a sequence of subtrees. -/
def Node_sizeList : List Node → Nat
  | [] => 0
  | c :: cs => Node_size c + Node_sizeList cs
end

/-- A node handle: NULL, or the position of a node below the root. -/
abbrev Node_T := Option (List Nat)

/-- The node at a position below `n`. -/
def Node_at : Node → List Nat → Option Node
  | n, [] => some n
  | n, i :: rest =>
    match (Node_children n)[i]? with
    | none => none
    | some c => Node_at c rest

/-- The node a handle addresses in the tree `heap`; none for NULL. -/
def Node_deref (heap : Option Node) (h : Node_T) : Option Node :=
  match heap, h with
  | some root, some loc => Node_at root loc
  | _, _ => none

/-- The tree with `f` applied to the node at a position. -/
def Node_updateAt (f : Node → Node) : Node → List Nat → Node
  | n, [] => f n
  | n, i :: rest =>
    match (Node_children n)[i]? with
    | none => n
    | some c => Node_setChildren n ((Node_children n).set i (Node_updateAt f c rest))

/-- The tree with the subtree at a position unlinked; none when the position
is the root itself. -/
def Node_eraseAt : Node → List Nat → Option Node
  | _, [] => none
  | n, i :: rest =>
    match (Node_children n)[i]? with
    | none => some n
    | some c =>
      match Node_eraseAt c rest with
      | none => some (Node_setChildren n ((Node_children n).eraseIdx i))
      | some c1 => some (Node_setChildren n ((Node_children n).set i c1))

/-- Modelled from the spec: the linking of a new child into the child
sequence of its parent at an index (`newDirectory` and `newFile` of the
spec). -/
def Node_addChild (oNParent oNChild : Node) (ulIndex : Nat) : Node :=
  Node_setChildren oNParent ((Node_children oNParent).insertIdx ulIndex oNChild)

/-- Modelled from the spec: node creation of `nodeFT.c`, common to
`Node_newDir` and `Node_newFile`. It fails only when memory is exhausted
(`mem = 0`); otherwise the new node is linked into the parent's child
sequence at the place `Node_hasChild` gives. With a NULL parent the new node
is the root of a tree of its own (`ft.c` passes a NULL parent only while
`oNRoot` is NULL), and a handle that addresses no node, which `ft.c` never
holds, is answered like exhausted memory. Returns the status, the tree and
the new handle. -/
def Node_create (mem : Nat) (heap : Option Node) (oPPath : Path) (oNParent : Node_T)
    (bIsFile : Bool) (pvContents : VoidPtr) (ulLength : Nat) :
    Status × Option Node × Node_T :=
  if mem = 0 then (MEMORY_ERROR, heap, none)
  else
    match oNParent with
    | none => (SUCCESS, some (Node.mk oPPath none bIsFile pvContents ulLength []), some [])
    | some loc =>
      match Node_deref heap (some loc), heap with
      | some par, some root =>
        let ulIndex := (Node_hasChild par oPPath).2
        (SUCCESS,
          some (Node_updateAt (fun n => Node_addChild n
            (Node.mk oPPath (some (Node_getPath n)) bIsFile pvContents ulLength []) ulIndex)
            root loc),
          some (loc ++ [ulIndex]))
      | _, _ => (MEMORY_ERROR, heap, none)

/-- Modelled from the spec: `Node_newDir` of `nodeFT.c`. -/
def Node_newDir (mem : Nat) (heap : Option Node) (oPPath : Path) (oNParent : Node_T) :
    Status × Option Node × Node_T :=
  Node_create mem heap oPPath oNParent false VoidPtr.NULL 0

/-- Modelled from the spec: `Node_newFile` of `nodeFT.c`. -/
def Node_newFile (mem : Nat) (heap : Option Node) (oPPath : Path) (oNParent : Node_T)
    (pvContents : VoidPtr) (ulLength : Nat) : Status × Option Node × Node_T :=
  Node_create mem heap oPPath oNParent true pvContents ulLength

/-- Modelled from the spec: `Node_free` of `nodeFT.c`; the subtree at the
handle is destroyed and unlinked from its parent. Returns the tree that is
left and the number of nodes destroyed. -/
def Node_free (heap : Option Node) (oNNode : Node_T) : Option Node × Nat :=
  match heap, oNNode with
  | some root, some loc =>
    match Node_at root loc with
    | some n => (Node_eraseAt root loc, Node_size n)
    | none => (heap, 0)
  | _, _ => (heap, 0)

/-- Modelled from the spec: `Node_changeData` of `nodeFT.c`; the buffer and
length of the node at the handle are replaced. -/
def Node_changeData (heap : Option Node) (oNNode : Node_T) (pvNewContents : VoidPtr)
    (ulNewLength : Nat) : Option Node :=
  match heap, oNNode with
  | some root, some loc =>
    some (Node_updateAt (fun n => Node.mk (Node_getPath n) (Node_getParentPath n) (Node_type n)
      pvNewContents ulNewLength (Node_children n)) root loc)
  | _, _ => heap

/-! ## ft.c -/

/-- The three state variables of `ft.c`. -/
structure FT where
  bIsInitialized : Bool
  oNRoot : Option Node
  ulCount : Nat

/-- The `for` loop of `FT_traversePath` (lines 86-108) over the depths
`i` still to visit; `oNCurr` is the node reached so far, at position `loc`. -/
def FT_traversePath_loop (oPPath : Path) : List Nat → Node → List Nat → Status × Node_T
  | [], _, loc => (SUCCESS, some loc)
  | i :: rest, oNCurr, loc =>
    match Path_prefix oPPath i with
    | .error iStatus => (iStatus, none)
    | .ok oPPrefix =>
      if (Node_hasChild oNCurr oPPrefix).1 then
        match Node_getChild oNCurr (Node_hasChild oNCurr oPPrefix).2 with
        | .error iStatus => (iStatus, none)
        | .ok oNChild =>
          FT_traversePath_loop oPPath rest oNChild (loc ++ [(Node_hasChild oNCurr oPPrefix).2])
      else (SUCCESS, some loc)

/-- The function `FT_traversePath` of `ft.c` (lines 49-113): the status and
`*poNFurthest`. -/
def FT_traversePath (oNRoot : Option Node) (oPPath : Path) : Status × Node_T :=
  match oNRoot with
  | none => (SUCCESS, none)
  | some root =>
    match Path_prefix oPPath 1 with
    | .error iStatus => (iStatus, none)
    | .ok oPPrefix =>
      if Path_comparePath (Node_getPath root) oPPrefix ≠ 0 then (CONFLICTING_PATH, none)
      else FT_traversePath_loop oPPath (List.range' 2 (Path_getDepth oPPath - 1)) root []

/-- The function `FT_findNode` of `ft.c` (lines 125-167): the status and
`*poNResult`. -/
def FT_findNode (s : FT) (pcPath : String) : Status × Node_T :=
  if !s.bIsInitialized then (INITIALIZATION_ERROR, none)
  else
    match Path_new pcPath with
    | .error iStatus => (iStatus, none)
    | .ok oPPath =>
      let r := FT_traversePath s.oNRoot oPPath
      if r.1 ≠ SUCCESS then (r.1, none)
      else
        match Node_deref s.oNRoot r.2 with
        | none => (NO_SUCH_PATH, none)
        | some oNFound =>
          if Path_comparePath (Node_getPath oNFound) oPPath ≠ 0 then (NO_SUCH_PATH, none)
          else (SUCCESS, r.2)

/-- The node creation inside the loop: line 240 of `FT_insertDir` (`oFile`
is none) and lines 386-391 of `FT_insertFile` (`oFile` holds the contents
and length). -/
def FT_insert_new (ulDepth : Nat) (oFile : Option (VoidPtr × Nat)) (ulIndex mem : Nat)
    (heap : Option Node) (oPPrefix : Path) (oNCurr : Node_T) : Status × Option Node × Node_T :=
  match oFile with
  | some (pvContents, ulLength) =>
    if ulIndex = ulDepth then Node_newFile mem heap oPPrefix oNCurr pvContents ulLength
    else Node_newDir mem heap oPPrefix oNCurr
  | none => Node_newDir mem heap oPPrefix oNCurr

/-- The `while` loop of `FT_insertDir` (lines 225-257) and of `FT_insertFile`
(lines 371-408) over the levels `ulIndex` still to build. `oFile` is none
for `FT_insertDir`; for `FT_insertFile` it holds the contents and length
given to `Node_newFile` at the last level. `mem` is the number of node
allocations that will still succeed. Returns the status, the tree,
`oNFirstNew` and `ulNewNodes`; on a failure the tree is the one left by
`Node_free(oNFirstNew)`. -/
def FT_insert_loop (oPPath : Path) (ulDepth : Nat) (oFile : Option (VoidPtr × Nat)) :
    List Nat → Nat → Option Node → Node_T → Node_T → Nat →
    Status × Option Node × Node_T × Nat
  | [], _, heap, _, oNFirstNew, ulNewNodes => (SUCCESS, heap, oNFirstNew, ulNewNodes)
  | ulIndex :: rest, mem, heap, oNCurr, oNFirstNew, ulNewNodes =>
    match Path_prefix oPPath ulIndex with
    | .error iStatus =>
      (iStatus, if oNFirstNew ≠ none then (Node_free heap oNFirstNew).1 else heap,
        oNFirstNew, ulNewNodes)
    | .ok oPPrefix =>
      let r := FT_insert_new ulDepth oFile ulIndex mem heap oPPrefix oNCurr
      if r.1 ≠ SUCCESS then
        (r.1, if oNFirstNew ≠ none then (Node_free heap oNFirstNew).1 else heap,
          oNFirstNew, ulNewNodes)
      else
        FT_insert_loop oPPath ulDepth oFile rest (mem - 1) r.2.1 r.2.2
          (if oNFirstNew = none then r.2.2 else oNFirstNew) (ulNewNodes + 1)

/-- Lines 189-266 of `FT_insertDir`, the same as lines 334-420 of
`FT_insertFile`: the traversal, the checks on the furthest node, the loop
and the update of the state variables. When the loop fails the state
variables are not assigned; the tree below a root that is not NULL is the
one that `Node_free(oNFirstNew)` has left. `ulCount` is a natural number;
line 263 (408) adds in `size_t`, which gives the same count as long as
`ulCount` is the number of nodes of the tree (`FT_Inv`), a number that the
address space keeps below `2 ^ 64`. -/
def FT_insert_body (s : FT) (mem : Nat) (oPPath : Path) (oFile : Option (VoidPtr × Nat)) :
    Status × FT :=
  let t := FT_traversePath s.oNRoot oPPath
  if t.1 ≠ SUCCESS then (t.1, s)
  else
    let oNCurr := t.2
    if (match Node_deref s.oNRoot oNCurr with
        | some n => Node_type n
        | none => false) then (NOT_A_DIRECTORY, s)
    else if oNCurr.isNone && s.oNRoot.isSome then (CONFLICTING_PATH, s)
    else
      let ulDepth := Path_getDepth oPPath
      let ulIndex :=
        match Node_deref s.oNRoot oNCurr with
        | none => 1
        | some n => Path_getDepth (Node_getPath n) + 1
      if (match Node_deref s.oNRoot oNCurr with
          | some n =>
            decide (ulIndex = ulDepth + 1) && decide (Path_comparePath oPPath (Node_getPath n) = 0)
          | none => false) then (ALREADY_IN_TREE, s)
      else
        let r := FT_insert_loop oPPath ulDepth oFile
          (List.range' ulIndex (ulDepth + 1 - ulIndex)) mem s.oNRoot oNCurr none 0
        if r.1 ≠ SUCCESS then (r.1, { s with oNRoot := if s.oNRoot.isNone then none else r.2.1 })
        else
          (SUCCESS,
            { s with
              oNRoot := if s.oNRoot.isNone then Node_deref r.2.1 r.2.2.1 else r.2.1
              ulCount := s.ulCount + r.2.2.2 })

/-- The function `FT_insertDir` of `ft.c` (lines 171-267). -/
def FT_insertDir (s : FT) (mem : Nat) (pcPath : String) : Status × FT :=
  if !s.bIsInitialized then (INITIALIZATION_ERROR, s)
  else
    match Path_new pcPath with
    | .error iStatus => (iStatus, s)
    | .ok oPPath => FT_insert_body s mem oPPath none

/-- The function `FT_insertFile` of `ft.c` (lines 311-421). -/
def FT_insertFile (s : FT) (mem : Nat) (pcPath : String) (pvContents : VoidPtr)
    (ulLength : Nat) : Status × FT :=
  if !s.bIsInitialized then (INITIALIZATION_ERROR, s)
  else
    match Path_new pcPath with
    | .error iStatus => (iStatus, s)
    | .ok oPPath =>
      if s.oNRoot.isNone then (CONFLICTING_PATH, s)
      else FT_insert_body s mem oPPath (some (pvContents, ulLength))

/-- The function `FT_containsDir` of `ft.c` (lines 271-281). -/
def FT_containsDir (s : FT) (pcPath : String) : Bool :=
  let r := FT_findNode s pcPath
  decide (r.1 = SUCCESS) &&
    (match Node_deref s.oNRoot r.2 with
     | some oNFound => Node_type oNFound == false
     | none => false)

/-- The function `FT_containsFile` of `ft.c` (lines 425-435). -/
def FT_containsFile (s : FT) (pcPath : String) : Bool :=
  let r := FT_findNode s pcPath
  decide (r.1 = SUCCESS) &&
    (match Node_deref s.oNRoot r.2 with
     | some oNFound => Node_type oNFound == true
     | none => false)

/-- Lines 301-303 of `FT_rmDir`, the same as lines 455-457 of `FT_rmFile`:
the node found is freed, the count reduced, the root cleared at zero. -/
def FT_rm_free (s : FT) (oNFound : Node_T) : FT :=
  let r := Node_free s.oNRoot oNFound
  let ulCount := s.ulCount - r.2
  { s with
    oNRoot := if ulCount = 0 then none else r.1
    ulCount := ulCount }

/-- The function `FT_rmDir` of `ft.c` (lines 285-307). -/
def FT_rmDir (s : FT) (pcPath : String) : Status × FT :=
  let r := FT_findNode s pcPath
  if r.1 ≠ SUCCESS then (r.1, s)
  else
    match Node_deref s.oNRoot r.2 with
    | none => (r.1, s)
    | some oNFound =>
      if Node_type oNFound = true then (NOT_A_DIRECTORY, s)
      else (SUCCESS, FT_rm_free s r.2)

/-- The function `FT_rmFile` of `ft.c` (lines 439-461). -/
def FT_rmFile (s : FT) (pcPath : String) : Status × FT :=
  let r := FT_findNode s pcPath
  if r.1 ≠ SUCCESS then (r.1, s)
  else
    match Node_deref s.oNRoot r.2 with
    | none => (r.1, s)
    | some oNFound =>
      if Node_type oNFound = false then (NOT_A_FILE, s)
      else (SUCCESS, FT_rm_free s r.2)

/-- The function `FT_getFileContents` of `ft.c` (lines 465-505). The result
is none when the call reads the type of a NULL node (line 491), which has no
defined outcome; otherwise it is the pointer returned. -/
def FT_getFileContents (s : FT) (pcPath : String) : Option VoidPtr :=
  match Path_new pcPath with
  | .error _ => some VoidPtr.NULL
  | .ok oPPath =>
    let r := FT_traversePath s.oNRoot oPPath
    if r.1 ≠ SUCCESS then some VoidPtr.NULL
    else
      match Node_deref s.oNRoot r.2 with
      | none => none
      | some oNCurr =>
        if Node_type oNCurr = false then some VoidPtr.NULL
        else if Path_comparePath (Node_getPath oNCurr) oPPath ≠ 0 then some VoidPtr.NULL
        else some (Node_data oNCurr)

/-- The function `FT_replaceFileContents` of `ft.c` (lines 509-553). The
result is none when the call reads the type of a NULL node (line 537);
otherwise it is the pointer returned and the state after the call. -/
def FT_replaceFileContents (s : FT) (pcPath : String) (pvNewContents : VoidPtr)
    (ulNewLength : Nat) : Option (VoidPtr × FT) :=
  match Path_new pcPath with
  | .error _ => some (VoidPtr.NULL, s)
  | .ok oPPath =>
    let r := FT_traversePath s.oNRoot oPPath
    if r.1 ≠ SUCCESS then some (VoidPtr.NULL, s)
    else
      match Node_deref s.oNRoot r.2 with
      | none => none
      | some oNCurr =>
        if Node_type oNCurr = false then some (VoidPtr.NULL, s)
        else if Path_comparePath (Node_getPath oNCurr) oPPath ≠ 0 then some (VoidPtr.NULL, s)
        else
          some (Node_data oNCurr,
            { s with oNRoot := Node_changeData s.oNRoot r.2 pvNewContents ulNewLength })

/-- The function `FT_stat` of `ft.c` (lines 557-603). `bIsFile` and `ulSize`
are the values of `*pbIsFile` and `*pulSize` before the call. The result is
none when the call reads the path of a NULL node (line 589), which has no
defined outcome; otherwise it is the status and the two values after the
call. -/
def FT_stat (s : FT) (pcPath : String) (bIsFile : Bool) (ulSize : Nat) :
    Option (Status × Bool × Nat) :=
  if !s.bIsInitialized then some (INITIALIZATION_ERROR, bIsFile, ulSize)
  else
    match Path_new pcPath with
    | .error _ => some (MEMORY_ERROR, bIsFile, ulSize)
    | .ok oPPath =>
      let r := FT_traversePath s.oNRoot oPPath
      if r.1 ≠ SUCCESS then some (MEMORY_ERROR, bIsFile, ulSize)
      else
        match Node_deref s.oNRoot r.2 with
        | none => none
        | some oNCurr =>
          if Path_comparePath (Node_getPath oNCurr) oPPath ≠ 0 then
            some (NO_SUCH_PATH, bIsFile, ulSize)
          else
            some (SUCCESS, Node_type oNCurr,
              if Node_type oNCurr = true then Node_len oNCurr else ulSize)

/-- The function `FT_init` of `ft.c` (lines 607-617). -/
def FT_init (s : FT) : Status × FT :=
  if s.bIsInitialized then (INITIALIZATION_ERROR, s)
  else (SUCCESS, { bIsInitialized := true, oNRoot := none, ulCount := 0 })

/-- The function `FT_destroy` of `ft.c` (lines 621-636). -/
def FT_destroy (s : FT) : Status × FT :=
  if !s.bIsInitialized then (INITIALIZATION_ERROR, s)
  else
    match s.oNRoot with
    | some root =>
      (SUCCESS,
        { bIsInitialized := false, oNRoot := none,
          ulCount := s.ulCount - (Node_free (some root) (some [])).2 })
    | none => (SUCCESS, { s with bIsInitialized := false })

/-! ## checkerDT.c -/

/-- The function `CheckerDT_Node_isValid` of `checkerDT.c` (lines 16-43). -/
def CheckerDT_Node_isValid (oNNode : Option Node) : Bool :=
  match oNNode with
  | none => false
  | some n =>
    match Node_getParentPath n with
    | none => true
    | some oPPPath =>
      if Path_getSharedPrefixDepth (Node_getPath n) oPPPath ≠ Path_getDepth (Node_getPath n) - 1
      then false else true

/-- Lines 83-95 of `CheckerDT_treeCheck`: whether the child at a non-zero
index is out of order with the child before it (above it, or equal to it);
`prevNode` is the path of the child before, none at index 0. -/
def CheckerDT_siblingCheck (prevNode : Option Path) (oNChild : Node) : Bool :=
  match prevNode with
  | some prevNodePath =>
    decide (Path_comparePath prevNodePath (Node_getPath oNChild) > 0) ||
      decide (Path_comparePath prevNodePath (Node_getPath oNChild) = 0)
  | none => false

mutual
/-- The function `CheckerDT_treeCheck` of `checkerDT.c` (lines 55-110) on a
node that is not NULL: the verdict and the value of `*recurCount` after the
call. -/
def CheckerDT_treeCheck_node : Node → Nat → Bool × Nat
  | .mk p q t d l cs, recurCount =>
    if !CheckerDT_Node_isValid (some (.mk p q t d l cs)) then (false, recurCount)
    else
      match CheckerDT_treeCheck_children cs none recurCount with
      | (false, c) => (false, c)
      | (true, c) => (true, c + 1)
/-- The `for` loop of `CheckerDT_treeCheck` (lines 72-104) over the children
still to visit; `prevNode` is the path of the child visited before, none at
index 0. -/
def CheckerDT_treeCheck_children : List Node → Option Path → Nat → Bool × Nat
  | [], _, recurCount => (true, recurCount)
  | oNChild :: rest, prevNode, recurCount =>
    if CheckerDT_siblingCheck prevNode oNChild then (false, recurCount)
    else
      match CheckerDT_treeCheck_node oNChild recurCount with
      | (false, c) => (false, c)
      | (true, c) => CheckerDT_treeCheck_children rest (some (Node_getPath oNChild)) c
end

/-- The function `CheckerDT_treeCheck` of `checkerDT.c` (lines 55-110). -/
def CheckerDT_treeCheck (oNNode : Option Node) (recurCount : Nat) : Bool × Nat :=
  match oNNode with
  | none => (true, recurCount)
  | some n => CheckerDT_treeCheck_node n recurCount

/-- The function `CheckerDT_isValid` of `checkerDT.c` (lines 113-155). -/
def CheckerDT_isValid (bIsInitialized : Bool) (oNRoot : Option Node) (ulCount : Nat) : Bool :=
  if !bIsInitialized && (ulCount != 0 || oNRoot.isSome) then false
  else if bIsInitialized && ((oNRoot.isNone && decide (ulCount > 0)) ||
      (oNRoot.isSome && ulCount == 0)) then false
  else
    let r := CheckerDT_treeCheck oNRoot 0
    if r.1 && r.2 != ulCount then false else r.1

/-! ## Predicates used in the statements -/

/-- What a three-way comparison must satisfy to be a strict total order. -/
structure IsCompare {α : Type} (cmp : α → α → Int) : Prop where
  eq_iff : ∀ a b, cmp a b = 0 ↔ a = b
  swap : ∀ a b, 0 < cmp a b ↔ cmp b a < 0
  trans : ∀ a b c, cmp a b < 0 → cmp b c < 0 → cmp a c < 0

/-- The state of an initialized tree that holds no node. -/
def FT_empty : FT := { bIsInitialized := true, oNRoot := none, ulCount := 0 }

/-- The state reached from the empty tree by `FT_insertDir("/a")` and then
`FT_insertFile("/a/f", [1, 2], 2)`. -/
def FT_sample_file : FT :=
  (FT_insertFile (FT_insertDir FT_empty 1 "/a").2 1 "/a/f" (VoidPtr.buf [1, 2]) 2).2

/-- The tag, contents and length of the node that the insertion loop creates
at level `ulIndex`: a file with the given contents at the last level of
`FT_insertFile`, a directory otherwise. -/
def FT_newKind (ulDepth : Nat) (oFile : Option (VoidPtr × Nat)) (ulIndex : Nat) :
    Bool × VoidPtr × Nat :=
  match oFile with
  | some (pvContents, ulLength) =>
    if ulIndex = ulDepth then (true, pvContents, ulLength) else (false, VoidPtr.NULL, 0)
  | none => (false, VoidPtr.NULL, 0)

/-- The nodes that `k + 1` rounds of the insertion loop create from level
`i` on: the node for the prefix of depth `i`, whose only child is the node
for the next prefix, and so on. -/
def FT_chain (oPPath : Path) (ulDepth : Nat) (oFile : Option (VoidPtr × Nat)) :
    Nat → Nat → Option Path → Node
  | 0, i, oNParent =>
    Node.mk (oPPath.take i) oNParent (FT_newKind ulDepth oFile i).1
      (FT_newKind ulDepth oFile i).2.1 (FT_newKind ulDepth oFile i).2.2 []
  | k + 1, i, oNParent =>
    Node.mk (oPPath.take i) oNParent (FT_newKind ulDepth oFile i).1
      (FT_newKind ulDepth oFile i).2.1 (FT_newKind ulDepth oFile i).2.2
      [FT_chain oPPath ulDepth oFile k (i + 1) (some (oPPath.take i))]

mutual
/-- The nodes of a subtree in pre-order, each as its path, tag, contents and
length. -/
def Node_entries : Node → List (Path × Bool × VoidPtr × Nat)
  | .mk p _ t d l cs => (p, t, d, l) :: Node_entriesList cs
/-- The nodes of a sequence of subtrees, subtree after subtree. -/
def Node_entriesList : List Node → List (Path × Bool × VoidPtr × Nat)
  | [] => []
  | c :: cs => Node_entries c ++ Node_entriesList cs
end

/-- The nodes reachable from `oNRoot`, each as its path, tag, contents and
length. -/
def FT_entries (s : FT) : List (Path × Bool × VoidPtr × Nat) :=
  match s.oNRoot with
  | none => []
  | some root => Node_entries root

/-- The state reached from the empty tree by `FT_insertDir("/a")`. -/
def FT_sample_dir : FT := (FT_insertDir FT_empty 1 "/a").2

mutual
/-- The structural invariant of a subtree: at every node the children are in
strictly increasing path order, every child has the node as its parent and
the path of the node plus one component as its path, and every child
satisfies the invariant in turn. -/
def Node_wf : Node → Bool
  | .mk p _ _ _ _ cs =>
    decide (cs.Pairwise (fun a b => Path_comparePath (Node_getPath a) (Node_getPath b) < 0)) &&
      Node_wfList p cs
/-- The part of the invariant that concerns each child of a node with path
`oPParent`. -/
def Node_wfList : Path → List Node → Bool
  | _, [] => true
  | oPParent, c :: cs =>
    (Node_getParentPath c == some oPParent) && (Node_getPath c != []) &&
      ((Node_getPath c).dropLast == oPParent) && Node_wf c && Node_wfList oPParent cs
end

/-- The invariant of the three state variables: without initialization
there is no root; without a root the count is 0; with a root the count is the
number of nodes below it, the tree satisfies the structural invariant, and the
root has no parent and a path of depth 1. -/
def FT_Inv (s : FT) : Prop :=
  (s.bIsInitialized = false → s.oNRoot = none) ∧
    match s.oNRoot with
    | none => s.ulCount = 0
    | some root =>
      s.ulCount = Node_size root ∧ Node_wf root = true ∧ Node_getParentPath root = none ∧
        (Node_getPath root).length = 1

/-- The state before any call: static storage is zeroed. -/
def FT_start : FT := { bIsInitialized := false, oNRoot := none, ulCount := 0 }

/-- The states the program can be in: the start state and every state that
a call of `FT_init`, `FT_insertDir`, `FT_insertFile`, `FT_rmDir`,
`FT_rmFile`, `FT_replaceFileContents` or `FT_destroy` leaves, with any
arguments, any amount of memory and any outcome. -/
inductive FT_reachable : FT → Prop where
  | start : FT_reachable FT_start
  | init (s : FT) : FT_reachable s → FT_reachable (FT_init s).2
  | insertDir (s : FT) (mem : Nat) (pcPath : String) :
    FT_reachable s → FT_reachable (FT_insertDir s mem pcPath).2
  | insertFile (s : FT) (mem : Nat) (pcPath : String) (pvContents : VoidPtr) (ulLength : Nat) :
    FT_reachable s → FT_reachable (FT_insertFile s mem pcPath pvContents ulLength).2
  | rmDir (s : FT) (pcPath : String) : FT_reachable s → FT_reachable (FT_rmDir s pcPath).2
  | rmFile (s : FT) (pcPath : String) : FT_reachable s → FT_reachable (FT_rmFile s pcPath).2
  | replaceFileContents (s s1 : FT) (pcPath : String) (pvNewContents pvOld : VoidPtr)
    (ulNewLength : Nat) : FT_reachable s →
    FT_replaceFileContents s pcPath pvNewContents ulNewLength = some (pvOld, s1) →
    FT_reachable s1
  | destroy (s : FT) : FT_reachable s → FT_reachable (FT_destroy s).2

/-- The state reached from `FT_sample_file` by `FT_insertDir("/a/b/c")`: the
directories "/a", "/a/b", "/a/b/c" and the file "/a/f". -/
def FT_sample_tree : FT := (FT_insertDir FT_sample_file 2 "/a/b/c").2

/-! ## Files as leaves -/

mutual
/-- Whether every file of a subtree is a leaf: a node tagged as a file has no
children, and so down the subtree. -/
def Node_leafFiles : Node → Bool
  | .mk _ _ t _ _ cs => (!t || cs.isEmpty) && Node_leafFilesList cs
/-- Whether every file in a sequence of subtrees is a leaf. -/
def Node_leafFilesList : List Node → Bool
  | [] => true
  | c :: cs => Node_leafFiles c && Node_leafFilesList cs
end

/-- Whether every file of the tree is a leaf. -/
def FT_leafFiles (s : FT) : Bool :=
  match s.oNRoot with
  | none => true
  | some root => Node_leafFiles root

/-! ## ft.c: the string representation -/

/-- Modelled from the spec: `Path_getPathname` of `path.c`, the text of a
path: every component after a slash. -/
def Path_getPathname : Path → List Char
  | [] => []
  | w :: ws => '/' :: w ++ Path_getPathname ws

/-- A `DynArray_T` of `ft.c`: its elements, each a node or NULL. -/
abbrev DynArray_T := List (Option Node)

/-- Modelled from the spec: `DynArray_set` of `dynarray.c`. The result is none
when the index is not below the length, which the function asserts. -/
def DynArray_set (oDynArray : DynArray_T) (uIndex : Nat) (pvElement : Option Node) :
    Option DynArray_T :=
  if uIndex < oDynArray.length then some (oDynArray.set uIndex pvElement) else none

mutual
/-- The function `FT_preOrderTraversal` of `ft.c` (lines 650-682) on a node
that is not NULL: the array and the next unused index after the call, none
when `DynArray_set` fails its assertion. -/
def FT_preOrderTraversal_node : Node → DynArray_T → Nat → Option (DynArray_T × Nat)
  | .mk p q t d l cs, arr, i =>
    (DynArray_set arr i (some (.mk p q t d l cs))).bind fun arr1 =>
      (FT_preOrderTraversal_children true cs arr1 (i + 1)).bind fun r =>
        FT_preOrderTraversal_children false cs r.1 r.2
/-- The two `for` loops of `FT_preOrderTraversal` (lines 660-668 with
`bKind` TRUE, lines 671-679 with `bKind` FALSE) over the children still to
visit: the children of type `bKind` are traversed, the others skipped. -/
def FT_preOrderTraversal_children : Bool → List Node → DynArray_T → Nat →
    Option (DynArray_T × Nat)
  | _, [], arr, i => some (arr, i)
  | bKind, c :: cs, arr, i =>
    if Node_type c = bKind then
      (FT_preOrderTraversal_node c arr i).bind fun r =>
        FT_preOrderTraversal_children bKind cs r.1 r.2
    else FT_preOrderTraversal_children bKind cs arr i
end

/-- The function `FT_strlenAccumulate` of `ft.c` (lines 689-694): the value
of `*pulAcc` after the call. -/
def FT_strlenAccumulate (oNNode : Option Node) (ulAcc : Nat) : Nat :=
  match oNNode with
  | none => ulAcc
  | some n => ulAcc + ((Path_getPathname (Node_getPath n)).length + 1)

/-- The function `FT_strcatAccumulate` of `ft.c` (lines 701-708): the text
in `pcAcc` after the call. -/
def FT_strcatAccumulate (oNNode : Option Node) (pcAcc : List Char) : List Char :=
  match oNNode with
  | none => pcAcc
  | some n => pcAcc ++ Path_getPathname (Node_getPath n) ++ ['\n']

mutual
/-- Following the spec: the files-before-directories pre-order of a subtree,
the node, then its file children, each with its subtree, then its directory
children, each with its subtree. -/
def Node_filesFirst : Node → List Node
  | .mk p q t d l cs =>
    .mk p q t d l cs :: (Node_filesFirstList true cs ++ Node_filesFirstList false cs)
/-- Following the spec: the children of type `bKind` in a sequence of
siblings, in sibling order, each followed by its subtree in
files-before-directories pre-order. -/
def Node_filesFirstList : Bool → List Node → List Node
  | _, [] => []
  | bKind, c :: cs =>
    (if Node_type c = bKind then Node_filesFirst c else []) ++ Node_filesFirstList bKind cs
end

theorem Char_compare_isCompare : IsCompare Char_compare := by
  refine ⟨?_, ?_, ?_⟩
  · intro a b
    unfold Char_compare
    constructor
    · intro h
      have h3 : a.toNat = b.toNat := by
        split_ifs at h with h1 h2 <;> omega
      have h4 := congrArg Char.ofNat h3
      simpa using h4
    · rintro rfl
      simp
  · intro a b
    unfold Char_compare
    split_ifs <;> omega
  · intro a b c
    unfold Char_compare
    split_ifs <;> omega

theorem lexCompare_isCompare {α : Type} {cmp : α → α → Int} (h : IsCompare cmp) :
    IsCompare (lexCompare cmp) := by
  refine ⟨?_, ?_, ?_⟩
  · intro a
    induction a with
    | nil => intro b; cases b <;> simp [lexCompare]
    | cons x xs ih =>
      intro b
      cases b with
      | nil => simp [lexCompare]
      | cons y ys =>
        simp only [lexCompare]
        split_ifs with hxy
        · rw [ih, List.cons.injEq]
          have := (h.eq_iff x y).mp hxy
          simp [this]
        · simp only [hxy, false_iff]
          intro heq
          apply hxy
          rw [h.eq_iff]
          exact (List.cons.inj heq).1
  · intro a
    induction a with
    | nil => intro b; cases b <;> simp [lexCompare]
    | cons x xs ih =>
      intro b
      cases b with
      | nil => simp [lexCompare]
      | cons y ys =>
        simp only [lexCompare]
        have hyx : cmp y x = 0 ↔ cmp x y = 0 := by
          rw [h.eq_iff, h.eq_iff]; exact eq_comm
        split_ifs with h1 h2 h2
        · exact ih ys
        · exact absurd (hyx.mpr h1) h2
        · exact absurd (hyx.mp h2) h1
        · exact h.swap x y
  · intro a
    induction a with
    | nil =>
      intro b c
      cases b <;> cases c <;> simp [lexCompare]
    | cons x xs ih =>
      intro b c
      cases b with
      | nil => simp [lexCompare]
      | cons y ys =>
        cases c with
        | nil =>
          simp only [lexCompare]
          intro _ h2
          omega
        | cons z zs =>
          simp only [lexCompare]
          intro h1 h2
          by_cases hxy : cmp x y = 0
          · have exy := (h.eq_iff x y).mp hxy
            subst exy
            rw [if_pos hxy] at h1
            by_cases hxz : cmp x z = 0
            · rw [if_pos hxz] at h2 ⊢
              exact ih ys zs h1 h2
            · rw [if_neg hxz] at h2 ⊢
              exact h2
          · rw [if_neg hxy] at h1
            by_cases hyz : cmp y z = 0
            · have eyz := (h.eq_iff y z).mp hyz
              subst eyz
              rw [if_neg hxy]
              exact h1
            · rw [if_neg hyz] at h2
              have hxz := h.trans x y z h1 h2
              have : cmp x z ≠ 0 := by omega
              rw [if_neg this]
              exact hxz

theorem Path_comparePath_isCompare : IsCompare Path_comparePath :=
  lexCompare_isCompare (lexCompare_isCompare Char_compare_isCompare)

theorem Path_comparePath_eq_zero {a b : Path} : Path_comparePath a b = 0 ↔ a = b :=
  Path_comparePath_isCompare.eq_iff a b

theorem Path_comparePath_self (a : Path) : Path_comparePath a a = 0 :=
  Path_comparePath_eq_zero.mpr rfl

/-! ## Handles -/

theorem Node_deref_none (heap : Option Node) : Node_deref heap none = none := by
  cases heap <;> rfl

/-! ## Insertion at a path that holds a file -/

/-- C4, as the code behaves: when a file exists at the path, `FT_insertFile`
and `FT_insertDir` of that path both return NOT_A_DIRECTORY (not
ALREADY_IN_TREE) and leave the state as it was. -/
theorem FT_insert_on_file (s : FT) (mem : Nat) (pcPath : String) (pvContents : VoidPtr)
    (ulLength : Nat) (h : FT_containsFile s pcPath = true) :
    FT_insertFile s mem pcPath pvContents ulLength = (NOT_A_DIRECTORY, s) ∧
      FT_insertDir s mem pcPath = (NOT_A_DIRECTORY, s) := by
  unfold FT_containsFile FT_findNode at h
  unfold FT_insertFile FT_insertDir FT_insert_body
  cases hi : s.bIsInitialized
  · simp [hi] at h
  · cases hp : Path_new pcPath with
    | error e => simp [hi, hp, Node_deref_none] at h
    | ok oPPath =>
      simp only [hi, hp, Bool.not_true, Bool.false_eq_true, if_false] at h ⊢
      by_cases ht : (FT_traversePath s.oNRoot oPPath).1 = SUCCESS
      · simp only [ht, ne_eq, not_true_eq_false, if_false] at h ⊢
        cases hd : Node_deref s.oNRoot (FT_traversePath s.oNRoot oPPath).2 with
        | none => simp [hd] at h
        | some n =>
          simp only [hd] at h ⊢
          by_cases hc : Path_comparePath (Node_getPath n) oPPath = 0
          · simp only [hc, ne_eq, not_true_eq_false, if_false, hd, decide_True, Bool.true_and,
              beq_true] at h
            have hroot : s.oNRoot.isNone = false := by
              cases hr : s.oNRoot with
              | none => simp [Node_deref, hr] at hd
              | some r => rfl
            simp [h, hroot]
          · simp [hc] at h
      · simp [ht] at h

/-- The tree with the file "/a/f": both insertions of "/a/f" answer
NOT_A_DIRECTORY. -/
theorem FT_insert_on_file_witness :
    FT_containsFile FT_sample_file "/a/f" = true ∧
      FT_insertFile FT_sample_file 1 "/a/f" VoidPtr.NULL 0 = (NOT_A_DIRECTORY, FT_sample_file) ∧
      FT_insertDir FT_sample_file 1 "/a/f" = (NOT_A_DIRECTORY, FT_sample_file) :=
  ⟨by decide, FT_insert_on_file FT_sample_file 1 "/a/f" VoidPtr.NULL 0 (by decide)⟩

/-! ## `FT_stat` on a malformed path -/

/-- C9, as the code behaves: on an initialized tree `FT_stat` of a text that
`Path_new` rejects with BAD_PATH returns MEMORY_ERROR (line 577), with both
output parameters as they were. -/
theorem FT_stat_bad_path (s : FT) (pcPath : String) (bIsFile : Bool) (ulSize : Nat)
    (hinit : s.bIsInitialized = true) (hbad : Path_new pcPath = .error BAD_PATH) :
    FT_stat s pcPath bIsFile ulSize = some (MEMORY_ERROR, bIsFile, ulSize) := by
  simp [FT_stat, hinit, hbad]

/-- The text "/a//b" has an empty component: `FT_stat` answers MEMORY_ERROR. -/
theorem FT_stat_bad_path_witness :
    FT_empty.bIsInitialized = true ∧ Path_new "/a//b" = .error BAD_PATH ∧
      FT_stat FT_empty "/a//b" false 7 = some (MEMORY_ERROR, false, 7) :=
  ⟨rfl, rfl, FT_stat_bad_path FT_empty "/a//b" false 7 rfl rfl⟩


/-! ## Nodes and positions -/

@[simp] theorem Node_getPath_setChildren (n : Node) (cs : List Node) :
    Node_getPath (Node_setChildren n cs) = Node_getPath n := by cases n; rfl

@[simp] theorem Node_getParentPath_setChildren (n : Node) (cs : List Node) :
    Node_getParentPath (Node_setChildren n cs) = Node_getParentPath n := by cases n; rfl

@[simp] theorem Node_type_setChildren (n : Node) (cs : List Node) :
    Node_type (Node_setChildren n cs) = Node_type n := by cases n; rfl

@[simp] theorem Node_data_setChildren (n : Node) (cs : List Node) :
    Node_data (Node_setChildren n cs) = Node_data n := by cases n; rfl

@[simp] theorem Node_len_setChildren (n : Node) (cs : List Node) :
    Node_len (Node_setChildren n cs) = Node_len n := by cases n; rfl

@[simp] theorem Node_children_setChildren (n : Node) (cs : List Node) :
    Node_children (Node_setChildren n cs) = cs := by cases n; rfl

@[simp] theorem Node_setChildren_children (n : Node) :
    Node_setChildren n (Node_children n) = n := by cases n; rfl

@[simp] theorem Node_setChildren_setChildren (n : Node) (cs ds : List Node) :
    Node_setChildren (Node_setChildren n cs) ds = Node_setChildren n ds := by cases n; rfl

theorem Node_size_eq (n : Node) : Node_size n = Node_sizeList (Node_children n) + 1 := by
  cases n; simp [Node_size, Node_children]

theorem Node_size_setChildren (n : Node) (cs : List Node) :
    Node_size (Node_setChildren n cs) = Node_sizeList cs + 1 := by
  rw [Node_size_eq, Node_children_setChildren]

theorem Node_size_pos (n : Node) : 0 < Node_size n := by
  rw [Node_size_eq]; omega

theorem Node_sizeList_append (l1 l2 : List Node) :
    Node_sizeList (l1 ++ l2) = Node_sizeList l1 + Node_sizeList l2 := by
  induction l1 with
  | nil => simp [Node_sizeList]
  | cons c cs ih => simp [Node_sizeList, ih]; omega

theorem Node_sizeList_set (l : List Node) (i : Nat) (c c1 : Node) (h : l[i]? = some c) :
    Node_sizeList (l.set i c1) + Node_size c = Node_sizeList l + Node_size c1 := by
  induction l generalizing i with
  | nil => simp at h
  | cons x xs ih =>
    cases i with
    | zero =>
      simp at h
      subst h
      simp [Node_sizeList]; omega
    | succ j =>
      simp at h
      have := ih j (by simpa using h)
      simp [Node_sizeList]; omega

theorem Node_sizeList_eraseIdx (l : List Node) (i : Nat) (c : Node) (h : l[i]? = some c) :
    Node_sizeList (l.eraseIdx i) + Node_size c = Node_sizeList l := by
  induction l generalizing i with
  | nil => simp at h
  | cons x xs ih =>
    cases i with
    | zero =>
      simp at h
      subst h
      simp [Node_sizeList]; omega
    | succ j =>
      simp at h
      have := ih j (by simpa using h)
      simp [Node_sizeList]; omega

theorem Node_sizeList_insertIdx (l : List Node) (i : Nat) (c : Node) (h : i ≤ l.length) :
    Node_sizeList (l.insertIdx i c) = Node_sizeList l + Node_size c := by
  induction l generalizing i with
  | nil =>
    have : i = 0 := by simpa using h
    subst this
    simp [Node_sizeList]
  | cons x xs ih =>
    cases i with
    | zero => simp [Node_sizeList]; omega
    | succ j =>
      have h1 := ih j (by simpa using h)
      rw [List.insertIdx_succ_cons]
      simp only [Node_sizeList]
      omega

theorem Node_at_nil (n : Node) : Node_at n [] = some n := rfl

theorem Node_at_cons (n : Node) (i : Nat) (l : List Nat) :
    Node_at n (i :: l) = ((Node_children n)[i]?).bind (fun c => Node_at c l) := by
  simp only [Node_at]
  cases (Node_children n)[i]? <;> rfl

theorem Node_at_append (n : Node) (l l1 : List Nat) :
    Node_at n (l ++ l1) = (Node_at n l).bind (fun m => Node_at m l1) := by
  induction l generalizing n with
  | nil => rfl
  | cons i l ih =>
    rw [List.cons_append, Node_at_cons, Node_at_cons]
    cases (Node_children n)[i]? with
    | none => rfl
    | some c => simp [ih]

theorem Node_updateAt_nil (f : Node → Node) (n : Node) : Node_updateAt f n [] = f n := rfl

theorem Node_updateAt_cons (f : Node → Node) (n c : Node) (i : Nat) (l : List Nat)
    (h : (Node_children n)[i]? = some c) :
    Node_updateAt f n (i :: l) =
      Node_setChildren n ((Node_children n).set i (Node_updateAt f c l)) := by
  simp only [Node_updateAt, h]

theorem Node_getPath_updateAt (f : Node → Node) (hf : ∀ x, Node_getPath (f x) = Node_getPath x)
    (n : Node) (l : List Nat) : Node_getPath (Node_updateAt f n l) = Node_getPath n := by
  cases l with
  | nil => exact hf n
  | cons i l =>
    simp only [Node_updateAt]
    cases (Node_children n)[i]? <;> simp

theorem Node_at_updateAt_append (f : Node → Node) (n m : Node) (l l1 : List Nat)
    (h : Node_at n l = some m) :
    Node_at (Node_updateAt f n l) (l ++ l1) = Node_at (f m) l1 := by
  induction l generalizing n with
  | nil =>
    simp only [Node_at] at h
    cases h
    rfl
  | cons i l ih =>
    rw [Node_at_cons] at h
    cases hc : (Node_children n)[i]? with
    | none => simp [hc] at h
    | some c =>
      simp only [hc, Option.some_bind] at h
      rw [Node_updateAt_cons f n c i l hc, List.cons_append, Node_at_cons,
        Node_children_setChildren]
      have hlt : i < (Node_children n).length := by
        by_contra hge
        simp [List.getElem?_eq_none (not_lt.mp hge)] at hc
      simp [List.getElem?_set, hlt, ih c h]

theorem Node_at_updateAt (f : Node → Node) (n m : Node) (l : List Nat)
    (h : Node_at n l = some m) : Node_at (Node_updateAt f n l) l = some (f m) := by
  have := Node_at_updateAt_append f n m l [] h
  simpa using this

theorem Node_updateAt_updateAt (f g : Node → Node) (n : Node) (l : List Nat) :
    Node_updateAt g (Node_updateAt f n l) l = Node_updateAt (fun x => g (f x)) n l := by
  induction l generalizing n with
  | nil => rfl
  | cons i l ih =>
    cases hc : (Node_children n)[i]? with
    | none => simp [Node_updateAt, hc]
    | some c =>
      have hlt : i < (Node_children n).length := by
        by_contra hge
        simp [List.getElem?_eq_none (not_lt.mp hge)] at hc
      rw [Node_updateAt_cons f n c i l hc, Node_updateAt_cons (fun x => g (f x)) n c i l hc,
        Node_updateAt_cons g _ (Node_updateAt f c l) i l (by simp [List.getElem?_set, hlt])]
      simp [ih]

theorem Node_updateAt_same (f : Node → Node) (n m : Node) (l : List Nat)
    (h : Node_at n l = some m) (hf : f m = m) : Node_updateAt f n l = n := by
  induction l generalizing n with
  | nil =>
    simp only [Node_at] at h
    cases h
    exact hf
  | cons i l ih =>
    rw [Node_at_cons] at h
    cases hc : (Node_children n)[i]? with
    | none => simp [hc] at h
    | some c =>
      simp only [hc, Option.some_bind] at h
      rw [Node_updateAt_cons f n c i l hc, ih c h]
      have : (Node_children n).set i c = Node_children n := by
        apply List.ext_getElem?
        intro j
        rw [List.getElem?_set]
        split_ifs with h1 h2
        · subst h1; simpa using hc.symm
        · subst h1
          simp at h2
          simp [List.getElem?_eq_none h2]
        · rfl
      rw [this, Node_setChildren_children]

theorem Node_size_updateAt (f : Node → Node) (n m : Node) (l : List Nat)
    (h : Node_at n l = some m) :
    Node_size (Node_updateAt f n l) + Node_size m = Node_size n + Node_size (f m) := by
  induction l generalizing n with
  | nil =>
    simp only [Node_at] at h
    cases h
    simp [Node_updateAt]; omega
  | cons i l ih =>
    rw [Node_at_cons] at h
    cases hc : (Node_children n)[i]? with
    | none => simp [hc] at h
    | some c =>
      simp only [hc, Option.some_bind] at h
      rw [Node_updateAt_cons f n c i l hc, Node_size_setChildren, Node_size_eq n]
      have h1 := Node_sizeList_set (Node_children n) i c (Node_updateAt f c l) hc
      have h2 := ih c h
      omega

/-! ## Unlinking a subtree -/

theorem getElem?_lt_of_eq_some {α : Type} {l : List α} {i : Nat} {c : α} (h : l[i]? = some c) :
    i < l.length := by
  by_contra hge
  simp [List.getElem?_eq_none (not_lt.mp hge)] at h

theorem List_set_self {α : Type} (l : List α) (i : Nat) (c : α) (h : l[i]? = some c) :
    l.set i c = l := by
  induction l generalizing i with
  | nil => rfl
  | cons x xs ih =>
    cases i with
    | zero => simp at h; simp [h]
    | succ j => simp at h; simp [ih j h]

theorem List_eraseIdx_set {α : Type} (l : List α) (i : Nat) (c : α) :
    (l.set i c).eraseIdx i = l.eraseIdx i := by
  induction l generalizing i with
  | nil => rfl
  | cons x xs ih =>
    cases i with
    | zero => simp
    | succ j => simp [ih j]

theorem List_getElem?_insertIdx_self {α : Type} (l : List α) (i : Nat) (c : α)
    (h : i ≤ l.length) : (l.insertIdx i c)[i]? = some c := by
  rw [List.getElem?_eq_getElem (by rw [List.length_insertIdx _ _ h]; omega)]
  rw [List.getElem_insertIdx_self _ _ _ h]

theorem Node_eraseAt_cons (n c : Node) (i : Nat) (l : List Nat)
    (h : (Node_children n)[i]? = some c) :
    Node_eraseAt n (i :: l) =
      some (match Node_eraseAt c l with
        | none => Node_setChildren n ((Node_children n).eraseIdx i)
        | some c1 => Node_setChildren n ((Node_children n).set i c1)) := by
  simp only [Node_eraseAt, h]
  cases Node_eraseAt c l <;> rfl

theorem Node_eraseAt_ne_nil (n : Node) (l : List Nat) (hl : l ≠ []) :
    ∃ n1, Node_eraseAt n l = some n1 ∧ Node_getPath n1 = Node_getPath n ∧
      Node_getParentPath n1 = Node_getParentPath n ∧ Node_type n1 = Node_type n := by
  cases l with
  | nil => exact absurd rfl hl
  | cons i l =>
    cases hc : (Node_children n)[i]? with
    | none => exact ⟨n, by simp [Node_eraseAt, hc], rfl, rfl, rfl⟩
    | some c =>
      rw [Node_eraseAt_cons n c i l hc]
      cases Node_eraseAt c l <;> simp

/-- Unlinking the child just linked at index `i` gives the tree back. -/
theorem Node_eraseAt_insert (n m new : Node) (l : List Nat) (i : Nat)
    (h : Node_at n l = some m) (hi : i ≤ (Node_children m).length) :
    Node_eraseAt (Node_updateAt (fun x => Node_setChildren x
      ((Node_children x).insertIdx i new)) n l) (l ++ [i]) = some n := by
  induction l generalizing n with
  | nil =>
    simp only [Node_at] at h
    cases h
    have hget := List_getElem?_insertIdx_self (Node_children m) i new hi
    simp only [Node_updateAt, List.nil_append]
    rw [Node_eraseAt_cons _ new i [] (by simpa using hget)]
    simp [Node_eraseAt, List.eraseIdx_insertIdx]
  | cons j l ih =>
    rw [Node_at_cons] at h
    cases hc : (Node_children n)[j]? with
    | none => simp [hc] at h
    | some c =>
      simp only [hc, Option.some_bind] at h
      have hlt := getElem?_lt_of_eq_some hc
      rw [Node_updateAt_cons _ n c j l hc, List.cons_append,
        Node_eraseAt_cons _ (Node_updateAt (fun x => Node_setChildren x
          ((Node_children x).insertIdx i new)) c l) j (l ++ [i])
          (by simp [List.getElem?_set, hlt]), ih c h]
      simp only [Node_children_setChildren, Node_setChildren_setChildren, List.set_set]
      rw [List_set_self _ _ _ hc, Node_setChildren_children]

/-- A change at or below a position does not matter once the subtree at
that position is unlinked. -/
theorem Node_eraseAt_updateAt_below (f : Node → Node) (n : Node) (h l : List Nat) (hh : h ≠ [])
    (hat : (Node_at n h).isSome = true) :
    Node_eraseAt (Node_updateAt f n (h ++ l)) h = Node_eraseAt n h := by
  induction h generalizing n with
  | nil => exact absurd rfl hh
  | cons j h ih =>
    rw [Node_at_cons] at hat
    cases hc : (Node_children n)[j]? with
    | none => simp [hc] at hat
    | some c =>
      simp only [hc, Option.some_bind] at hat
      have hlt := getElem?_lt_of_eq_some hc
      rw [List.cons_append, Node_updateAt_cons _ n c j _ hc,
        Node_eraseAt_cons _ (Node_updateAt f c (h ++ l)) j h (by simp [List.getElem?_set, hlt]),
        Node_eraseAt_cons n c j h hc]
      cases h with
      | nil => simp [Node_eraseAt, List_eraseIdx_set]
      | cons k h1 =>
        rw [ih c (by simp) hat]
        cases Node_eraseAt c (k :: h1) <;> simp [List_eraseIdx_set]

theorem Node_size_eraseAt (n m : Node) (l : List Nat) (h : Node_at n l = some m) :
    (match Node_eraseAt n l with
      | none => 0
      | some n1 => Node_size n1) + Node_size m = Node_size n := by
  induction l generalizing n with
  | nil =>
    simp only [Node_at] at h
    cases h
    simp [Node_eraseAt]
  | cons j l ih =>
    rw [Node_at_cons] at h
    cases hc : (Node_children n)[j]? with
    | none => simp [hc] at h
    | some c =>
      simp only [hc, Option.some_bind] at h
      rw [Node_eraseAt_cons n c j l hc]
      have h1 := ih c h
      cases he : Node_eraseAt c l with
      | none =>
        simp only [he] at h1 ⊢
        rw [Node_size_setChildren, Node_size_eq n]
        have := Node_sizeList_eraseIdx (Node_children n) j c hc
        omega
      | some c1 =>
        simp only [he] at h1 ⊢
        rw [Node_size_setChildren, Node_size_eq n]
        have := Node_sizeList_set (Node_children n) j c c1 hc
        omega

/-! ## The child search -/

theorem Node_hasChild_from_shift (p : Path) (l : List Node) (i : Nat) :
    Node_hasChild_from p l i = ((Node_hasChild_from p l 0).1, (Node_hasChild_from p l 0).2 + i) := by
  induction l generalizing i with
  | nil => simp [Node_hasChild_from]
  | cons c cs ih =>
    simp only [Node_hasChild_from]
    split_ifs
    · simp
    · simp
    · rw [ih (i + 1), ih (0 + 1)]
      simp only [Prod.mk.injEq, true_and]
      omega

theorem Node_hasChild_from_cons (p : Path) (c : Node) (cs : List Node) :
    Node_hasChild_from p (c :: cs) 0 =
      if Path_comparePath (Node_getPath c) p = 0 then (true, 0)
      else if Path_comparePath (Node_getPath c) p > 0 then (false, 0)
      else ((Node_hasChild_from p cs 0).1, (Node_hasChild_from p cs 0).2 + 1) := by
  simp only [Node_hasChild_from]
  split_ifs
  · rfl
  · rfl
  · rw [Node_hasChild_from_shift]

/-- What the search returns: the index is within the sequence, every child
before it is below the sought path, a child found has the sought path, and
when none is found the child at the index (if any) is above the sought path. -/
theorem Node_hasChild_from_spec (p : Path) (l : List Node) :
    (Node_hasChild_from p l 0).2 ≤ l.length ∧
      (∀ k c, k < (Node_hasChild_from p l 0).2 → l[k]? = some c →
        Path_comparePath (Node_getPath c) p < 0) ∧
      ((Node_hasChild_from p l 0).1 = true →
        ∃ c, l[(Node_hasChild_from p l 0).2]? = some c ∧ Node_getPath c = p) ∧
      ((Node_hasChild_from p l 0).1 = false →
        ∀ c, l[(Node_hasChild_from p l 0).2]? = some c →
          0 < Path_comparePath (Node_getPath c) p) := by
  induction l with
  | nil => simp [Node_hasChild_from]
  | cons x xs ih =>
    rw [Node_hasChild_from_cons]
    obtain ⟨ih1, ih2, ih3, ih4⟩ := ih
    split_ifs with h1 h2
    · refine ⟨by simp, by simp, ?_, by simp⟩
      intro _
      exact ⟨x, by simp, Path_comparePath_eq_zero.mp h1⟩
    · refine ⟨by simp, by simp, by simp, ?_⟩
      intro _ c hc
      simp at hc
      subst hc
      exact h2
    · refine ⟨by simp; omega, ?_, ?_, ?_⟩
      · intro k c hk hc
        cases k with
        | zero =>
          simp at hc
          subst hc
          omega
        | succ j =>
          simp at hc
          exact ih2 j c (by simpa using hk) hc
      · intro hf
        obtain ⟨c, hc, hp⟩ := ih3 hf
        exact ⟨c, by simpa using hc, hp⟩
      · intro hf c hc
        exact ih4 hf c (by simpa using hc)

/-- The search sees only the paths of the children. -/
theorem Node_hasChild_from_congr (p : Path) (l l1 : List Node) (i : Nat)
    (h : l.map Node_getPath = l1.map Node_getPath) :
    Node_hasChild_from p l i = Node_hasChild_from p l1 i := by
  induction l generalizing l1 i with
  | nil =>
    cases l1 with
    | nil => rfl
    | cons y ys => simp at h
  | cons x xs ih =>
    cases l1 with
    | nil => simp at h
    | cons y ys =>
      simp only [List.map_cons, List.cons.injEq] at h
      simp only [Node_hasChild_from, h.1, ih ys (i + 1) h.2]

/-- A child with the sought path at an index below which every child is
below the sought path is the child found. -/
theorem Node_hasChild_from_found (p : Path) (l : List Node) (i : Nat) (c : Node)
    (hc : l[i]? = some c) (hp : Node_getPath c = p)
    (hlt : ∀ k d, k < i → l[k]? = some d → Path_comparePath (Node_getPath d) p < 0) :
    Node_hasChild_from p l 0 = (true, i) := by
  induction l generalizing i with
  | nil => simp at hc
  | cons x xs ih =>
    rw [Node_hasChild_from_cons]
    cases i with
    | zero =>
      simp at hc
      subst hc
      simp [hp, Path_comparePath_self]
    | succ j =>
      have hx := hlt 0 x (by omega) (by simp)
      have h1 : ¬ Path_comparePath (Node_getPath x) p = 0 := by omega
      have h2 : ¬ Path_comparePath (Node_getPath x) p > 0 := by omega
      rw [if_neg h1, if_neg h2, ih j (by simpa using hc)
        (fun k d hk hd => hlt (k + 1) d (by omega) (by simpa using hd))]

theorem Node_hasChild_setChildren_set (n c c1 : Node) (i : Nat) (p : Path)
    (hc : (Node_children n)[i]? = some c) (hp : Node_getPath c1 = Node_getPath c) :
    Node_hasChild (Node_setChildren n ((Node_children n).set i c1)) p = Node_hasChild n p := by
  unfold Node_hasChild
  rw [Node_children_setChildren]
  apply Node_hasChild_from_congr
  rw [List.map_set, hp]
  apply List_set_self
  simp [hc]

/-- After linking a node with the sought path at the index the search gave,
the search finds it there. -/
theorem Node_hasChild_insert (n new : Node) (p : Path) (hp : Node_getPath new = p) :
    Node_hasChild (Node_setChildren n ((Node_children n).insertIdx (Node_hasChild n p).2 new)) p =
      (true, (Node_hasChild n p).2) := by
  unfold Node_hasChild
  rw [Node_children_setChildren]
  obtain ⟨h1, h2, _, _⟩ := Node_hasChild_from_spec p (Node_children n)
  apply Node_hasChild_from_found p _ _ new (List_getElem?_insertIdx_self _ _ _ h1) hp
  intro k d hk hd
  apply h2 k d hk
  rw [← hd, List.getElem?_eq_getElem (by omega : k < (Node_children n).length),
    List.getElem?_eq_getElem (by rw [List.length_insertIdx _ _ h1]; omega),
    List.getElem_insertIdx_of_lt _ _ _ _ hk (by omega)]

/-! ## The traversal -/

theorem Path_prefix_ok (p : Path) (i : Nat) (h1 : 1 ≤ i) (h2 : i ≤ Path_getDepth p) :
    Path_prefix p i = .ok (p.take i) := by
  simp [ Path_prefix, h1, h2]

theorem Node_getChild_ok (n c : Node) (i : Nat) (h : (Node_children n)[i]? = some c) :
    Node_getChild n i = .ok c := by
  simp [Node_getChild, h]

theorem Node_hasChild_spec (n : Node) (p : Path) :
    (Node_hasChild n p).2 ≤ (Node_children n).length ∧
      (∀ k c, k < (Node_hasChild n p).2 → (Node_children n)[k]? = some c →
        Path_comparePath (Node_getPath c) p < 0) ∧
      ((Node_hasChild n p).1 = true →
        ∃ c, (Node_children n)[(Node_hasChild n p).2]? = some c ∧ Node_getPath c = p) ∧
      ((Node_hasChild n p).1 = false →
        ∀ c, (Node_children n)[(Node_hasChild n p).2]? = some c →
          0 < Path_comparePath (Node_getPath c) p) :=
  Node_hasChild_from_spec p (Node_children n)

/-- The position the loop returns is the start position followed by the
position it returns when started at the empty position. -/
theorem FT_traversePath_loop_acc (p : Path) (is : List Nat) (n : Node) (loc : List Nat) :
    FT_traversePath_loop p is n loc =
      ((FT_traversePath_loop p is n []).1,
        (FT_traversePath_loop p is n []).2.map (fun l => loc ++ l)) := by
  induction is generalizing n loc with
  | nil => simp [FT_traversePath_loop]
  | cons i is ih =>
    simp only [FT_traversePath_loop]
    cases Path_prefix p i with
    | error e => simp
    | ok pre =>
      simp only
      split_ifs with hc
      · cases Node_getChild n (Node_hasChild n pre).2 with
        | error e => simp
        | ok c =>
          simp only
          rw [ih c (loc ++ [(Node_hasChild n pre).2]), ih c ([] ++ [(Node_hasChild n pre).2])]
          cases (FT_traversePath_loop p is c []).2 <;> simp
      · simp

/-- From a node whose path is the prefix of depth `d`, the loop over the
depths `d + 1 .. d + len` succeeds; it ends at a node whose path is a prefix
of the target, and it ends early only where the next prefix has no child. -/
theorem FT_traversePath_loop_spec (p : Path) (len d : Nat) (n : Node) (loc : List Nat)
    (hd : 1 ≤ d) (hlen : d + len ≤ Path_getDepth p) (hn : Node_getPath n = p.take d) :
    ∃ l m, FT_traversePath_loop p (List.range' (d + 1) len) n loc = (SUCCESS, some (loc ++ l)) ∧
      Node_at n l = some m ∧ l.length ≤ len ∧ Node_getPath m = p.take (d + l.length) ∧
      (l.length = len ∨ (Node_hasChild m (p.take (d + l.length + 1))).1 = false) := by
  induction len generalizing d n loc with
  | zero => exact ⟨[], n, by simp [FT_traversePath_loop], rfl, by simp, by simpa using hn, by simp⟩
  | succ len ih =>
    rw [List.range'_succ]
    simp only [FT_traversePath_loop]
    rw [Path_prefix_ok p (d + 1) (by omega) (by omega)]
    simp only
    by_cases hc : (Node_hasChild n (p.take (d + 1))).1 = true
    · rw [if_pos hc]
      obtain ⟨_, _, h3, _⟩ := Node_hasChild_spec n (p.take (d + 1))
      obtain ⟨c, hget, hpc⟩ := h3 hc
      rw [Node_getChild_ok n c _ hget]
      simp only
      obtain ⟨l, m, h1, h2, h4, h5, h6⟩ :=
        ih (d + 1) c (loc ++ [(Node_hasChild n (p.take (d + 1))).2]) (by omega) (by omega) hpc
      refine ⟨(Node_hasChild n (p.take (d + 1))).2 :: l, m, ?_, ?_, ?_, ?_, ?_⟩
      · rw [h1]; simp
      · rw [Node_at_cons]
        simp [hget, h2]
      · simp; omega
      · rw [h5]; congr 1; simp; omega
      · rcases h6 with h6 | h6
        · left; simp; omega
        · right
          rw [← h6]
          congr 2
          simp; omega
    · rw [if_neg hc]
      refine ⟨[], n, by simp, rfl, by simp, by simpa using hn, Or.inr ?_⟩
      simpa using hc

/-- Applying `f`, which keeps paths, at the node where the traversal ends:
the traversal of the new tree reaches that node again and goes on from it. -/
theorem FT_traversePath_loop_updateAt (f : Node → Node)
    (hf : ∀ x, Node_getPath (f x) = Node_getPath x) (p : Path) (is : List Nat) (n m : Node)
    (loc l : List Nat) (ht : FT_traversePath_loop p is n [] = (SUCCESS, some l))
    (hm : Node_at n l = some m) :
    FT_traversePath_loop p is (Node_updateAt f n l) loc =
      FT_traversePath_loop p (is.drop l.length) (f m) (loc ++ l) := by
  induction is generalizing n loc l with
  | nil =>
    simp only [FT_traversePath_loop, Prod.mk.injEq, Option.some.injEq, true_and] at ht
    subst ht
    simp only [Node_at, Option.some.injEq] at hm
    subst hm
    simp [FT_traversePath_loop, Node_updateAt]
  | cons i is ih =>
    simp only [FT_traversePath_loop] at ht
    cases hpre : Path_prefix p i with
    | error e => simp [hpre] at ht
    | ok pre =>
      simp only [hpre] at ht
      by_cases hc : (Node_hasChild n pre).1 = true
      · rw [if_pos hc] at ht
        obtain ⟨_, _, h3, _⟩ := Node_hasChild_spec n pre
        obtain ⟨c, hget, hpc⟩ := h3 hc
        rw [Node_getChild_ok n c _ hget] at ht
        simp only at ht
        rw [FT_traversePath_loop_acc] at ht
        cases hr : FT_traversePath_loop p is c [] with
        | mk st h =>
          rw [hr] at ht
          cases h with
          | none => simp at ht
          | some l1 =>
            simp only [Option.map_some', List.nil_append, Prod.mk.injEq, Option.some.injEq] at ht
            obtain ⟨hst, hl⟩ := ht
            subst hst
            subst hl
            have hget1 : (Node_children n)[(Node_hasChild n pre).2]? = some c := hget
            simp only [List.singleton_append] at hm ⊢
            rw [Node_at_cons, hget1] at hm
            simp only [Option.some_bind] at hm
            rw [Node_updateAt_cons f n c _ l1 hget1]
            simp only [FT_traversePath_loop, hpre]
            rw [Node_hasChild_setChildren_set n c _ _ pre hget1 (Node_getPath_updateAt f hf c l1)]
            rw [if_pos hc]
            rw [Node_getChild_ok _ (Node_updateAt f c l1) _
              (by rw [Node_children_setChildren, List.getElem?_set]
                  simp [getElem?_lt_of_eq_some hget1])]
            simp only
            rw [ih c _ l1 hr hm]
            simp
      · rw [if_neg hc] at ht
        simp only [Prod.mk.injEq, Option.some.injEq, true_and] at ht
        subst ht
        simp only [Node_at, Option.some.injEq] at hm
        subst hm
        simp [Node_updateAt]

/-! ## The insertion loop -/

theorem Node_updateAt_congr (f g : Node → Node) (n m : Node) (l : List Nat)
    (h : Node_at n l = some m) (hfg : f m = g m) : Node_updateAt f n l = Node_updateAt g n l := by
  induction l generalizing n with
  | nil =>
    simp only [Node_at, Option.some.injEq] at h
    subst h
    exact hfg
  | cons i l ih =>
    rw [Node_at_cons] at h
    cases hc : (Node_children n)[i]? with
    | none => simp [hc] at h
    | some c =>
      simp only [hc, Option.some_bind] at h
      rw [Node_updateAt_cons f n c i l hc, Node_updateAt_cons g n c i l hc, ih c h]

theorem Node_updateAt_append (f g : Node → Node) (n : Node) (l l1 : List Nat) :
    Node_updateAt g (Node_updateAt f n l) (l ++ l1) =
      Node_updateAt (fun x => Node_updateAt g (f x) l1) n l := by
  induction l generalizing n with
  | nil => rfl
  | cons i l ih =>
    cases hc : (Node_children n)[i]? with
    | none => simp [Node_updateAt, hc]
    | some c =>
      have hlt := getElem?_lt_of_eq_some hc
      rw [Node_updateAt_cons f n c i l hc, Node_updateAt_cons _ n c i l hc, List.cons_append,
        Node_updateAt_cons g _ (Node_updateAt f c l) i (l ++ l1)
          (by simp [List.getElem?_set, hlt])]
      simp [ih]

theorem List_set_insertIdx {α : Type} (l : List α) (i : Nat) (a b : α) (h : i ≤ l.length) :
    (l.insertIdx i a).set i b = l.insertIdx i b := by
  induction l generalizing i with
  | nil =>
    have : i = 0 := by simpa using h
    subst this
    simp
  | cons x xs ih =>
    cases i with
    | zero => simp
    | succ j =>
      rw [List.insertIdx_succ_cons, List.insertIdx_succ_cons, List.set_cons_succ,
        ih j (by simpa using h)]

theorem Node_at_addChild (m new : Node) (i : Nat) (h : i ≤ (Node_children m).length) :
    Node_at (Node_addChild m new i) [i] = some new := by
  rw [Node_at_cons]
  simp [Node_addChild, List_getElem?_insertIdx_self _ _ _ h, Node_at]

theorem Node_updateAt_addChild (g : Node → Node) (m new : Node) (i : Nat)
    (h : i ≤ (Node_children m).length) :
    Node_updateAt g (Node_addChild m new i) [i] = Node_addChild m (g new) i := by
  rw [Node_updateAt_cons g _ new i []
    (by simp [Node_addChild, List_getElem?_insertIdx_self _ _ _ h])]
  simp [Node_addChild, Node_updateAt, List_set_insertIdx _ _ _ _ h]

theorem FT_chain_getPath (p : Path) (D : Nat) (oFile : Option (VoidPtr × Nat)) (k i : Nat)
    (q : Option Path) : Node_getPath (FT_chain p D oFile k i q) = p.take i := by
  cases k <;> rfl

theorem FT_chain_succ (p : Path) (D : Nat) (oFile : Option (VoidPtr × Nat)) (k i : Nat)
    (q : Option Path) :
    FT_chain p D oFile (k + 1) i q =
      Node_addChild (FT_chain p D oFile 0 i q)
        (FT_chain p D oFile k (i + 1) (some (p.take i))) 0 := by
  simp [FT_chain, Node_addChild, Node_setChildren, Node_children]

theorem Node_hasChild_leaf (p : Path) (D : Nat) (oFile : Option (VoidPtr × Nat)) (i : Nat)
    (q : Option Path) (pre : Path) : Node_hasChild (FT_chain p D oFile 0 i q) pre = (false, 0) := by
  simp [FT_chain, Node_hasChild, Node_children, Node_hasChild_from]

/-- The node creation in one round of the loop, in terms of `FT_newKind`. -/
theorem FT_insert_loop_create (D : Nat) (oFile : Option (VoidPtr × Nat)) (i mem : Nat)
    (heap : Option Node) (pre : Path) (cur : Node_T) :
    FT_insert_new D oFile i mem heap pre cur =
      Node_create mem heap pre cur (FT_newKind D oFile i).1 (FT_newKind D oFile i).2.1
        (FT_newKind D oFile i).2.2 := by
  unfold FT_insert_new FT_newKind Node_newFile Node_newDir
  cases oFile with
  | none => rfl
  | some cl =>
    obtain ⟨c, l⟩ := cl
    simp only
    split_ifs <;> rfl

/-- One round of the loop with memory left, under a node of the tree. -/
theorem FT_insert_loop_step (p : Path) (D : Nat) (oFile : Option (VoidPtr × Nat)) (i : Nat)
    (rest : List Nat) (mem : Nat) (t m : Node) (loc : List Nat) (first : Node_T) (cnt : Nat)
    (hm : Node_at t loc = some m) (h1 : 1 ≤ i) (h2 : i ≤ Path_getDepth p) (hmem : 1 ≤ mem) :
    FT_insert_loop p D oFile (i :: rest) mem (some t) (some loc) first cnt =
      FT_insert_loop p D oFile rest (mem - 1)
        (some (Node_updateAt (fun x => Node_addChild x
          (FT_chain p D oFile 0 i (some (Node_getPath m))) (Node_hasChild m (p.take i)).2) t loc))
        (some (loc ++ [(Node_hasChild m (p.take i)).2]))
        (if first = none then some (loc ++ [(Node_hasChild m (p.take i)).2]) else first)
        (cnt + 1) := by
  rw [FT_insert_loop, Path_prefix_ok p i h1 h2]
  simp only [FT_insert_loop_create]
  have hc : Node_create mem (some t) (p.take i) (some loc) (FT_newKind D oFile i).1
      (FT_newKind D oFile i).2.1 (FT_newKind D oFile i).2.2 =
      (SUCCESS, some (Node_updateAt (fun x => Node_addChild x
          (FT_chain p D oFile 0 i (some (Node_getPath m))) (Node_hasChild m (p.take i)).2) t loc),
        some (loc ++ [(Node_hasChild m (p.take i)).2])) := by
    unfold Node_create
    rw [if_neg (by omega)]
    simp only [Node_deref, hm, Prod.mk.injEq, Option.some.injEq, true_and, and_true]
    apply Node_updateAt_congr _ _ t m loc hm
    rfl
  rw [hc]
  simp

/-- One round of the loop without memory left: the nodes created so far
are freed. -/
theorem FT_insert_loop_fail (p : Path) (D : Nat) (oFile : Option (VoidPtr × Nat)) (i : Nat)
    (rest : List Nat) (heap : Option Node) (cur first : Node_T) (cnt : Nat) :
    FT_insert_loop p D oFile (i :: rest) 0 heap cur first cnt =
      ((FT_insert_loop p D oFile (i :: rest) 0 heap cur first cnt).1,
        if first ≠ none then (Node_free heap first).1 else heap, first, cnt) ∧
      (FT_insert_loop p D oFile (i :: rest) 0 heap cur first cnt).1 ≠ SUCCESS := by
  rw [FT_insert_loop]
  cases hp : Path_prefix p i with
  | error e =>
    simp only [ne_eq, and_true, true_and]
    intro he
    unfold Path_prefix at hp
    split_ifs at hp
    cases hp
    cases he
  | ok pre =>
    simp only [FT_insert_loop_create]
    have hc : (Node_create 0 heap pre cur (FT_newKind D oFile i).1 (FT_newKind D oFile i).2.1
      (FT_newKind D oFile i).2.2).1 = MEMORY_ERROR := by simp [Node_create]
    simp [hc]

/-- Running `k + 1` rounds of the loop with memory for all of them links
one chain of `k + 1` nodes under the node the loop starts from. -/
theorem FT_insert_loop_run (p : Path) (D : Nat) (oFile : Option (VoidPtr × Nat)) (k : Nat) :
    ∀ (i : Nat) (rest : List Nat) (mem : Nat) (t m : Node) (loc : List Nat) (first : Node_T)
      (cnt : Nat), Node_at t loc = some m → 1 ≤ i → i + k ≤ Path_getDepth p → k + 1 ≤ mem →
      FT_insert_loop p D oFile (List.range' i (k + 1) ++ rest) mem (some t) (some loc) first cnt =
        FT_insert_loop p D oFile rest (mem - (k + 1))
          (some (Node_updateAt (fun x => Node_addChild x
            (FT_chain p D oFile k i (some (Node_getPath m))) (Node_hasChild m (p.take i)).2)
            t loc))
          (some (loc ++ (Node_hasChild m (p.take i)).2 :: List.replicate k 0))
          (if first = none then some (loc ++ [(Node_hasChild m (p.take i)).2]) else first)
          (cnt + (k + 1)) := by
  induction k with
  | zero =>
    intro i rest mem t m loc first cnt hm h1 h2 hmem
    simp only [List.range'_one, List.singleton_append, List.replicate_zero, zero_add]
    exact FT_insert_loop_step p D oFile i rest mem t m loc first cnt hm h1 (by omega) (by omega)
  | succ k ih =>
    intro i rest mem t m loc first cnt hm h1 h2 hmem
    have hidx := (Node_hasChild_spec m (p.take i)).1
    rw [List.range'_succ, List.cons_append,
      FT_insert_loop_step p D oFile i _ mem t m loc first cnt hm h1 (by omega) (by omega)]
    rw [ih (i + 1) rest (mem - 1) _ (FT_chain p D oFile 0 i (some (Node_getPath m)))
      (loc ++ [(Node_hasChild m (p.take i)).2]) _ (cnt + 1)
      (by rw [Node_at_updateAt_append _ t m loc _ hm]; exact Node_at_addChild _ _ _ hidx)
      (by omega) (by omega) (by omega)]
    rw [Node_hasChild_leaf, Node_updateAt_append, FT_chain_getPath]
    congr 1
    · omega
    · congr 1
      apply Node_updateAt_congr _ _ t m loc hm
      rw [Node_updateAt_addChild _ _ _ _ hidx, FT_chain_succ]
    · simp [List.replicate_succ]
    · cases first <;> simp
    · omega

/-- What `FT_traversePath` returns on a tree with a root: a failure with a
NULL node, or SUCCESS with the position of a node whose path is a prefix of
the target and below which the next prefix has no child. -/
theorem FT_traversePath_some (root : Node) (p : Path) :
    ((FT_traversePath (some root) p).1 ≠ SUCCESS ∧ (FT_traversePath (some root) p).2 = none) ∨
    ∃ l m, FT_traversePath (some root) p = (SUCCESS, some l) ∧
      FT_traversePath_loop p (List.range' 2 (Path_getDepth p - 1)) root [] = (SUCCESS, some l) ∧
      Node_at root l = some m ∧ Node_getPath root = p.take 1 ∧
      l.length + 1 ≤ Path_getDepth p ∧ Node_getPath m = p.take (l.length + 1) ∧
      (l.length + 1 = Path_getDepth p ∨ (Node_hasChild m (p.take (l.length + 2))).1 = false) := by
  unfold FT_traversePath
  by_cases hd : 1 ≤ Path_getDepth p
  · rw [Path_prefix_ok p 1 (le_refl 1) hd]
    simp only
    by_cases hc : Path_comparePath (Node_getPath root) (p.take 1) = 0
    · right
      rw [if_neg (by simpa using hc)]
      have hroot := Path_comparePath_eq_zero.mp hc
      obtain ⟨l, m, h1, h2, h3, h4, h5⟩ :=
        FT_traversePath_loop_spec p (Path_getDepth p - 1) 1 root [] (le_refl 1) (by omega) hroot
      simp only [List.nil_append] at h1
      have h6 : l.length + 1 ≤ Path_getDepth p := Nat.add_le_of_le_sub hd h3
      refine ⟨l, m, h1, h1, h2, hroot, h6, ?_, ?_⟩
      · rw [h4, Nat.add_comm]
      · rcases h5 with h5 | h5
        · left
          rw [h5]
          exact Nat.sub_add_cancel hd
        · right
          rw [show l.length + 2 = 1 + l.length + 1 by omega]
          exact h5
    · left
      rw [if_pos (by simpa using hc)]
      simp
  · left
    have : Path_prefix p 1 = .error BAD_PATH := by
      unfold Path_prefix
      rw [if_neg (by omega)]
    rw [this]
    simp

theorem FT_traversePath_none (p : Path) : FT_traversePath none p = (SUCCESS, none) := rfl

theorem FT_eta (s : FT) : { s with oNRoot := s.oNRoot } = s := by cases s; rfl

theorem Node_create_root (mem : Nat) (heap : Option Node) (pre : Path) (b : Bool) (c : VoidPtr)
    (l : Nat) (h : 1 ≤ mem) :
    Node_create mem heap pre none b c l = (SUCCESS, some (Node.mk pre none b c l []), some []) := by
  unfold Node_create
  rw [if_neg (by omega)]

/-- Running `k + 1` rounds of the loop from the empty tree builds one chain
of `k + 1` nodes. -/
theorem FT_insert_loop_run_root (p : Path) (D : Nat) (oFile : Option (VoidPtr × Nat)) (k : Nat)
    (rest : List Nat) (mem cnt : Nat) (h2 : 1 + k ≤ Path_getDepth p) (hmem : k + 1 ≤ mem) :
    FT_insert_loop p D oFile (List.range' 1 (k + 1) ++ rest) mem none none none cnt =
      FT_insert_loop p D oFile rest (mem - (k + 1)) (some (FT_chain p D oFile k 1 none))
        (some (List.replicate k 0)) (some []) (cnt + (k + 1)) := by
  rw [List.range'_succ, List.cons_append, FT_insert_loop, Path_prefix_ok p 1 (le_refl 1) (by omega)]
  simp only [FT_insert_loop_create, Node_create_root mem none _ _ _ _ (by omega : 1 ≤ mem)]
  rw [if_neg (by simp), if_pos trivial]
  cases k with
  | zero => rfl
  | succ k =>
    have hleaf : Node.mk (p.take 1) none (FT_newKind D oFile 1).1 (FT_newKind D oFile 1).2.1
        (FT_newKind D oFile 1).2.2 [] = FT_chain p D oFile 0 1 none := rfl
    rw [hleaf, FT_insert_loop_run p D oFile k (1 + 1) rest (mem - 1) _
      (FT_chain p D oFile 0 1 none) [] (some []) (cnt + 1) rfl (by omega) (by omega) (by omega)]
    rw [Node_hasChild_leaf, FT_chain_getPath]
    simp only [Node_updateAt, List.nil_append, if_false, FT_chain_succ]
    congr 1
    · omega
    · omega

theorem FT_insert_loop_nil (p : Path) (D : Nat) (oFile : Option (VoidPtr × Nat)) (mem : Nat)
    (heap : Option Node) (cur first : Node_T) (cnt : Nat) :
    FT_insert_loop p D oFile [] mem heap cur first cnt = (SUCCESS, heap, first, cnt) := rfl

/-- With memory for fewer rounds than the loop has to run, the loop fails
and leaves the tree it started from. -/
theorem FT_insert_loop_short (p : Path) (D : Nat) (oFile : Option (VoidPtr × Nat))
    (i len mem : Nat) (t m : Node) (loc : List Nat) (cnt : Nat) (hm : Node_at t loc = some m)
    (h1 : 1 ≤ i) (h2 : i + len ≤ Path_getDepth p + 1) (hmem : mem < len) :
    (FT_insert_loop p D oFile (List.range' i len) mem (some t) (some loc) none cnt).1 ≠ SUCCESS ∧
      (FT_insert_loop p D oFile (List.range' i len) mem (some t) (some loc) none cnt).2.1 =
        some t := by
  cases mem with
  | zero =>
    obtain ⟨len1, rfl⟩ : ∃ len1, len = len1 + 1 := ⟨len - 1, by omega⟩
    rw [List.range'_succ]
    obtain ⟨he, hne⟩ := FT_insert_loop_fail p D oFile i (List.range' (i + 1) len1) (some t)
      (some loc) none cnt
    refine ⟨hne, ?_⟩
    rw [he]
    simp
  | succ k =>
    obtain ⟨len1, rfl⟩ : ∃ len1, len = (k + 1) + (len1 + 1) := ⟨len - (k + 1) - 1, by omega⟩
    have hsplit : List.range' i (k + 1 + (len1 + 1)) =
        List.range' i (k + 1) ++ (i + (k + 1)) :: List.range' (i + (k + 1) + 1) len1 := by
      rw [show k + 1 + (len1 + 1) = (len1 + 1) + (k + 1) by omega,
        ← List.range'_append_1 i (k + 1) (len1 + 1), List.range'_succ (i + (k + 1)) len1]
    rw [hsplit, FT_insert_loop_run p D oFile k i _ (k + 1) t m loc none cnt hm h1 (by omega)
      (le_refl _)]
    simp only [Nat.sub_self, if_true]
    obtain ⟨he, hne⟩ := FT_insert_loop_fail p D oFile (i + (k + 1))
      (List.range' (i + (k + 1) + 1) len1)
      (some (Node_updateAt (fun x => Node_addChild x
            (FT_chain p D oFile k i (some (Node_getPath m))) (Node_hasChild m (p.take i)).2)
            t loc))
      (some (loc ++ (Node_hasChild m (p.take i)).2 :: List.replicate k 0))
      (some (loc ++ [(Node_hasChild m (p.take i)).2])) (cnt + (k + 1))
    refine ⟨hne, ?_⟩
    rw [he]
    have hidx := (Node_hasChild_spec m (p.take i)).1
    simp only [ne_eq, not_false_eq_true, if_true, Node_free]
    rw [Node_at_updateAt_append _ t m loc _ hm, Node_at_addChild _ _ _ hidx]
    exact Node_eraseAt_insert t m _ loc _ hm hidx

/-! ## The body of an insertion -/

/-- The loop with memory for all its rounds, under a node of the tree. -/
theorem FT_insert_loop_full (p : Path) (D : Nat) (oFile : Option (VoidPtr × Nat))
    (i k mem : Nat) (t m : Node) (loc : List Nat) (cnt : Nat) (hm : Node_at t loc = some m)
    (h1 : 1 ≤ i) (h2 : i + k ≤ Path_getDepth p) (hmem : k + 1 ≤ mem) :
    FT_insert_loop p D oFile (List.range' i (k + 1)) mem (some t) (some loc) none cnt =
      (SUCCESS,
        some (Node_updateAt (fun x => Node_addChild x
          (FT_chain p D oFile k i (some (Node_getPath m))) (Node_hasChild m (p.take i)).2) t loc),
        some (loc ++ [(Node_hasChild m (p.take i)).2]), cnt + (k + 1)) := by
  have h := FT_insert_loop_run p D oFile k i [] mem t m loc none cnt hm h1 h2 hmem
  rw [List.append_nil] at h
  rw [h, FT_insert_loop_nil]
  simp

theorem Path_getDepth_take (p : Path) (d : Nat) (h : d ≤ Path_getDepth p) :
    Path_getDepth (p.take d) = d := by
  simp only [Path_getDepth, List.length_take] at h ⊢
  omega

/-- An insertion below an existing directory with memory for every missing
level: one chain of new nodes is linked under the furthest node and the
count grows by the number of missing levels. -/
theorem FT_insert_body_under (s : FT) (mem : Nat) (p : Path) (oFile : Option (VoidPtr × Nat))
    (root m : Node) (l : List Nat) (hroot : s.oNRoot = some root)
    (ht : FT_traversePath (some root) p = (SUCCESS, some l)) (hm : Node_at root l = some m)
    (hdir : Node_type m = false) (hpath : Node_getPath m = p.take (l.length + 1))
    (hlt : l.length + 1 < Path_getDepth p) (hmem : Path_getDepth p - (l.length + 1) ≤ mem) :
    FT_insert_body s mem p oFile =
      (SUCCESS,
        { s with
          oNRoot := some (Node_updateAt (fun x => Node_addChild x
            (FT_chain p (Path_getDepth p) oFile (Path_getDepth p - (l.length + 2)) (l.length + 2)
              (some (Node_getPath m))) (Node_hasChild m (p.take (l.length + 2))).2) root l)
          ulCount := s.ulCount + (Path_getDepth p - (l.length + 1)) }) := by
  have hdep : Path_getDepth (Node_getPath m) = l.length + 1 := by
    rw [hpath]; exact Path_getDepth_take p _ (by omega)
  obtain ⟨k, hk⟩ : ∃ k, Path_getDepth p = l.length + 2 + k := ⟨Path_getDepth p - (l.length + 2), by omega⟩
  have hloop := FT_insert_loop_full p (Path_getDepth p) oFile (l.length + 2) k mem root m l 0 hm
    (by omega) (by omega) (by omega)
  unfold FT_insert_body
  simp only [hroot, ht, Node_deref, hm, hdir, hdep, ne_eq, not_true_eq_false, if_false,
    Bool.false_eq_true, Option.isNone_some, Option.isSome_some, Bool.and_true, Bool.false_and]
  have hne : ¬ (l.length + 1 + 1 = Path_getDepth p + 1) := by omega
  have hlen : Path_getDepth p + 1 - (l.length + 1 + 1) = k + 1 := by omega
  simp only [hne, decide_False, Bool.false_and, Bool.false_eq_true, if_false, hlen]
  rw [show l.length + 1 + 1 = l.length + 2 from rfl, hloop]
  simp only [ne_eq, not_true_eq_false, if_false, zero_add]
  have h3 : Path_getDepth p - (l.length + 2) = k := by omega
  have h4 : Path_getDepth p - (l.length + 1) = k + 1 := by omega
  rw [h3, h4]

/-- An insertion into the empty tree with memory for every level: the tree
becomes one chain of new nodes and the count grows by the depth. -/
theorem FT_insert_body_root (s : FT) (mem : Nat) (p : Path) (oFile : Option (VoidPtr × Nat))
    (hroot : s.oNRoot = none) (hd : 1 ≤ Path_getDepth p) (hmem : Path_getDepth p ≤ mem) :
    FT_insert_body s mem p oFile =
      (SUCCESS,
        { s with
          oNRoot := some (FT_chain p (Path_getDepth p) oFile (Path_getDepth p - 1) 1 none)
          ulCount := s.ulCount + Path_getDepth p }) := by
  obtain ⟨k, hk⟩ : ∃ k, Path_getDepth p = k + 1 := ⟨Path_getDepth p - 1, by omega⟩
  have hloop := FT_insert_loop_run_root p (Path_getDepth p) oFile k [] mem 0 (by omega) (by omega)
  rw [List.append_nil, FT_insert_loop_nil] at hloop
  unfold FT_insert_body
  simp only [hroot, FT_traversePath_none, Node_deref, ne_eq, not_true_eq_false, if_false,
    Bool.false_eq_true, Option.isNone_none, Option.isSome_none, Bool.and_false]
  have hlen : Path_getDepth p + 1 - 1 = k + 1 := by omega
  rw [hlen, hloop]
  simp only [ne_eq, not_true_eq_false, if_false, if_true, Node_at, zero_add]
  have h3 : Path_getDepth p - 1 = k := by omega
  rw [h3, hk]

theorem FT_with_root_none (s : FT) (h : s.oNRoot = none) :
    { s with oNRoot := none } = s := by
  cases s; simp_all

theorem FT_with_root_some (s : FT) (root : Node) (h : s.oNRoot = some root) :
    { s with oNRoot := some root } = s := by
  cases s; simp_all

/-- The body of an insertion when the tree has no root. -/
theorem FT_insert_body_eq_none (s : FT) (mem : Nat) (p : Path) (oFile : Option (VoidPtr × Nat))
    (hroot : s.oNRoot = none) :
    FT_insert_body s mem p oFile =
      if (FT_insert_loop p (Path_getDepth p) oFile (List.range' 1 (Path_getDepth p)) mem none none
          none 0).1 ≠ SUCCESS then
        ((FT_insert_loop p (Path_getDepth p) oFile (List.range' 1 (Path_getDepth p)) mem none none
          none 0).1, s)
      else
        (SUCCESS,
          { s with
            oNRoot := Node_deref
              (FT_insert_loop p (Path_getDepth p) oFile (List.range' 1 (Path_getDepth p)) mem none
                none none 0).2.1
              (FT_insert_loop p (Path_getDepth p) oFile (List.range' 1 (Path_getDepth p)) mem none
                none none 0).2.2.1
            ulCount := s.ulCount +
              (FT_insert_loop p (Path_getDepth p) oFile (List.range' 1 (Path_getDepth p)) mem none
                none none 0).2.2.2 }) := by
  unfold FT_insert_body
  simp only [hroot, FT_traversePath_none, Node_deref, ne_eq, not_true_eq_false, if_false,
    Bool.false_eq_true, Option.isNone_none, Option.isSome_none, Bool.and_false, if_true,
    Nat.add_sub_cancel]
  split_ifs
  · rfl
  · rw [FT_with_root_none s hroot]

/-- The body of an insertion when the traversal fails. -/
theorem FT_insert_body_eq_conflict (s : FT) (mem : Nat) (p : Path)
    (oFile : Option (VoidPtr × Nat)) (h : (FT_traversePath s.oNRoot p).1 ≠ SUCCESS) :
    FT_insert_body s mem p oFile = ((FT_traversePath s.oNRoot p).1, s) := by
  unfold FT_insert_body
  simp only
  rw [if_pos h]

/-- The body of an insertion when the traversal ends at a node. -/
theorem FT_insert_body_eq_some (s : FT) (mem : Nat) (p : Path) (oFile : Option (VoidPtr × Nat))
    (root m : Node) (l : List Nat) (hroot : s.oNRoot = some root)
    (ht : FT_traversePath (some root) p = (SUCCESS, some l)) (hm : Node_at root l = some m)
    (hdep : Path_getDepth (Node_getPath m) = l.length + 1) :
    FT_insert_body s mem p oFile =
      if Node_type m = true then (NOT_A_DIRECTORY, s)
      else if l.length + 1 = Path_getDepth p ∧ Path_comparePath p (Node_getPath m) = 0 then
        (ALREADY_IN_TREE, s)
      else if (FT_insert_loop p (Path_getDepth p) oFile
          (List.range' (l.length + 2) (Path_getDepth p - (l.length + 1))) mem (some root) (some l)
          none 0).1 ≠ SUCCESS then
        ((FT_insert_loop p (Path_getDepth p) oFile
          (List.range' (l.length + 2) (Path_getDepth p - (l.length + 1))) mem (some root) (some l)
          none 0).1,
          { s with oNRoot := (FT_insert_loop p (Path_getDepth p) oFile
            (List.range' (l.length + 2) (Path_getDepth p - (l.length + 1))) mem (some root) (some l)
            none 0).2.1 })
      else
        (SUCCESS,
          { s with
            oNRoot := (FT_insert_loop p (Path_getDepth p) oFile
              (List.range' (l.length + 2) (Path_getDepth p - (l.length + 1))) mem (some root)
              (some l) none 0).2.1
            ulCount := s.ulCount + (FT_insert_loop p (Path_getDepth p) oFile
              (List.range' (l.length + 2) (Path_getDepth p - (l.length + 1))) mem (some root)
              (some l) none 0).2.2.2 }) := by
  unfold FT_insert_body
  simp only [hroot, ht, Node_deref, hm, hdep, ne_eq, not_true_eq_false, if_false,
    Option.isNone_some, Option.isSome_some, Bool.and_true, Bool.false_eq_true,
    Bool.and_eq_true, decide_eq_true_eq, Nat.add_right_cancel_iff, Nat.reduceSubDiff]

/-- An insertion that does not return SUCCESS leaves the state as it was. -/
theorem FT_insert_body_fail (s : FT) (mem : Nat) (p : Path) (oFile : Option (VoidPtr × Nat))
    (h : (FT_insert_body s mem p oFile).1 ≠ SUCCESS) : (FT_insert_body s mem p oFile).2 = s := by
  cases hroot : s.oNRoot with
  | none =>
    rw [FT_insert_body_eq_none s mem p oFile hroot] at h ⊢
    split_ifs at h ⊢ with h1
    · rfl
    · exact absurd rfl h
  | some root =>
    rcases FT_traversePath_some root p with ⟨h1, _⟩ | ⟨l, m, ht, _, hm, _, hle, hpath, _⟩
    · rw [← hroot] at h1
      rw [FT_insert_body_eq_conflict s mem p oFile h1]
    · have hdep : Path_getDepth (Node_getPath m) = l.length + 1 := by
        rw [hpath]; exact Path_getDepth_take p _ hle
      rw [FT_insert_body_eq_some s mem p oFile root m l hroot ht hm hdep] at h ⊢
      split_ifs at h ⊢ with h1 h2 h3
      · rfl
      · rfl
      · by_cases hmem : mem < Path_getDepth p - (l.length + 1)
        · obtain ⟨_, h5⟩ := FT_insert_loop_short p (Path_getDepth p) oFile (l.length + 2)
            (Path_getDepth p - (l.length + 1)) mem root m l 0 hm (by omega) (by omega) hmem
          simp only [h5]
          exact FT_with_root_some s root hroot
        · exfalso
          apply h3
          rcases Nat.eq_zero_or_pos (Path_getDepth p - (l.length + 1)) with h0 | h0
          · rw [h0]
            simp [FT_insert_loop_nil]
          · obtain ⟨k, hk⟩ : ∃ k, Path_getDepth p - (l.length + 1) = k + 1 :=
              ⟨Path_getDepth p - (l.length + 1) - 1, by omega⟩
            rw [hk, FT_insert_loop_full p (Path_getDepth p) oFile (l.length + 2) k mem root m
              l 0 hm (by omega) (by omega) (by omega)]
      · exact absurd rfl h

/-! ## Atomicity of a failed insertion -/

/-- C5: an insertion that returns any status other than SUCCESS, the
MEMORY_ERROR of a node creation at any level included, leaves
`bIsInitialized`, `oNRoot` (with the whole tree below it) and `ulCount` as
they were before the call: the nodes created earlier in the call have been
freed and unlinked. -/
theorem FT_insert_fail_atomic (s : FT) (mem : Nat) (pcPath : String) (pvContents : VoidPtr)
    (ulLength : Nat) :
    ((FT_insertDir s mem pcPath).1 ≠ SUCCESS → (FT_insertDir s mem pcPath).2 = s) ∧
      ((FT_insertFile s mem pcPath pvContents ulLength).1 ≠ SUCCESS →
        (FT_insertFile s mem pcPath pvContents ulLength).2 = s) := by
  unfold FT_insertDir FT_insertFile
  cases s.bIsInitialized
  · simp
  · cases Path_new pcPath with
    | error e => simp
    | ok p =>
      simp only [Bool.not_true, Bool.false_eq_true, if_false]
      refine ⟨FT_insert_body_fail s mem p none, ?_⟩
      split_ifs
      · simp
      · exact FT_insert_body_fail s mem p _

/-- A three-level `FT_insertFile` under "/a" whose third node creation
fails: MEMORY_ERROR, and the state is the one before the call. -/
theorem FT_insert_fail_atomic_witness :
    (FT_insertFile FT_sample_file 2 "/a/x/y/z" (VoidPtr.buf [7]) 1).1 = MEMORY_ERROR ∧
      (FT_insertFile FT_sample_file 2 "/a/x/y/z" (VoidPtr.buf [7]) 1).2 = FT_sample_file :=
  ⟨by decide,
    (FT_insert_fail_atomic FT_sample_file 2 "/a/x/y/z" (VoidPtr.buf [7]) 1).2 (by decide)⟩

/-! ## Well-formed paths -/

theorem Path_components_ne_nil (cs : List Char) : Path_components cs ≠ [] := by
  cases cs with
  | nil => simp [Path_components]
  | cons c cs =>
    simp only [Path_components]
    split_ifs
    · simp
    · cases Path_components cs <;> simp

theorem Path_new_depth (pcPath : String) (p : Path) (h : Path_new pcPath = .ok p) :
    1 ≤ Path_getDepth p := by
  unfold Path_new at h
  simp only [String.toList] at h
  cases hl : pcPath.data with
  | nil => simp [hl] at h
  | cons c cs =>
    simp only [hl] at h
    split_ifs at h
    simp only [Except.ok.injEq] at h
    subst h
    have := Path_components_ne_nil cs
    unfold Path_getDepth
    cases hc : Path_components cs with
    | nil => exact absurd hc this
    | cons x xs => simp

/-! ## Insertions that succeed -/

/-- With memory for fewer rounds than the loop has to run from the empty
tree, the loop fails. -/
theorem FT_insert_loop_short_root (p : Path) (D : Nat) (oFile : Option (VoidPtr × Nat))
    (len mem cnt : Nat) (h2 : len ≤ Path_getDepth p) (hmem : mem < len) :
    (FT_insert_loop p D oFile (List.range' 1 len) mem none none none cnt).1 ≠ SUCCESS := by
  cases mem with
  | zero =>
    obtain ⟨len1, rfl⟩ : ∃ len1, len = len1 + 1 := ⟨len - 1, by omega⟩
    rw [List.range'_succ]
    exact (FT_insert_loop_fail p D oFile 1 (List.range' (1 + 1) len1) none none none cnt).2
  | succ k =>
    obtain ⟨len1, rfl⟩ : ∃ len1, len = (k + 1) + (len1 + 1) := ⟨len - (k + 1) - 1, by omega⟩
    have hsplit : List.range' 1 (k + 1 + (len1 + 1)) =
        List.range' 1 (k + 1) ++ (1 + (k + 1)) :: List.range' (1 + (k + 1) + 1) len1 := by
      rw [show k + 1 + (len1 + 1) = (len1 + 1) + (k + 1) by omega,
        ← List.range'_append_1 1 (k + 1) (len1 + 1), List.range'_succ (1 + (k + 1)) len1]
    rw [hsplit, FT_insert_loop_run_root p D oFile k _ (k + 1) cnt (by omega) (le_refl _)]
    simp only [Nat.sub_self]
    exact (FT_insert_loop_fail p D oFile _ _ _ _ _ _).2

/-- Every way an insertion can return SUCCESS: into the empty tree with
memory for every level, or below a directory that is the furthest node of
the traversal, lies above the target and has no child for the next prefix,
with memory for every missing level. -/
theorem FT_insert_body_success (s : FT) (mem : Nat) (p : Path) (oFile : Option (VoidPtr × Nat))
    (h : (FT_insert_body s mem p oFile).1 = SUCCESS) :
    (s.oNRoot = none ∧ Path_getDepth p ≤ mem) ∨
    ∃ root l m, s.oNRoot = some root ∧ FT_traversePath (some root) p = (SUCCESS, some l) ∧
      FT_traversePath_loop p (List.range' 2 (Path_getDepth p - 1)) root [] = (SUCCESS, some l) ∧
      Node_at root l = some m ∧ Node_getPath root = p.take 1 ∧ Node_type m = false ∧
      Node_getPath m = p.take (l.length + 1) ∧ l.length + 1 < Path_getDepth p ∧
      (Node_hasChild m (p.take (l.length + 2))).1 = false ∧
      Path_getDepth p - (l.length + 1) ≤ mem := by
  cases hroot : s.oNRoot with
  | none =>
    left
    refine ⟨rfl, ?_⟩
    by_contra hmem
    rw [FT_insert_body_eq_none s mem p oFile hroot] at h
    have := FT_insert_loop_short_root p (Path_getDepth p) oFile (Path_getDepth p) mem 0
      (le_refl _) (by omega)
    rw [if_pos this] at h
    exact this h
  | some root =>
    right
    rcases FT_traversePath_some root p with ⟨h1, _⟩ | ⟨l, m, ht, htl, hm, hr, hle, hpath, hor⟩
    · rw [← hroot] at h1
      rw [FT_insert_body_eq_conflict s mem p oFile h1] at h
      exact absurd h h1
    · have hdep : Path_getDepth (Node_getPath m) = l.length + 1 := by
        rw [hpath]; exact Path_getDepth_take p _ hle
      rw [FT_insert_body_eq_some s mem p oFile root m l hroot ht hm hdep] at h
      split_ifs at h with h1 h2 h3
      · exact absurd h h3
      have hlt : l.length + 1 < Path_getDepth p := by
        by_contra hge
        have heq : l.length + 1 = Path_getDepth p := by omega
        apply h2
        refine ⟨heq, ?_⟩
        rw [hpath, heq]
        unfold Path_getDepth
        rw [List.take_length]
        exact Path_comparePath_self p
      refine ⟨root, l, m, rfl, ht, htl, hm, hr, by simpa using h1, hpath, hlt, ?_, ?_⟩
      · rcases hor with hor | hor
        · omega
        · exact hor
      · by_contra hmem
        have := (FT_insert_loop_short p (Path_getDepth p) oFile (l.length + 2)
          (Path_getDepth p - (l.length + 1)) mem root m l 0 hm (by omega) (by omega)
          (by omega)).1
        exact h3 this

/-! ## The traversal after an insertion -/

theorem FT_chain_children_succ (p : Path) (D : Nat) (oFile : Option (VoidPtr × Nat)) (k i : Nat)
    (q : Option Path) :
    Node_children (FT_chain p D oFile (k + 1) i q) =
      [FT_chain p D oFile k (i + 1) (some (p.take i))] := rfl

/-- The last node of a chain: where it is and what it holds. -/
theorem FT_chain_last (p : Path) (D : Nat) (oFile : Option (VoidPtr × Nat)) (k : Nat) :
    ∀ (i : Nat) (q : Option Path), ∃ leaf,
      Node_at (FT_chain p D oFile k i q) (List.replicate k 0) = some leaf ∧
      Node_getPath leaf = p.take (i + k) ∧ Node_type leaf = (FT_newKind D oFile (i + k)).1 ∧
      Node_data leaf = (FT_newKind D oFile (i + k)).2.1 ∧
      Node_len leaf = (FT_newKind D oFile (i + k)).2.2 ∧ Node_children leaf = [] := by
  induction k with
  | zero =>
    intro i q
    exact ⟨_, rfl, rfl, rfl, rfl, rfl, rfl⟩
  | succ k ih =>
    intro i q
    obtain ⟨leaf, h1, h2, h3, h4, h5, h6⟩ := ih (i + 1) (some (p.take i))
    refine ⟨leaf, ?_, ?_, ?_, ?_, ?_, h6⟩
    · rw [List.replicate_succ, Node_at_cons, FT_chain_children_succ]
      simpa using h1
    · rw [h2]; congr 1; omega
    · rw [h3]; congr 2; omega
    · rw [h4]; congr 3; omega
    · rw [h5]; congr 3; omega

/-- The traversal goes down a chain to its last node. -/
theorem FT_traversePath_loop_chain (p : Path) (D : Nat) (oFile : Option (VoidPtr × Nat)) (k : Nat) :
    ∀ (i : Nat) (q : Option Path) (loc : List Nat), 1 ≤ i → i + k ≤ Path_getDepth p →
      FT_traversePath_loop p (List.range' (i + 1) k) (FT_chain p D oFile k i q) loc =
        (SUCCESS, some (loc ++ List.replicate k 0)) := by
  induction k with
  | zero =>
    intro i q loc _ _
    simp [FT_traversePath_loop]
  | succ k ih =>
    intro i q loc h1 h2
    rw [List.range'_succ, FT_traversePath_loop, Path_prefix_ok p (i + 1) (by omega) (by omega)]
    have hc : Node_hasChild (FT_chain p D oFile (k + 1) i q) (p.take (i + 1)) = (true, 0) := by
      unfold Node_hasChild
      rw [FT_chain_children_succ, Node_hasChild_from_cons, FT_chain_getPath,
        if_pos (Path_comparePath_self _)]
    simp only [hc, if_true]
    rw [Node_getChild_ok _ (FT_chain p D oFile k (i + 1) (some (p.take i))) 0
      (by rw [FT_chain_children_succ]; rfl)]
    simp only
    rw [ih (i + 1) _ _ (by omega) (by omega)]
    simp [List.replicate_succ]

theorem List_drop_range' (s n k : Nat) :
    (List.range' s (n + k)).drop n = List.range' (s + n) k := by
  rw [show n + k = k + n by omega, ← List.range'_append_1 s n k]
  exact List.drop_left' (by simp)

@[simp] theorem Node_getPath_addChild (x c : Node) (i : Nat) :
    Node_getPath (Node_addChild x c i) = Node_getPath x := by
  simp [Node_addChild]

theorem Node_children_addChild_get (x c : Node) (i : Nat) (h : i ≤ (Node_children x).length) :
    (Node_children (Node_addChild x c i))[i]? = some c := by
  simp [Node_addChild, List_getElem?_insertIdx_self _ _ _ h]

theorem Node_hasChild_addChild (n new : Node) (p : Path) (hp : Node_getPath new = p) :
    Node_hasChild (Node_addChild n new (Node_hasChild n p).2) p = (true, (Node_hasChild n p).2) :=
  Node_hasChild_insert n new p hp

/-- After a chain has been linked under the furthest node, the traversal of
the same path ends at the last node of the chain, which holds what the
insertion was given. -/
theorem FT_traversePath_after_under (p : Path) (oFile : Option (VoidPtr × Nat)) (root m : Node)
    (l : List Nat) (k : Nat)
    (htl : FT_traversePath_loop p (List.range' 2 (Path_getDepth p - 1)) root [] =
      (SUCCESS, some l))
    (hm : Node_at root l = some m) (hr : Node_getPath root = p.take 1)
    (hk : l.length + 2 + k = Path_getDepth p) :
    FT_traversePath (some (Node_updateAt (fun x => Node_addChild x
        (FT_chain p (Path_getDepth p) oFile k (l.length + 2) (some (Node_getPath m)))
        (Node_hasChild m (p.take (l.length + 2))).2) root l)) p =
      (SUCCESS, some (l ++ (Node_hasChild m (p.take (l.length + 2))).2 :: List.replicate k 0)) ∧
    ∃ leaf, Node_at (Node_updateAt (fun x => Node_addChild x
        (FT_chain p (Path_getDepth p) oFile k (l.length + 2) (some (Node_getPath m)))
        (Node_hasChild m (p.take (l.length + 2))).2) root l)
        (l ++ (Node_hasChild m (p.take (l.length + 2))).2 :: List.replicate k 0) = some leaf ∧
      Node_getPath leaf = p ∧
      Node_type leaf = (FT_newKind (Path_getDepth p) oFile (Path_getDepth p)).1 ∧
      Node_data leaf = (FT_newKind (Path_getDepth p) oFile (Path_getDepth p)).2.1 ∧
      Node_len leaf = (FT_newKind (Path_getDepth p) oFile (Path_getDepth p)).2.2 ∧
      Node_children leaf = [] := by
  have hidx := (Node_hasChild_spec m (p.take (l.length + 2))).1
  constructor
  · unfold FT_traversePath
    simp only
    rw [Path_prefix_ok p 1 (le_refl 1) (by omega)]
    simp only
    rw [Node_getPath_updateAt _ (fun x => Node_getPath_addChild x _ _), hr,
      if_neg (by simp [Path_comparePath_self])]
    rw [FT_traversePath_loop_updateAt _ (fun x => Node_getPath_addChild x _ _) p _ root m [] l
      htl hm]
    rw [show Path_getDepth p - 1 = l.length + (k + 1) by omega, List_drop_range',
      List.range'_succ, FT_traversePath_loop, Path_prefix_ok p (2 + l.length) (by omega) (by omega)]
    simp only
    rw [show 2 + l.length = l.length + 2 by omega,
      Node_hasChild_addChild m _ (p.take (l.length + 2)) (FT_chain_getPath _ _ _ _ _ _)]
    simp only [if_true]
    rw [Node_getChild_ok _ _ _ (Node_children_addChild_get m _ _ hidx)]
    simp only
    rw [FT_traversePath_loop_chain p _ oFile k (l.length + 2) _ _ (by omega) (by omega)]
    simp
  · obtain ⟨leaf, h1, h2, h3, h4, h5, h6⟩ := FT_chain_last p (Path_getDepth p) oFile k
      (l.length + 2) (some (Node_getPath m))
    refine ⟨leaf, ?_, ?_, ?_, ?_, ?_, h6⟩
    · rw [Node_at_updateAt_append _ root m l _ hm, Node_at_cons,
        Node_children_addChild_get m _ _ hidx]
      simpa using h1
    · rw [h2, hk]
      unfold Path_getDepth
      exact List.take_length p
    · rw [h3, hk]
    · rw [h4, hk]
    · rw [h5, hk]

/-- After a chain has become the tree, the traversal of the same path ends
at the last node of the chain. -/
theorem FT_traversePath_after_root (p : Path) (oFile : Option (VoidPtr × Nat)) (k : Nat)
    (hk : 1 + k = Path_getDepth p) :
    FT_traversePath (some (FT_chain p (Path_getDepth p) oFile k 1 none)) p =
      (SUCCESS, some (List.replicate k 0)) ∧
    ∃ leaf, Node_at (FT_chain p (Path_getDepth p) oFile k 1 none) (List.replicate k 0) =
        some leaf ∧
      Node_getPath leaf = p ∧
      Node_type leaf = (FT_newKind (Path_getDepth p) oFile (Path_getDepth p)).1 ∧
      Node_data leaf = (FT_newKind (Path_getDepth p) oFile (Path_getDepth p)).2.1 ∧
      Node_len leaf = (FT_newKind (Path_getDepth p) oFile (Path_getDepth p)).2.2 ∧
      Node_children leaf = [] := by
  constructor
  · unfold FT_traversePath
    simp only
    rw [Path_prefix_ok p 1 (le_refl 1) (by omega)]
    simp only
    rw [FT_chain_getPath, if_neg (by simp [Path_comparePath_self]),
      show Path_getDepth p - 1 = k by omega,
      FT_traversePath_loop_chain p _ oFile k 1 none [] (le_refl 1) (by omega)]
    simp
  · obtain ⟨leaf, h1, h2, h3, h4, h5, h6⟩ := FT_chain_last p (Path_getDepth p) oFile k 1 none
    refine ⟨leaf, h1, ?_, ?_, ?_, ?_, h6⟩
    · rw [h2, hk]
      unfold Path_getDepth
      exact List.take_length p
    · rw [h3, hk]
    · rw [h4, hk]
    · rw [h5, hk]

/-- An insertion at the path of an existing directory returns
ALREADY_IN_TREE and leaves the state as it was. -/
theorem FT_insert_body_already (s : FT) (mem : Nat) (p : Path) (oFile : Option (VoidPtr × Nat))
    (root m : Node) (l : List Nat) (hroot : s.oNRoot = some root)
    (ht : FT_traversePath (some root) p = (SUCCESS, some l)) (hm : Node_at root l = some m)
    (hpath : Node_getPath m = p) (hdir : Node_type m = false) :
    FT_insert_body s mem p oFile = (ALREADY_IN_TREE, s) := by
  rcases FT_traversePath_some root p with ⟨h1, _⟩ | ⟨l1, m1, ht1, _, hm1, _, hle, hpath1, _⟩
  · rw [ht] at h1
    exact absurd rfl h1
  · rw [ht] at ht1
    simp only [Prod.mk.injEq, Option.some.injEq, true_and] at ht1
    subst ht1
    rw [hm] at hm1
    simp only [Option.some.injEq] at hm1
    subst hm1
    have hlen : l.length + 1 = Path_getDepth p := by
      have h2 := congrArg List.length hpath1
      rw [hpath] at h2
      simp only [List.length_take] at h2
      unfold Path_getDepth at hle ⊢
      omega
    have hdep : Path_getDepth (Node_getPath m) = l.length + 1 := by
      rw [hpath]; exact hlen.symm
    rw [FT_insert_body_eq_some s mem p oFile root m l hroot ht hm hdep]
    rw [if_neg (by simp [hdir]), if_pos ⟨hlen, by rw [hpath]; exact Path_comparePath_self p⟩]

/-! ## The nodes of a tree -/

theorem Node_entries_eq (n : Node) :
    Node_entries n = (Node_getPath n, Node_type n, Node_data n, Node_len n) ::
      Node_entriesList (Node_children n) := by
  cases n; rfl

theorem Node_entries_setChildren (n : Node) (cs : List Node) :
    Node_entries (Node_setChildren n cs) =
      (Node_getPath n, Node_type n, Node_data n, Node_len n) :: Node_entriesList cs := by
  cases n; rfl

theorem Node_entriesList_set (l : List Node) (i : Nat) (c c1 : Node) (h : l[i]? = some c) :
    (↑(Node_entriesList (l.set i c1)) + ↑(Node_entries c) : Multiset (Path × Bool × VoidPtr × Nat)) =
      ↑(Node_entriesList l) + ↑(Node_entries c1) := by
  induction l generalizing i with
  | nil => simp at h
  | cons x xs ih =>
    cases i with
    | zero =>
      simp at h
      subst h
      simp only [List.set_cons_zero, Node_entriesList, ← Multiset.coe_add]
      abel
    | succ j =>
      simp at h
      simp only [List.set_cons_succ, Node_entriesList, ← Multiset.coe_add]
      rw [add_assoc, ih j h]
      abel

theorem Node_entriesList_eraseIdx (l : List Node) (i : Nat) (c : Node) (h : l[i]? = some c) :
    (↑(Node_entriesList (l.eraseIdx i)) + ↑(Node_entries c) :
      Multiset (Path × Bool × VoidPtr × Nat)) = ↑(Node_entriesList l) := by
  induction l generalizing i with
  | nil => simp at h
  | cons x xs ih =>
    cases i with
    | zero =>
      simp at h
      subst h
      simp only [List.eraseIdx_cons_zero, Node_entriesList, ← Multiset.coe_add]
      abel
    | succ j =>
      simp at h
      simp only [List.eraseIdx_cons_succ, Node_entriesList, ← Multiset.coe_add]
      rw [add_assoc, ih j h]

theorem Node_entriesList_insertIdx (l : List Node) (i : Nat) (c : Node) (h : i ≤ l.length) :
    (↑(Node_entriesList (l.insertIdx i c)) : Multiset (Path × Bool × VoidPtr × Nat)) =
      ↑(Node_entriesList l) + ↑(Node_entries c) := by
  induction l generalizing i with
  | nil =>
    have : i = 0 := by simpa using h
    subst this
    simp [Node_entriesList]
  | cons x xs ih =>
    cases i with
    | zero =>
      simp only [List.insertIdx_zero, Node_entriesList, ← Multiset.coe_add]
      abel
    | succ j =>
      rw [List.insertIdx_succ_cons]
      simp only [Node_entriesList, ← Multiset.coe_add]
      rw [ih j (by simpa using h)]
      abel

theorem Node_entries_updateAt (f : Node → Node) (n m : Node) (l : List Nat)
    (h : Node_at n l = some m) :
    (↑(Node_entries (Node_updateAt f n l)) + ↑(Node_entries m) :
      Multiset (Path × Bool × VoidPtr × Nat)) = ↑(Node_entries n) + ↑(Node_entries (f m)) := by
  induction l generalizing n with
  | nil =>
    simp only [Node_at, Option.some.injEq] at h
    subst h
    simp only [Node_updateAt]
    abel
  | cons i l ih =>
    rw [Node_at_cons] at h
    cases hc : (Node_children n)[i]? with
    | none => simp [hc] at h
    | some c =>
      simp only [hc, Option.some_bind] at h
      rw [Node_updateAt_cons f n c i l hc, Node_entries_setChildren, Node_entries_eq n]
      have h1 := Node_entriesList_set (Node_children n) i c (Node_updateAt f c l) hc
      have h2 := ih c h
      simp only [← Multiset.cons_coe, Multiset.cons_add] at h1 h2 ⊢
      congr 1
      have h3 : (↑(Node_entriesList ((Node_children n).set i (Node_updateAt f c l))) +
          ↑(Node_entries m) + ↑(Node_entries c) : Multiset (Path × Bool × VoidPtr × Nat)) =
          ↑(Node_entriesList (Node_children n)) + ↑(Node_entries (f m)) + ↑(Node_entries c) := by
        rw [add_right_comm, h1, add_assoc, h2]
        abel
      exact add_right_cancel h3

theorem Node_entries_addChild (m c : Node) (i : Nat) (h : i ≤ (Node_children m).length) :
    (↑(Node_entries (Node_addChild m c i)) : Multiset (Path × Bool × VoidPtr × Nat)) =
      ↑(Node_entries m) + ↑(Node_entries c) := by
  unfold Node_addChild
  rw [Node_entries_setChildren, Node_entries_eq m]
  simp only [← Multiset.cons_coe, Multiset.cons_add]
  rw [Node_entriesList_insertIdx _ _ _ h]

/-- The nodes of a chain: one for each level, top down. -/
theorem Node_entries_chain (p : Path) (D : Nat) (oFile : Option (VoidPtr × Nat)) (k : Nat) :
    ∀ (i : Nat) (q : Option Path), Node_entries (FT_chain p D oFile k i q) =
      (List.range' i (k + 1)).map (fun j => (p.take j, FT_newKind D oFile j)) := by
  induction k with
  | zero => intro i q; rfl
  | succ k ih =>
    intro i q
    rw [List.range'_succ, List.map_cons, ← ih (i + 1) (some (p.take i))]
    simp [FT_chain, Node_entries, Node_entriesList]

theorem Node_entries_length (n : Node) : (Node_entries n).length = Node_size n := by
  have key : ∀ (n : Node), (Node_entries n).length = Node_size n := by
    intro n
    induction n using Node.rec (motive_2 := fun cs => (Node_entriesList cs).length = Node_sizeList cs) with
    | mk p q t d l cs ih => simp [Node_entries, Node_size, ih]
    | nil => rfl
    | cons c cs ih1 ih2 => simp [Node_entriesList, Node_sizeList, ih1, ih2]
  exact key n

/-! ## `FT_insertDir` -/

theorem Path_new_error (pcPath : String) (e : Status) (h : Path_new pcPath = .error e) :
    e = BAD_PATH := by
  unfold Path_new at h
  simp only [String.toList] at h
  cases hl : pcPath.data with
  | nil =>
    simp only [hl, Except.error.injEq] at h
    exact h.symm
  | cons c cs =>
    simp only [hl] at h
    split_ifs at h <;> simp only [Except.error.injEq] at h <;> exact h.symm

theorem FT_insertDir_eq_body (s : FT) (mem : Nat) (pcPath : String) (p : Path)
    (hinit : s.bIsInitialized = true) (hp : Path_new pcPath = .ok p) :
    FT_insertDir s mem pcPath = FT_insert_body s mem p none := by
  simp [FT_insertDir, hinit, hp]

/-- What a successful `FT_insertDir` has been given. -/
theorem FT_insertDir_success (s : FT) (mem : Nat) (pcPath : String)
    (h : (FT_insertDir s mem pcPath).1 = SUCCESS) :
    s.bIsInitialized = true ∧ ∃ p, Path_new pcPath = .ok p := by
  unfold FT_insertDir at h
  cases hi : s.bIsInitialized
  · simp [hi] at h
  · refine ⟨rfl, ?_⟩
    cases hp : Path_new pcPath with
    | error e =>
      have := Path_new_error pcPath e hp
      subst this
      simp [hi, hp] at h
    | ok p => exact ⟨p, rfl⟩

/-- C3: when `FT_insertDir` of a path returns SUCCESS, the same call made
again at once returns ALREADY_IN_TREE and leaves `ulCount`, `oNRoot` and the
tree as the first call left them, whatever memory is available. -/
theorem FT_insertDir_twice (s : FT) (mem mem2 : Nat) (pcPath : String)
    (h : (FT_insertDir s mem pcPath).1 = SUCCESS) :
    FT_insertDir (FT_insertDir s mem pcPath).2 mem2 pcPath =
      (ALREADY_IN_TREE, (FT_insertDir s mem pcPath).2) := by
  obtain ⟨hinit, p, hp⟩ := FT_insertDir_success s mem pcPath h
  have hd := Path_new_depth pcPath p hp
  have key : ∀ s1 : FT, s1.bIsInitialized = true →
      FT_insertDir s1 mem2 pcPath = FT_insert_body s1 mem2 p none :=
    fun s1 hi => FT_insertDir_eq_body s1 mem2 pcPath p hi hp
  rw [FT_insertDir_eq_body s mem pcPath p hinit hp] at h ⊢
  rcases FT_insert_body_success s mem p none h with
    ⟨hroot, hmem⟩ | ⟨root, l, m, hroot, ht, htl, hm, hr, hdir, hpath, hlt, -, hmem⟩
  · rw [FT_insert_body_root s mem p none hroot hd hmem]
    obtain ⟨h1, leaf, h2, h3, h4, -⟩ :=
      FT_traversePath_after_root p none (Path_getDepth p - 1) (by omega)
    rw [key _ (by exact hinit)]
    exact FT_insert_body_already _ mem2 p none _ leaf _ rfl h1 h2 h3 h4
  · rw [FT_insert_body_under s mem p none root m l hroot ht hm hdir hpath hlt hmem]
    obtain ⟨h1, leaf, h2, h3, h4, -⟩ :=
      FT_traversePath_after_under p none root m l (Path_getDepth p - (l.length + 2)) htl hm hr
        (by omega)
    rw [key _ (by exact hinit)]
    exact FT_insert_body_already _ mem2 p none _ leaf _ rfl h1 h2 h3 h4

/-- Inserting "/a/b/c" twice under "/a": the second call answers
ALREADY_IN_TREE and keeps the state. -/
theorem FT_insertDir_twice_witness :
    (FT_insertDir FT_sample_dir 2 "/a/b/c").1 = SUCCESS ∧
      FT_insertDir (FT_insertDir FT_sample_dir 2 "/a/b/c").2 5 "/a/b/c" =
        (ALREADY_IN_TREE, (FT_insertDir FT_sample_dir 2 "/a/b/c").2) :=
  ⟨by decide, FT_insertDir_twice FT_sample_dir 2 5 "/a/b/c" (by decide)⟩

/-- What `FT_insertDir` adds when the furthest existing ancestor of the path
is a directory at depth `d` below the depth of the path (`d = 0` on the empty
tree) and there is memory for every missing level: one directory for each
prefix of depth `d + 1 .. depth`, with the count of the model raised by
`depth - d`. -/
theorem FT_insertDir_adds (s : FT) (mem : Nat) (pcPath : String) (p : Path) (d : Nat)
    (hinit : s.bIsInitialized = true) (hp : Path_new pcPath = .ok p)
    (hanc : (s.oNRoot = none ∧ d = 0) ∨
      ∃ l m, FT_traversePath s.oNRoot p = (SUCCESS, some l) ∧
        Node_deref s.oNRoot (some l) = some m ∧ Node_type m = false ∧
        Path_getDepth (Node_getPath m) = d)
    (hd : d < Path_getDepth p) (hmem : Path_getDepth p - d ≤ mem) :
    (FT_insertDir s mem pcPath).1 = SUCCESS ∧
      (FT_insertDir s mem pcPath).2.bIsInitialized = true ∧
      (FT_insertDir s mem pcPath).2.ulCount = s.ulCount + (Path_getDepth p - d) ∧
      (FT_entries (FT_insertDir s mem pcPath).2).Perm
        (FT_entries s ++ (List.range' (d + 1) (Path_getDepth p - d)).map
          (fun j => (p.take j, false, VoidPtr.NULL, 0))) ∧
      (s.oNRoot = none → ∃ r, (FT_insertDir s mem pcPath).2.oNRoot = some r ∧
        Node_getPath r = p.take 1 ∧ Node_getParentPath r = none) := by
  rw [FT_insertDir_eq_body s mem pcPath p hinit hp]
  rcases hanc with ⟨hroot, rfl⟩ | ⟨l, m, ht, hm, hdir, hdm⟩
  · rw [FT_insert_body_root s mem p none hroot (by omega) (by omega)]
    refine ⟨rfl, hinit, rfl, ?_, fun _ => ⟨_, rfl, FT_chain_getPath _ _ _ _ _ _, ?_⟩⟩
    · simp only [FT_entries, hroot, List.nil_append, Node_entries_chain]
      rw [show Path_getDepth p - 1 + 1 = Path_getDepth p - 0 by omega]
      rfl
    · cases hk : Path_getDepth p - 1 <;> rfl
  · cases hroot : s.oNRoot with
    | none => rw [hroot] at ht; simp [FT_traversePath] at ht
    | some root =>
      rw [hroot] at ht hm
      simp only [Node_deref] at hm
      rcases FT_traversePath_some root p with ⟨h1, _⟩ | ⟨l1, m1, ht1, _, hm1, _, hle, hpath1, _⟩
      · rw [ht] at h1
        exact absurd rfl h1
      · rw [ht] at ht1
        simp only [Prod.mk.injEq, Option.some.injEq, true_and] at ht1
        subst ht1
        rw [hm] at hm1
        simp only [Option.some.injEq] at hm1
        subst hm1
        have hdl : d = l.length + 1 := by
          rw [← hdm, hpath1]; exact Path_getDepth_take p _ hle
        subst hdl
        rw [FT_insert_body_under s mem p none root m l hroot ht hm hdir hpath1 hd hmem]
        refine ⟨rfl, hinit, rfl, ?_, fun h => by simp [hroot] at h⟩
        simp only [FT_entries, hroot]
        apply Multiset.coe_eq_coe.mp
        have h1 := Node_entries_updateAt (fun x => Node_addChild x
            (FT_chain p (Path_getDepth p) none (Path_getDepth p - (l.length + 2)) (l.length + 2)
              (some (Node_getPath m))) (Node_hasChild m (p.take (l.length + 2))).2) root m l hm
        rw [Node_entries_addChild m _ _ (Node_hasChild_spec m _).1, ← add_assoc,
          add_right_comm] at h1
        have h2 := add_right_cancel h1
        rw [h2, Node_entries_chain, Multiset.coe_add,
          show Path_getDepth p - (l.length + 2) + 1 = Path_getDepth p - (l.length + 1) by omega]
        rfl

/-- C2 fails as stated: with "/a" a directory and "/a/b" absent,
`FT_insertDir("/a/b/c")` returns MEMORY_ERROR, not SUCCESS, when the second
node creation fails. -/
theorem FT_insertDir_memory_error :
    FT_sample_dir.bIsInitialized = true ∧ Path_new "/a/b/c" = .ok [['a'], ['b'], ['c']] ∧
      FT_containsDir FT_sample_dir "/a" = true ∧ FT_containsDir FT_sample_dir "/a/b" = false ∧
      (FT_insertDir FT_sample_dir 1 "/a/b/c").1 = MEMORY_ERROR :=
  ⟨rfl, rfl, by decide, by decide, by decide⟩

/-! ## Lookups that succeed -/

/-- What a successful `FT_findNode` has found: the tree is initialized, the
text is a well-formed path, and the handle is the furthest node of the
traversal, whose path is the whole path. -/
theorem FT_findNode_success (s : FT) (pcPath : String) (h : (FT_findNode s pcPath).1 = SUCCESS) :
    ∃ p root l m, s.bIsInitialized = true ∧ Path_new pcPath = .ok p ∧ s.oNRoot = some root ∧
      FT_traversePath (some root) p = (SUCCESS, some l) ∧
      FT_traversePath_loop p (List.range' 2 (Path_getDepth p - 1)) root [] = (SUCCESS, some l) ∧
      Node_at root l = some m ∧ Node_getPath m = p ∧ l.length + 1 = Path_getDepth p ∧
      FT_findNode s pcPath = (SUCCESS, some l) := by
  unfold FT_findNode at h
  cases hi : s.bIsInitialized
  · simp [hi] at h
  · cases hp : Path_new pcPath with
    | error e =>
      have := Path_new_error pcPath e hp
      subst this
      simp [hi, hp] at h
    | ok p =>
      simp only [hi, hp, Bool.not_true, Bool.false_eq_true, if_false] at h
      cases hroot : s.oNRoot with
      | none => simp [hroot, FT_traversePath, Node_deref] at h
      | some root =>
        rw [hroot] at h
        rcases FT_traversePath_some root p with ⟨h1, _⟩ | ⟨l, m, ht, htl, hm, _, hle, hpath, _⟩
        · rw [if_pos h1] at h
          exact absurd h h1
        · simp only [ht, ne_eq, not_true_eq_false, if_false, Node_deref, hm] at h
          by_cases hc : Path_comparePath (Node_getPath m) p = 0
          · have hmp := Path_comparePath_eq_zero.mp hc
            refine ⟨p, root, l, m, rfl, rfl, rfl, ht, htl, hm, hmp, ?_, ?_⟩
            · have h2 := congrArg List.length hpath
              rw [hmp] at h2
              simp only [List.length_take] at h2
              unfold Path_getDepth at hle ⊢
              omega
            · unfold FT_findNode
              simp [hi, hp, hroot, ht, Node_deref, hm, hc]
          · rw [if_pos hc] at h
            cases h

theorem FT_containsFile_true (s : FT) (pcPath : String) (h : FT_containsFile s pcPath = true) :
    ∃ p root l m, s.bIsInitialized = true ∧ Path_new pcPath = .ok p ∧ s.oNRoot = some root ∧
      FT_traversePath (some root) p = (SUCCESS, some l) ∧
      FT_traversePath_loop p (List.range' 2 (Path_getDepth p - 1)) root [] = (SUCCESS, some l) ∧
      Node_at root l = some m ∧ Node_getPath m = p ∧ l.length + 1 = Path_getDepth p ∧
      Node_type m = true := by
  unfold FT_containsFile at h
  simp only [Bool.and_eq_true, decide_eq_true_eq] at h
  obtain ⟨p, root, l, m, h1, h2, h3, h4, h5, h6, h7, h8, h9⟩ := FT_findNode_success s pcPath h.1
  refine ⟨p, root, l, m, h1, h2, h3, h4, h5, h6, h7, h8, ?_⟩
  have h10 := h.2
  rw [h9, h3] at h10
  simpa [Node_deref, h6] using h10

/-! ## `FT_replaceFileContents` -/

/-- The traversal of a path after a change, at the node the path names, that
keeps the path of that node: it ends at the same position. -/
theorem FT_traversePath_updateAt_end (f : Node → Node)
    (hf : ∀ x, Node_getPath (f x) = Node_getPath x) (p : Path) (root m : Node) (l : List Nat)
    (ht : FT_traversePath (some root) p = (SUCCESS, some l))
    (htl : FT_traversePath_loop p (List.range' 2 (Path_getDepth p - 1)) root [] =
      (SUCCESS, some l))
    (hm : Node_at root l = some m) (hlen : l.length + 1 = Path_getDepth p) :
    FT_traversePath (some (Node_updateAt f root l)) p = (SUCCESS, some l) := by
  unfold FT_traversePath at ht ⊢
  simp only at ht ⊢
  rw [Path_prefix_ok p 1 (le_refl 1) (by omega)] at ht ⊢
  simp only at ht ⊢
  rw [Node_getPath_updateAt f hf]
  split_ifs at ht ⊢ with hc
  · cases ht
  · rw [FT_traversePath_loop_updateAt f hf p _ root m [] l htl hm, List.drop_of_length_le (by simp; omega)]
    simp [FT_traversePath_loop]

/-- C8: on an initialized tree, for a path that names a file with buffer
`b`, `FT_replaceFileContents` with a new buffer and length returns exactly
`b`; straight after, `FT_getFileContents` of the path returns the new buffer
and `FT_stat` reports a file of the new length; `bIsInitialized`, `ulCount`
and the root are as before, and the nodes of the tree are the nodes before
with the entry of that one file replaced. -/
theorem FT_replaceFileContents_get (s : FT) (pcPath : String) (b pvNewContents : VoidPtr)
    (ulNewLength : Nat) (bIsFile : Bool) (ulSize : Nat)
    (hfile : FT_containsFile s pcPath = true) (hb : FT_getFileContents s pcPath = some b) :
    ∃ s1, FT_replaceFileContents s pcPath pvNewContents ulNewLength = some (b, s1) ∧
      FT_getFileContents s1 pcPath = some pvNewContents ∧
      FT_stat s1 pcPath bIsFile ulSize = some (SUCCESS, true, ulNewLength) ∧
      FT_containsFile s1 pcPath = true ∧
      s1.bIsInitialized = s.bIsInitialized ∧ s1.ulCount = s.ulCount ∧
      s1.oNRoot.map Node_getPath = s.oNRoot.map Node_getPath ∧
      ∃ p ulLength, Path_new pcPath = .ok p ∧
        ((p, true, b, ulLength) :: FT_entries s1).Perm
          ((p, true, pvNewContents, ulNewLength) :: FT_entries s) := by
  obtain ⟨p, root, l, m, hinit, hp, hroot, ht, htl, hm, hpath, hlen, htype⟩ :=
    FT_containsFile_true s pcPath hfile
  have hcmp : Path_comparePath (Node_getPath m) p = 0 := by
    rw [hpath]; exact Path_comparePath_self p
  have hdata : Node_data m = b := by
    unfold FT_getFileContents at hb
    simpa [hp, hroot, ht, Node_deref, hm, htype, hcmp] using hb
  let f : Node → Node := fun n => Node.mk (Node_getPath n) (Node_getParentPath n) (Node_type n)
      pvNewContents ulNewLength (Node_children n)
  have hf : ∀ x, Node_getPath (f x) = Node_getPath x := fun x => rfl
  have ht1 := FT_traversePath_updateAt_end f hf p root m l ht htl hm hlen
  have hm1 : Node_at (Node_updateAt f root l) l = some (f m) := Node_at_updateAt f root m l hm
  have hcmp1 : Path_comparePath (Node_getPath (f m)) p = 0 := hcmp
  have htype1 : Node_type (f m) = true := htype
  refine ⟨{ s with oNRoot := some (Node_updateAt f root l) }, ?_, ?_, ?_, ?_, rfl, rfl, ?_, p,
    Node_len m, hp, ?_⟩
  · unfold FT_replaceFileContents
    simp [hp, hroot, ht, Node_deref, hm, htype, hcmp, hdata, Node_changeData, f]
  · unfold FT_getFileContents
    simp only [hp, ht1, Node_deref, hm1, htype1, hcmp1]
    simp [f, Node_data]
  · unfold FT_stat
    simp only [hinit, hp, ht1, Node_deref, hm1, htype1, hcmp1]
    simp [f, Node_len]
  · unfold FT_containsFile FT_findNode
    simp only [hinit, hp, ht1, Node_deref, hm1, htype1, hcmp1]
    simp [hm1, htype1]
  · simp only [hroot, Option.map_some', Option.some.injEq]
    exact Node_getPath_updateAt f hf root l
  · simp only [FT_entries, hroot]
    apply Multiset.coe_eq_coe.mp
    have h1 := Node_entries_updateAt f root m l hm
    rw [Node_entries_eq m, Node_entries_eq (f m)] at h1
    simp only [← Multiset.cons_coe, Multiset.add_cons] at h1 ⊢
    have h2 : Node_entriesList (Node_children (f m)) = Node_entriesList (Node_children m) := rfl
    rw [h2, hpath, htype, hdata] at h1
    have h3 : Node_getPath (f m) = p := hpath
    have h4 : Node_type (f m) = true := htype
    have h5 : Node_data (f m) = pvNewContents := rfl
    have h6 : Node_len (f m) = ulNewLength := rfl
    rw [h3, h4, h5, h6] at h1
    rw [← Multiset.cons_add, ← Multiset.cons_add] at h1
    exact add_right_cancel h1

/-- Replacing the contents [1, 2] of the file "/a/f" by [9]: the old buffer
comes back and the new one is read afterwards. -/
theorem FT_replaceFileContents_get_witness :
    FT_containsFile FT_sample_file "/a/f" = true ∧
      FT_getFileContents FT_sample_file "/a/f" = some (VoidPtr.buf [1, 2]) ∧
      ∃ s1, FT_replaceFileContents FT_sample_file "/a/f" (VoidPtr.buf [9]) 1 =
          some (VoidPtr.buf [1, 2], s1) ∧
        FT_getFileContents s1 "/a/f" = some (VoidPtr.buf [9]) ∧
        FT_stat s1 "/a/f" false 0 = some (SUCCESS, true, 1) ∧
        FT_containsFile s1 "/a/f" = true ∧
        s1.bIsInitialized = FT_sample_file.bIsInitialized ∧ s1.ulCount = FT_sample_file.ulCount ∧
        s1.oNRoot.map Node_getPath = FT_sample_file.oNRoot.map Node_getPath ∧
        ∃ p ulLength, Path_new "/a/f" = .ok p ∧
          ((p, true, VoidPtr.buf [1, 2], ulLength) :: FT_entries s1).Perm
            ((p, true, VoidPtr.buf [9], 1) :: FT_entries FT_sample_file) :=
  ⟨by decide, by decide,
    FT_replaceFileContents_get FT_sample_file "/a/f" (VoidPtr.buf [1, 2]) (VoidPtr.buf [9]) 1
      false 0 (by decide) (by decide)⟩

/-! ## The checker -/

theorem CheckerDT_treeCheck_node_eq (n : Node) (c : Nat) :
    CheckerDT_treeCheck_node n c =
      if CheckerDT_Node_isValid (some n) = true then
        if (CheckerDT_treeCheck_children (Node_children n) none c).1 = true then
          (true, (CheckerDT_treeCheck_children (Node_children n) none c).2 + 1)
        else (false, (CheckerDT_treeCheck_children (Node_children n) none c).2)
      else (false, c) := by
  cases n with
  | mk p q t d l cs =>
    rw [CheckerDT_treeCheck_node]
    simp only [Node_children]
    cases CheckerDT_Node_isValid (some (Node.mk p q t d l cs))
    · simp
    · simp only [Bool.not_true, Bool.false_eq_true, if_false, if_true]
      cases hr : CheckerDT_treeCheck_children cs none c with
      | mk b c1 => cases b <;> simp

theorem CheckerDT_treeCheck_children_cons (x : Node) (xs : List Node) (prev : Option Path)
    (c : Nat) :
    CheckerDT_treeCheck_children (x :: xs) prev c =
      if CheckerDT_siblingCheck prev x = true then (false, c)
      else if (CheckerDT_treeCheck_node x c).1 = true then
        CheckerDT_treeCheck_children xs (some (Node_getPath x)) (CheckerDT_treeCheck_node x c).2
      else (false, (CheckerDT_treeCheck_node x c).2) := by
  conv_lhs => unfold CheckerDT_treeCheck_children
  split_ifs with h1 h2
  · rfl
  · cases hr : CheckerDT_treeCheck_node x c with
    | mk b c1 =>
      rw [hr] at h2
      simp only at h2
      subst h2
      rfl
  · cases hr : CheckerDT_treeCheck_node x c with
    | mk b c1 =>
      rw [hr] at h2
      simp only [Bool.not_eq_true] at h2
      subst h2
      rfl

/-- When `CheckerDT_treeCheck` returns TRUE it has raised the count by the
number of nodes of the subtree. -/
theorem CheckerDT_treeCheck_node_count (n : Node) :
    ∀ c, (CheckerDT_treeCheck_node n c).1 = true →
      (CheckerDT_treeCheck_node n c).2 = c + Node_size n := by
  refine Node.rec (motive_1 := fun n => ∀ c, (CheckerDT_treeCheck_node n c).1 = true →
      (CheckerDT_treeCheck_node n c).2 = c + Node_size n)
    (motive_2 := fun cs => ∀ prev c,
      (CheckerDT_treeCheck_children cs prev c).1 = true →
        (CheckerDT_treeCheck_children cs prev c).2 = c + Node_sizeList cs) ?_ ?_ ?_ n
  · intro p q t d l cs ih c h
    rw [CheckerDT_treeCheck_node_eq] at h ⊢
    simp only [Node_children] at h ⊢
    by_cases h1 : CheckerDT_Node_isValid (some (Node.mk p q t d l cs)) = true
    · by_cases h2 : (CheckerDT_treeCheck_children cs none c).1 = true
      · simp only [h1, h2, if_true, ih none c h2, Node_size]
        omega
      · simp [h1, h2] at h
    · simp [h1] at h
  · intro prev c _
    simp [CheckerDT_treeCheck_children, Node_sizeList]
  · intro x xs ih1 ih2 prev c h
    rw [CheckerDT_treeCheck_children_cons] at h ⊢
    split_ifs at h ⊢ with h1 h2
    rw [ih2 _ _ h, ih1 c h2, Node_sizeList]
    omega

/-- A state that `CheckerDT_isValid` accepts has a count equal to the number
of nodes below the root. -/
theorem CheckerDT_isValid_count (s : FT)
    (h : CheckerDT_isValid s.bIsInitialized s.oNRoot s.ulCount = true) :
    s.ulCount = match s.oNRoot with
      | none => 0
      | some root => Node_size root := by
  unfold CheckerDT_isValid at h
  cases hroot : s.oNRoot with
  | none =>
    show s.ulCount = 0
    cases hi : s.bIsInitialized <;>
      simp [hroot, hi, CheckerDT_treeCheck] at h <;> omega
  | some root =>
    show s.ulCount = Node_size root
    cases hi : s.bIsInitialized
    · simp [hroot, hi] at h
    · simp only [hroot, hi, CheckerDT_treeCheck] at h
      by_cases hc : (CheckerDT_treeCheck_node root 0).1 = true
      · have h4 := CheckerDT_treeCheck_node_count root 0 hc
        simp [hc, h4] at h
        omega
      · simp [hc] at h

/-! ## Removal -/

theorem Node_entries_eraseAt (n m : Node) (l : List Nat) (h : Node_at n l = some m) :
    (Multiset.ofList (match Node_eraseAt n l with
      | none => []
      | some n1 => Node_entries n1) + ↑(Node_entries m) :
      Multiset (Path × Bool × VoidPtr × Nat)) = ↑(Node_entries n) := by
  induction l generalizing n with
  | nil =>
    simp only [Node_at, Option.some.injEq] at h
    subst h
    simp [Node_eraseAt]
  | cons j l ih =>
    rw [Node_at_cons] at h
    cases hc : (Node_children n)[j]? with
    | none => simp [hc] at h
    | some c =>
      simp only [hc, Option.some_bind] at h
      rw [Node_eraseAt_cons n c j l hc]
      have h1 := ih c h
      cases he : Node_eraseAt c l with
      | none =>
        simp only [he] at h1 ⊢
        rw [Node_entries_setChildren, Node_entries_eq n]
        have h2 := Node_entriesList_eraseIdx (Node_children n) j c hc
        simp only [← Multiset.cons_coe, Multiset.cons_add]
        rw [← h2, ← h1]
        simp
      | some c1 =>
        simp only [he] at h1 ⊢
        rw [Node_entries_setChildren, Node_entries_eq n]
        have h2 := Node_entriesList_set (Node_children n) j c c1 hc
        simp only [← Multiset.cons_coe, Multiset.cons_add]
        congr 1
        have h3 : (↑(Node_entriesList ((Node_children n).set j c1)) + ↑(Node_entries m) +
            ↑(Node_entries c) : Multiset (Path × Bool × VoidPtr × Nat)) =
            ↑(Node_entriesList (Node_children n)) + ↑(Node_entries c) := by
          rw [add_right_comm, h2, ← h1]
          abel
        exact add_right_cancel h3

/-- What lines 301-303 (455-457) do to a state whose count is the number of
nodes: freeing the root empties the tree, freeing any other node leaves the
root in place with the subtree unlinked and the count reduced by its size. -/
theorem FT_rm_free_spec (s : FT) (root m : Node) (l : List Nat) (hroot : s.oNRoot = some root)
    (hm : Node_at root l = some m) (hcount : s.ulCount = Node_size root) :
    (l = [] → FT_rm_free s (some l) = { s with oNRoot := none, ulCount := 0 }) ∧
    (l ≠ [] → ∃ n1, Node_eraseAt root l = some n1 ∧ Node_size n1 + Node_size m = Node_size root ∧
      Node_getPath n1 = Node_getPath root ∧ Node_getParentPath n1 = Node_getParentPath root ∧
      Node_type n1 = Node_type root ∧
      FT_rm_free s (some l) = { s with oNRoot := some n1, ulCount := Node_size n1 }) := by
  have hsize := Node_size_eraseAt root m l hm
  constructor
  · intro hl
    subst hl
    simp only [Node_at, Option.some.injEq] at hm
    subst hm
    simp [FT_rm_free, Node_free, hroot, Node_at, hcount]
  · intro hl
    obtain ⟨n1, he, h1, h2, h3⟩ := Node_eraseAt_ne_nil root l hl
    rw [he] at hsize
    simp only at hsize
    refine ⟨n1, he, hsize, h1, h2, h3, ?_⟩
    have hpos := Node_size_pos n1
    have hsub : Node_size root - Node_size m = Node_size n1 := by omega
    simp only [FT_rm_free, Node_free, hroot, hm, he, hcount, hsub]
    rw [if_neg (by omega)]

theorem FT_containsDir_true (s : FT) (pcPath : String) (h : FT_containsDir s pcPath = true) :
    ∃ p root l m, s.bIsInitialized = true ∧ Path_new pcPath = .ok p ∧ s.oNRoot = some root ∧
      FT_traversePath (some root) p = (SUCCESS, some l) ∧
      FT_traversePath_loop p (List.range' 2 (Path_getDepth p - 1)) root [] = (SUCCESS, some l) ∧
      Node_at root l = some m ∧ Node_getPath m = p ∧ l.length + 1 = Path_getDepth p ∧
      Node_type m = false ∧ FT_findNode s pcPath = (SUCCESS, some l) := by
  unfold FT_containsDir at h
  simp only [Bool.and_eq_true, decide_eq_true_eq] at h
  obtain ⟨p, root, l, m, h1, h2, h3, h4, h5, h6, h7, h8, h9⟩ := FT_findNode_success s pcPath h.1
  refine ⟨p, root, l, m, h1, h2, h3, h4, h5, h6, h7, h8, ?_, h9⟩
  have h10 := h.2
  rw [h9, h3] at h10
  simpa [Node_deref, h6] using h10

/-- C6: on a state that `CheckerDT_isValid` accepts, for a path that names a
directory with `N` descendants, `FT_rmDir` returns SUCCESS and lowers
`ulCount` by exactly `N + 1`; the nodes left are the nodes before without the
subtree of that directory; when the directory is the root, `oNRoot` is NULL
and `ulCount` is 0 afterwards, and otherwise the root stays in place. -/
theorem FT_rmDir_count (s : FT) (pcPath : String)
    (hvalid : CheckerDT_isValid s.bIsInitialized s.oNRoot s.ulCount = true)
    (hdir : FT_containsDir s pcPath = true) :
    ∃ root l m, s.oNRoot = some root ∧ FT_findNode s pcPath = (SUCCESS, some l) ∧
      Node_at root l = some m ∧
      (FT_rmDir s pcPath).1 = SUCCESS ∧
      (FT_rmDir s pcPath).2.bIsInitialized = true ∧
      (FT_rmDir s pcPath).2.ulCount + (Node_sizeList (Node_children m) + 1) = s.ulCount ∧
      (FT_entries (FT_rmDir s pcPath).2 ++ Node_entries m).Perm (FT_entries s) ∧
      (l = [] → (FT_rmDir s pcPath).2.oNRoot = none ∧ (FT_rmDir s pcPath).2.ulCount = 0) ∧
      (l ≠ [] → ∃ root1, (FT_rmDir s pcPath).2.oNRoot = some root1 ∧
        Node_getPath root1 = Node_getPath root ∧
        Node_getParentPath root1 = Node_getParentPath root ∧
        Node_type root1 = Node_type root) := by
  obtain ⟨p, root, l, m, hinit, hp, hroot, ht, htl, hm, hpath, hlen, htype, hfind⟩ :=
    FT_containsDir_true s pcPath hdir
  have hcount := CheckerDT_isValid_count s hvalid
  rw [hroot] at hcount
  simp only at hcount
  obtain ⟨hnil, hcons⟩ := FT_rm_free_spec s root m l hroot hm hcount
  have hrm : FT_rmDir s pcPath = (SUCCESS, FT_rm_free s (some l)) := by
    unfold FT_rmDir
    simp [hfind, hroot, Node_deref, hm, htype]
  have hent := Node_entries_eraseAt root m l hm
  refine ⟨root, l, m, hroot, hfind, hm, ?_, ?_, ?_, ?_, ?_, ?_⟩
  · rw [hrm]
  · rw [hrm]; exact hinit
  · rw [hrm]
    by_cases hl : l = []
    · rw [hnil hl]
      subst hl
      simp only [Node_at, Option.some.injEq] at hm
      subst hm
      simp only [hcount, Node_size_eq root]
      omega
    · obtain ⟨n1, _, hs, _, _, _, hfree⟩ := hcons hl
      rw [hfree]
      simp only [hcount, ← hs, Node_size_eq m]
  · rw [hrm]
    apply Multiset.coe_eq_coe.mp
    rw [← Multiset.coe_add]
    by_cases hl : l = []
    · rw [hnil hl]
      subst hl
      simp only [Node_at, Option.some.injEq] at hm
      subst hm
      simp [FT_entries, hroot]
    · obtain ⟨n1, he, _, _, _, _, hfree⟩ := hcons hl
      rw [hfree]
      rw [he] at hent
      simpa [FT_entries, hroot] using hent
  · intro hl
    rw [hrm, hnil hl]
    exact ⟨rfl, rfl⟩
  · intro hl
    obtain ⟨n1, _, _, h1, h2, h3, hfree⟩ := hcons hl
    rw [hrm, hfree]
    exact ⟨n1, rfl, h1, h2, h3⟩

/-- Removing "/a/b", which has the one descendant "/a/b/c", from the tree
with "/a", "/a/b", "/a/b/c" and "/a/f": the count drops by 2 and the root
stays. -/
theorem FT_rmDir_count_witness :
    CheckerDT_isValid FT_sample_tree.bIsInitialized FT_sample_tree.oNRoot
        FT_sample_tree.ulCount = true ∧
      FT_containsDir FT_sample_tree "/a/b" = true ∧
      (FT_rmDir FT_sample_tree "/a/b").2.ulCount + 2 = FT_sample_tree.ulCount ∧
      ∃ root l m, FT_sample_tree.oNRoot = some root ∧
        FT_findNode FT_sample_tree "/a/b" = (SUCCESS, some l) ∧
        Node_at root l = some m ∧
        (FT_rmDir FT_sample_tree "/a/b").1 = SUCCESS ∧
        (FT_rmDir FT_sample_tree "/a/b").2.bIsInitialized = true ∧
        (FT_rmDir FT_sample_tree "/a/b").2.ulCount + (Node_sizeList (Node_children m) + 1) =
          FT_sample_tree.ulCount ∧
        (FT_entries (FT_rmDir FT_sample_tree "/a/b").2 ++ Node_entries m).Perm
          (FT_entries FT_sample_tree) ∧
        (l = [] → (FT_rmDir FT_sample_tree "/a/b").2.oNRoot = none ∧
          (FT_rmDir FT_sample_tree "/a/b").2.ulCount = 0) ∧
        (l ≠ [] → ∃ root1, (FT_rmDir FT_sample_tree "/a/b").2.oNRoot = some root1 ∧
          Node_getPath root1 = Node_getPath root ∧
          Node_getParentPath root1 = Node_getParentPath root ∧
          Node_type root1 = Node_type root) :=
  ⟨by decide, by decide, by decide,
    FT_rmDir_count FT_sample_tree "/a/b" (by decide) (by decide)⟩

/-! ## The structural invariant -/

/-- The conditions the invariant puts on a child of a node with path `pp`. -/
theorem Node_wfList_iff (pp : Path) (cs : List Node) :
    Node_wfList pp cs = true ↔ ∀ c ∈ cs, Node_getParentPath c = some pp ∧ Node_getPath c ≠ [] ∧
      (Node_getPath c).dropLast = pp ∧ Node_wf c = true := by
  induction cs with
  | nil => simp [Node_wfList]
  | cons x xs ih =>
    simp only [Node_wfList, Bool.and_eq_true, beq_iff_eq, bne_iff_ne, ne_eq, ih,
      List.mem_cons, forall_eq_or_imp]
    tauto

theorem Node_wf_iff (n : Node) :
    Node_wf n = true ↔
      (Node_children n).Pairwise
        (fun a b => Path_comparePath (Node_getPath a) (Node_getPath b) < 0) ∧
      ∀ c ∈ Node_children n, Node_getParentPath c = some (Node_getPath n) ∧
        Node_getPath c ≠ [] ∧ (Node_getPath c).dropLast = Node_getPath n ∧ Node_wf c = true := by
  cases n with
  | mk p q t d l cs =>
    simp only [Node_wf, Bool.and_eq_true, decide_eq_true_eq, Node_wfList_iff, Node_children,
      Node_getPath]

theorem Path_getSharedPrefixDepth_dropLast (a : Path) (h : a ≠ []) :
    Path_getSharedPrefixDepth a a.dropLast = a.length - 1 := by
  induction a with
  | nil => exact absurd rfl h
  | cons x xs ih =>
    cases xs with
    | nil => simp [Path_getSharedPrefixDepth]
    | cons y ys =>
      simp only [List.dropLast_cons₂, Path_getSharedPrefixDepth, if_true]
      rw [ih (by simp)]
      simp

/-- A child that satisfies the conditions of the invariant passes
`CheckerDT_Node_isValid`. -/
theorem CheckerDT_Node_isValid_child (c : Node) (pp : Path)
    (h1 : Node_getParentPath c = some pp) (h2 : Node_getPath c ≠ [])
    (h3 : (Node_getPath c).dropLast = pp) : CheckerDT_Node_isValid (some c) = true := by
  unfold CheckerDT_Node_isValid
  simp only [h1]
  rw [← h3, Path_getSharedPrefixDepth_dropLast _ h2]
  simp [Path_getDepth]

/-- On a subtree that satisfies the invariant and whose top node passes
`CheckerDT_Node_isValid`, `CheckerDT_treeCheck` returns TRUE and raises the
count by the number of nodes. -/
theorem CheckerDT_treeCheck_node_wf (n : Node) :
    ∀ c, Node_wf n = true → CheckerDT_Node_isValid (some n) = true →
      CheckerDT_treeCheck_node n c = (true, c + Node_size n) := by
  refine Node.rec (motive_1 := fun n => ∀ c, Node_wf n = true →
      CheckerDT_Node_isValid (some n) = true →
      CheckerDT_treeCheck_node n c = (true, c + Node_size n))
    (motive_2 := fun cs => ∀ (pp : Path) (prev : Option Path) (c : Nat),
      cs.Pairwise (fun a b => Path_comparePath (Node_getPath a) (Node_getPath b) < 0) →
      (∀ x ∈ cs, Node_getParentPath x = some pp ∧ Node_getPath x ≠ [] ∧
        (Node_getPath x).dropLast = pp ∧ Node_wf x = true) →
      (∀ q, prev = some q → ∀ x ∈ cs, Path_comparePath q (Node_getPath x) < 0) →
      CheckerDT_treeCheck_children cs prev c = (true, c + Node_sizeList cs)) ?_ ?_ ?_ n
  · intro p q t d l cs ih c hwf hvalid
    rw [Node_wf_iff] at hwf
    simp only [Node_children, Node_getPath] at hwf
    rw [CheckerDT_treeCheck_node_eq, if_pos hvalid]
    simp only [Node_children]
    rw [ih p none c hwf.1 hwf.2 (by simp)]
    simp only [if_true, Node_size]
    rw [Nat.add_assoc]
  · intro pp prev c _ _ _
    simp [CheckerDT_treeCheck_children, Node_sizeList]
  · intro x xs ih1 ih2 pp prev c hpw hall hprev
    rw [CheckerDT_treeCheck_children_cons]
    have hx := hall x (List.mem_cons_self _ _)
    have hcheck : CheckerDT_siblingCheck prev x = false := by
      unfold CheckerDT_siblingCheck
      cases prev with
      | none => rfl
      | some q =>
        have := hprev q rfl x (List.mem_cons_self _ _)
        simp only [gt_iff_lt, Bool.or_eq_false_iff, decide_eq_false_iff_not, not_lt]
        omega
    rw [if_neg (by simp [hcheck])]
    rw [ih1 c hx.2.2.2 (CheckerDT_Node_isValid_child x pp hx.1 hx.2.1 hx.2.2.1)]
    simp only [if_true]
    rw [List.pairwise_cons] at hpw
    rw [ih2 pp (some (Node_getPath x)) _ hpw.2 (fun y hy => hall y (List.mem_cons_of_mem _ hy))
      (by
        intro q hq y hy
        simp only [Option.some.injEq] at hq
        subst hq
        exact hpw.1 y hy)]
    simp only [Node_sizeList, Nat.add_assoc]

/-- A state that satisfies the invariant is accepted by `CheckerDT_isValid`. -/
theorem FT_Inv_isValid (s : FT) (h : FT_Inv s) :
    CheckerDT_isValid s.bIsInitialized s.oNRoot s.ulCount = true := by
  obtain ⟨h1, h2⟩ := h
  unfold CheckerDT_isValid
  cases hroot : s.oNRoot with
  | none =>
    rw [hroot] at h2
    simp only at h2
    simp [h2, CheckerDT_treeCheck]
  | some root =>
    rw [hroot] at h2
    simp only at h2
    obtain ⟨hc, hwf, hpar, _⟩ := h2
    have hinit : s.bIsInitialized = true := by
      cases hi : s.bIsInitialized
      · have := h1 hi
        rw [hroot] at this
        cases this
      · rfl
    have hvalid : CheckerDT_Node_isValid (some root) = true := by
      simp [CheckerDT_Node_isValid, hpar]
    have hpos := Node_size_pos root
    simp only [hinit, CheckerDT_treeCheck, CheckerDT_treeCheck_node_wf root 0 hwf hvalid, hc]
    simp
    omega

/-! ## The invariant under changes of the tree -/

theorem Node_getParentPath_updateAt (f : Node → Node)
    (hf : ∀ x, Node_getParentPath (f x) = Node_getParentPath x) (n : Node) (l : List Nat) :
    Node_getParentPath (Node_updateAt f n l) = Node_getParentPath n := by
  cases l with
  | nil => exact hf n
  | cons i l =>
    simp only [Node_updateAt]
    cases (Node_children n)[i]? <;> simp

theorem Node_wf_at (n m : Node) (l : List Nat) (hwf : Node_wf n = true)
    (hm : Node_at n l = some m) : Node_wf m = true := by
  induction l generalizing n with
  | nil =>
    simp only [Node_at, Option.some.injEq] at hm
    subst hm
    exact hwf
  | cons i l ih =>
    rw [Node_at_cons] at hm
    cases hc : (Node_children n)[i]? with
    | none => simp [hc] at hm
    | some c =>
      simp only [hc, Option.some_bind] at hm
      have hmem : c ∈ Node_children n := List.mem_iff_getElem?.mpr ⟨i, hc⟩
      exact ih c (((Node_wf_iff n).mp hwf).2 c hmem).2.2.2 hm

theorem List_pairwise_set {α : Type} (R : α → α → Prop) (l : List α) (i : Nat) (c c1 : α)
    (hc : l[i]? = some c) (hl : l.Pairwise R) (h1 : ∀ x, R x c → R x c1)
    (h2 : ∀ x, R c x → R c1 x) : (l.set i c1).Pairwise R := by
  induction l generalizing i with
  | nil => simp
  | cons x xs ih =>
    rw [List.pairwise_cons] at hl
    cases i with
    | zero =>
      simp only [List.getElem?_cons_zero, Option.some.injEq] at hc
      subst hc
      simp only [List.set_cons_zero, List.pairwise_cons]
      exact ⟨fun y hy => h2 y (hl.1 y hy), hl.2⟩
    | succ j =>
      simp only [List.getElem?_cons_succ] at hc
      simp only [List.set_cons_succ, List.pairwise_cons]
      refine ⟨?_, ih j hc hl.2⟩
      intro y hy
      rcases List.mem_or_eq_of_mem_set hy with hy | hy
      · exact hl.1 y hy
      · subst hy
        exact h1 x (hl.1 c (List.mem_iff_getElem?.mpr ⟨j, hc⟩))

/-- The invariant survives a change at a position when the changed node keeps
its path and parent and satisfies the invariant itself. -/
theorem Node_wf_updateAt (f : Node → Node) (n m : Node) (l : List Nat) (hwf : Node_wf n = true)
    (hm : Node_at n l = some m) (hfm : Node_wf (f m) = true)
    (hpath : Node_getPath (f m) = Node_getPath m)
    (hpar : Node_getParentPath (f m) = Node_getParentPath m) :
    Node_wf (Node_updateAt f n l) = true ∧
      Node_getPath (Node_updateAt f n l) = Node_getPath n ∧
      Node_getParentPath (Node_updateAt f n l) = Node_getParentPath n := by
  induction l generalizing n with
  | nil =>
    simp only [Node_at, Option.some.injEq] at hm
    subst hm
    exact ⟨hfm, hpath, hpar⟩
  | cons i l ih =>
    rw [Node_at_cons] at hm
    cases hc : (Node_children n)[i]? with
    | none => simp [hc] at hm
    | some c =>
      simp only [hc, Option.some_bind] at hm
      have hmem : c ∈ Node_children n := List.mem_iff_getElem?.mpr ⟨i, hc⟩
      obtain ⟨hpw, hall⟩ := (Node_wf_iff n).mp hwf
      obtain ⟨ih1, ih2, ih3⟩ := ih c (hall c hmem).2.2.2 hm
      rw [Node_updateAt_cons f n c i l hc]
      refine ⟨?_, by simp, by simp⟩
      rw [Node_wf_iff]
      simp only [Node_children_setChildren, Node_getPath_setChildren]
      constructor
      · apply List_pairwise_set _ _ i c _ hc hpw
        · intro x hx; rw [ih2]; exact hx
        · intro x hx; rw [ih2]; exact hx
      · intro y hy
        rcases List.mem_or_eq_of_mem_set hy with hy | hy
        · exact hall y hy
        · subst hy
          rw [ih2, ih3]
          exact ⟨(hall c hmem).1, (hall c hmem).2.1, (hall c hmem).2.2.1, ih1⟩

theorem List_pairwise_insertIdx {α : Type} (R : α → α → Prop) (l : List α) (i : Nat) (a : α)
    (hl : l.Pairwise R) (hi : i ≤ l.length) (h1 : ∀ k x, k < i → l[k]? = some x → R x a)
    (h2 : ∀ k x, i ≤ k → l[k]? = some x → R a x) : (l.insertIdx i a).Pairwise R := by
  induction l generalizing i with
  | nil =>
    have : i = 0 := by simpa using hi
    subst this
    simp
  | cons x xs ih =>
    rw [List.pairwise_cons] at hl
    cases i with
    | zero =>
      simp only [List.insertIdx_zero, List.pairwise_cons]
      refine ⟨?_, hl.1, hl.2⟩
      intro y hy
      obtain ⟨k, hk⟩ := List.mem_iff_getElem?.mp hy
      exact h2 k y (Nat.zero_le _) hk
    | succ j =>
      have hj : j ≤ xs.length := by simpa using hi
      rw [List.insertIdx_succ_cons, List.pairwise_cons]
      refine ⟨?_, ih j hl.2 hj (fun k y hk hy => h1 (k + 1) y (by omega) (by simpa using hy))
        (fun k y hk hy => h2 (k + 1) y (by omega) (by simpa using hy))⟩
      intro y hy
      rcases (List.mem_insertIdx hj).mp hy with hy | hy
      · subst hy
        exact h1 0 x (by omega) (by simp)
      · exact hl.1 y hy

/-- Linking a new child where the search found none keeps the invariant. -/
theorem Node_wf_addChild (m new : Node) (hwf : Node_wf m = true)
    (hnone : (Node_hasChild m (Node_getPath new)).1 = false)
    (hpar : Node_getParentPath new = some (Node_getPath m)) (hne : Node_getPath new ≠ [])
    (hdrop : (Node_getPath new).dropLast = Node_getPath m) (hnew : Node_wf new = true) :
    Node_wf (Node_addChild m new (Node_hasChild m (Node_getPath new)).2) = true := by
  obtain ⟨hpw, hall⟩ := (Node_wf_iff m).mp hwf
  obtain ⟨h1, h2, _, h4⟩ := Node_hasChild_spec m (Node_getPath new)
  rw [Node_wf_iff]
  simp only [Node_addChild, Node_children_setChildren, Node_getPath_setChildren]
  constructor
  · apply List_pairwise_insertIdx _ _ _ _ hpw h1
    · intro k x hk hx
      exact h2 k x hk hx
    · intro k x hk hx
      have hlt := getElem?_lt_of_eq_some hx
      have hidx : (Node_hasChild m (Node_getPath new)).2 < (Node_children m).length := by omega
      have hfirst := h4 hnone _ (List.getElem?_eq_getElem hidx)
      have hlt1 := (Path_comparePath_isCompare.swap _ _).mp hfirst
      rcases Nat.eq_or_lt_of_le hk with hk | hk
      · rw [← hk, List.getElem?_eq_getElem hidx] at hx
        simp only [Option.some.injEq] at hx
        rw [← hx]
        exact hlt1
      · have := (List.pairwise_iff_getElem.mp hpw) _ k hidx hlt hk
        rw [List.getElem?_eq_getElem hlt] at hx
        simp only [Option.some.injEq] at hx
        rw [hx] at this
        exact Path_comparePath_isCompare.trans _ _ _ hlt1 this
  · intro y hy
    rcases (List.mem_insertIdx h1).mp hy with hy | hy
    · subst hy
      exact ⟨hpar, hne, hdrop, hnew⟩
    · exact hall y hy

/-- A chain satisfies the invariant. -/
theorem FT_chain_wf (p : Path) (D : Nat) (oFile : Option (VoidPtr × Nat)) (k : Nat) :
    ∀ (i : Nat) (q : Option Path), i + k ≤ Path_getDepth p →
      Node_wf (FT_chain p D oFile k i q) = true := by
  induction k with
  | zero =>
    intro i q _
    simp [FT_chain, Node_wf, Node_wfList]
  | succ k ih =>
    intro i q h
    rw [Node_wf_iff, FT_chain_children_succ, FT_chain_getPath]
    refine ⟨by simp, ?_⟩
    intro c hc
    simp only [List.mem_singleton] at hc
    subst hc
    have hlen : i + 1 ≤ p.length := by unfold Path_getDepth at h; omega
    refine ⟨by cases k <;> rfl, ?_, ?_, ih (i + 1) _ (by omega)⟩
    · rw [FT_chain_getPath]
      intro h0
      have := congrArg List.length h0
      simp only [List.length_take, List.length_nil] at this
      omega
    · rw [FT_chain_getPath]
      rcases Nat.lt_or_ge (i + 1) p.length with h1 | h1
      · rw [List.dropLast_take h1]
        rfl
      · have h2 : i + 1 = p.length := by omega
        rw [h2, List.take_length, List.dropLast_eq_take, ← h2]
        rfl

theorem FT_chain_getParentPath (p : Path) (D : Nat) (oFile : Option (VoidPtr × Nat)) (k i : Nat)
    (q : Option Path) : Node_getParentPath (FT_chain p D oFile k i q) = q := by
  cases k <;> rfl

theorem FT_chain_size (p : Path) (D : Nat) (oFile : Option (VoidPtr × Nat)) (k i : Nat)
    (q : Option Path) : Node_size (FT_chain p D oFile k i q) = k + 1 := by
  rw [← Node_entries_length, Node_entries_chain]
  simp

theorem List_pairwise_eraseIdx {α : Type} (R : α → α → Prop) (l : List α) (i : Nat)
    (hl : l.Pairwise R) : (l.eraseIdx i).Pairwise R :=
  hl.sublist (List.eraseIdx_sublist l i)

/-- Unlinking a subtree keeps the invariant. -/
theorem Node_wf_eraseAt (n n1 : Node) (l : List Nat) (hwf : Node_wf n = true)
    (he : Node_eraseAt n l = some n1) :
    Node_wf n1 = true ∧ Node_getPath n1 = Node_getPath n ∧
      Node_getParentPath n1 = Node_getParentPath n := by
  induction l generalizing n n1 with
  | nil => simp [Node_eraseAt] at he
  | cons i l ih =>
    cases hc : (Node_children n)[i]? with
    | none =>
      simp only [Node_eraseAt, hc, Option.some.injEq] at he
      subst he
      exact ⟨hwf, rfl, rfl⟩
    | some c =>
      have hmem : c ∈ Node_children n := List.mem_iff_getElem?.mpr ⟨i, hc⟩
      obtain ⟨hpw, hall⟩ := (Node_wf_iff n).mp hwf
      rw [Node_eraseAt_cons n c i l hc] at he
      simp only [Option.some.injEq] at he
      cases hec : Node_eraseAt c l with
      | none =>
        rw [hec] at he
        simp only at he
        subst he
        refine ⟨?_, by simp, by simp⟩
        rw [Node_wf_iff]
        simp only [Node_children_setChildren, Node_getPath_setChildren]
        exact ⟨List_pairwise_eraseIdx _ _ _ hpw, fun y hy => hall y (List.mem_of_mem_eraseIdx hy)⟩
      | some c1 =>
        rw [hec] at he
        simp only at he
        subst he
        obtain ⟨ih1, ih2, ih3⟩ := ih c c1 (hall c hmem).2.2.2 hec
        refine ⟨?_, by simp, by simp⟩
        rw [Node_wf_iff]
        simp only [Node_children_setChildren, Node_getPath_setChildren]
        constructor
        · apply List_pairwise_set _ _ i c _ hc hpw
          · intro x hx; rw [ih2]; exact hx
          · intro x hx; rw [ih2]; exact hx
        · intro y hy
          rcases List.mem_or_eq_of_mem_set hy with hy | hy
          · exact hall y hy
          · subst hy
            rw [ih2, ih3]
            exact ⟨(hall c hmem).1, (hall c hmem).2.1, (hall c hmem).2.2.1, ih1⟩

/-! ## The invariant under the operations -/

@[simp] theorem Node_getParentPath_addChild (x c : Node) (i : Nat) :
    Node_getParentPath (Node_addChild x c i) = Node_getParentPath x := by
  simp [Node_addChild]

theorem Path_take_ne_nil (p : Path) (i : Nat) (h1 : 1 ≤ i) (h2 : 1 ≤ Path_getDepth p) :
    p.take i ≠ [] := by
  intro h0
  have := congrArg List.length h0
  simp only [List.length_take, List.length_nil] at this
  unfold Path_getDepth at h2
  omega

theorem Path_dropLast_take_succ (p : Path) (i : Nat) (h : i + 1 ≤ Path_getDepth p) :
    (p.take (i + 1)).dropLast = p.take i := by
  unfold Path_getDepth at h
  rcases Nat.lt_or_ge (i + 1) p.length with h1 | h1
  · rw [List.dropLast_take h1]
    rfl
  · have h2 : i + 1 = p.length := by omega
    rw [h2, List.take_length, List.dropLast_eq_take, ← h2]
    rfl

theorem FT_Inv_of_none (s : FT) (h1 : s.oNRoot = none) (h2 : s.ulCount = 0) : FT_Inv s := by
  unfold FT_Inv
  rw [h1]
  exact ⟨fun _ => rfl, h2⟩

theorem FT_Inv_of_some (s : FT) (root : Node) (hinit : s.bIsInitialized = true)
    (hroot : s.oNRoot = some root) (hc : s.ulCount = Node_size root) (hwf : Node_wf root = true)
    (hpar : Node_getParentPath root = none) (hlen : (Node_getPath root).length = 1) :
    FT_Inv s := by
  unfold FT_Inv
  rw [hroot]
  refine ⟨fun h => (by rw [hinit] at h; cases h), ?_⟩
  exact ⟨hc, hwf, hpar, hlen⟩

theorem FT_Inv_none (s : FT) (hinv : FT_Inv s) (hroot : s.oNRoot = none) : s.ulCount = 0 := by
  unfold FT_Inv at hinv
  rw [hroot] at hinv
  exact hinv.2

theorem FT_Inv_some (s : FT) (root : Node) (hinv : FT_Inv s) (hroot : s.oNRoot = some root) :
    s.bIsInitialized = true ∧ s.ulCount = Node_size root ∧ Node_wf root = true ∧
      Node_getParentPath root = none ∧ (Node_getPath root).length = 1 := by
  unfold FT_Inv at hinv
  rw [hroot] at hinv
  refine ⟨?_, hinv.2⟩
  cases hi : s.bIsInitialized
  · have := hinv.1 hi
    cases this
  · rfl

/-- The body of an insertion keeps the invariant. -/
theorem FT_Inv_insert_body (s : FT) (mem : Nat) (p : Path) (oFile : Option (VoidPtr × Nat))
    (hinv : FT_Inv s) (hinit : s.bIsInitialized = true) (hd : 1 ≤ Path_getDepth p) :
    FT_Inv (FT_insert_body s mem p oFile).2 := by
  by_cases hs : (FT_insert_body s mem p oFile).1 = SUCCESS
  · rcases FT_insert_body_success s mem p oFile hs with
      ⟨hroot, hmem⟩ | ⟨root, l, m, hroot, ht, htl, hm, hr, hdir, hpath, hlt, hnone, hmem⟩
    · rw [FT_insert_body_root s mem p oFile hroot hd hmem]
      have h2 := FT_Inv_none s hinv hroot
      refine FT_Inv_of_some _ _ hinit rfl ?_ (FT_chain_wf p _ oFile _ 1 none (by omega))
        (FT_chain_getParentPath _ _ _ _ _ _) ?_
      · simp only [FT_chain_size, h2]
        omega
      · rw [FT_chain_getPath, List.length_take]
        unfold Path_getDepth at hd
        omega
    · rw [FT_insert_body_under s mem p oFile root m l hroot ht hm hdir hpath hlt hmem]
      obtain ⟨_, hc, hwf, hpar, hlen⟩ := FT_Inv_some s root hinv hroot
      have hwfm := Node_wf_at root m l hwf hm
      have hidx := (Node_hasChild_spec m (p.take (l.length + 2))).1
      have hchain : Node_getPath (FT_chain p (Path_getDepth p) oFile
          (Path_getDepth p - (l.length + 2)) (l.length + 2) (some (Node_getPath m))) =
          p.take (l.length + 2) := FT_chain_getPath _ _ _ _ _ _
      have hfm : Node_wf (Node_addChild m (FT_chain p (Path_getDepth p) oFile
          (Path_getDepth p - (l.length + 2)) (l.length + 2) (some (Node_getPath m)))
          (Node_hasChild m (p.take (l.length + 2))).2) = true := by
        have := Node_wf_addChild m (FT_chain p (Path_getDepth p) oFile
          (Path_getDepth p - (l.length + 2)) (l.length + 2) (some (Node_getPath m))) hwfm
          (by rw [hchain]; exact hnone) (FT_chain_getParentPath _ _ _ _ _ _)
          (by rw [hchain]; exact Path_take_ne_nil p _ (by omega) hd)
          (by rw [hchain, hpath]; exact Path_dropLast_take_succ p (l.length + 1) (by omega))
          (FT_chain_wf p _ oFile _ _ _ (by omega))
        rw [hchain] at this
        exact this
      obtain ⟨h3, h4, h5⟩ := Node_wf_updateAt (fun x => Node_addChild x
        (FT_chain p (Path_getDepth p) oFile (Path_getDepth p - (l.length + 2)) (l.length + 2)
          (some (Node_getPath m))) (Node_hasChild m (p.take (l.length + 2))).2) root m l hwf hm
        hfm (by simp) (by simp)
      refine FT_Inv_of_some _ _ hinit rfl ?_ h3 (by rw [h5]; exact hpar) (by rw [h4]; exact hlen)
      have hsz := Node_size_updateAt (fun x => Node_addChild x
        (FT_chain p (Path_getDepth p) oFile (Path_getDepth p - (l.length + 2)) (l.length + 2)
          (some (Node_getPath m))) (Node_hasChild m (p.take (l.length + 2))).2) root m l hm
      simp only [Node_addChild, Node_size_setChildren, Node_sizeList_insertIdx _ _ _ hidx,
        FT_chain_size] at hsz
      rw [Node_size_eq m] at hsz
      simp only [Node_addChild]
      omega
  · rw [FT_insert_body_fail s mem p oFile hs]
    exact hinv

theorem FT_Inv_insertDir (s : FT) (mem : Nat) (pcPath : String) (hinv : FT_Inv s) :
    FT_Inv (FT_insertDir s mem pcPath).2 := by
  unfold FT_insertDir
  cases hi : s.bIsInitialized
  · exact hinv
  · cases hp : Path_new pcPath with
    | error e => exact hinv
    | ok p => exact FT_Inv_insert_body s mem p none hinv hi (Path_new_depth pcPath p hp)

theorem FT_Inv_insertFile (s : FT) (mem : Nat) (pcPath : String) (pvContents : VoidPtr)
    (ulLength : Nat) (hinv : FT_Inv s) :
    FT_Inv (FT_insertFile s mem pcPath pvContents ulLength).2 := by
  unfold FT_insertFile
  cases hi : s.bIsInitialized
  · exact hinv
  · cases hp : Path_new pcPath with
    | error e => exact hinv
    | ok p =>
      simp only [Bool.not_true, Bool.false_eq_true, if_false]
      split_ifs
      · exact hinv
      · exact FT_Inv_insert_body s mem p _ hinv hi (Path_new_depth pcPath p hp)

/-- Lines 301-303 (455-457) keep the invariant when the node freed is one
that `FT_findNode` has found. -/
theorem FT_Inv_rm_free (s : FT) (root m : Node) (l : List Nat) (hinv : FT_Inv s)
    (hroot : s.oNRoot = some root) (hm : Node_at root l = some m) :
    FT_Inv (FT_rm_free s (some l)) := by
  obtain ⟨hinit, hc, hwf, hpar, hlen⟩ := FT_Inv_some s root hinv hroot
  obtain ⟨hnil, hcons⟩ := FT_rm_free_spec s root m l hroot hm hc
  by_cases hl : l = []
  · rw [hnil hl]
    exact FT_Inv_of_none _ rfl rfl
  · obtain ⟨n1, he, _, _, _, _, hfree⟩ := hcons hl
    rw [hfree]
    obtain ⟨h3, h4, h5⟩ := Node_wf_eraseAt root n1 l hwf he
    exact FT_Inv_of_some _ n1 hinit rfl rfl h3 (by rw [h5]; exact hpar) (by rw [h4]; exact hlen)

theorem FT_Inv_rmDir (s : FT) (pcPath : String) (hinv : FT_Inv s) :
    FT_Inv (FT_rmDir s pcPath).2 := by
  unfold FT_rmDir
  simp only
  by_cases hs : (FT_findNode s pcPath).1 = SUCCESS
  · obtain ⟨p, root, l, m, _, _, hroot, _, _, hm, _, _, hfind⟩ := FT_findNode_success s pcPath hs
    simp only [hfind, hroot, Node_deref, hm, ne_eq, not_true_eq_false, if_false]
    split_ifs
    · exact hinv
    · exact FT_Inv_rm_free s root m l hinv hroot hm
  · rw [if_pos hs]
    exact hinv

theorem FT_Inv_rmFile (s : FT) (pcPath : String) (hinv : FT_Inv s) :
    FT_Inv (FT_rmFile s pcPath).2 := by
  unfold FT_rmFile
  simp only
  by_cases hs : (FT_findNode s pcPath).1 = SUCCESS
  · obtain ⟨p, root, l, m, _, _, hroot, _, _, hm, _, _, hfind⟩ := FT_findNode_success s pcPath hs
    simp only [hfind, hroot, Node_deref, hm, ne_eq, not_true_eq_false, if_false]
    split_ifs
    · exact hinv
    · exact FT_Inv_rm_free s root m l hinv hroot hm
  · rw [if_pos hs]
    exact hinv

theorem FT_Inv_changeData (s : FT) (root m : Node) (l : List Nat) (pvNewContents : VoidPtr)
    (ulNewLength : Nat) (hinv : FT_Inv s) (hroot : s.oNRoot = some root)
    (hm : Node_at root l = some m) :
    FT_Inv { s with oNRoot := Node_changeData s.oNRoot (some l) pvNewContents ulNewLength } := by
  obtain ⟨hinit, hc, hwf, hpar, hlen⟩ := FT_Inv_some s root hinv hroot
  have hwfm := Node_wf_at root m l hwf hm
  have hfm : Node_wf (Node.mk (Node_getPath m) (Node_getParentPath m) (Node_type m)
      pvNewContents ulNewLength (Node_children m)) = true := by
    rw [Node_wf_iff] at hwfm ⊢
    exact hwfm
  obtain ⟨h3, h4, h5⟩ := Node_wf_updateAt (fun n => Node.mk (Node_getPath n)
    (Node_getParentPath n) (Node_type n) pvNewContents ulNewLength (Node_children n)) root m l
    hwf hm hfm rfl rfl
  have hsz := Node_size_updateAt (fun n => Node.mk (Node_getPath n)
    (Node_getParentPath n) (Node_type n) pvNewContents ulNewLength (Node_children n)) root m l hm
  have hsm : Node_size (Node.mk (Node_getPath m) (Node_getParentPath m) (Node_type m)
      pvNewContents ulNewLength (Node_children m)) = Node_size m := by
    rw [Node_size_eq m]; rfl
  simp only [hroot, Node_changeData]
  refine FT_Inv_of_some _ _ hinit rfl ?_ h3 (by rw [h5]; exact hpar) (by rw [h4]; exact hlen)
  simp only at hsz ⊢
  omega

theorem FT_Inv_replaceFileContents (s s1 : FT) (pcPath : String) (pvNewContents pvOld : VoidPtr)
    (ulNewLength : Nat) (hinv : FT_Inv s)
    (h : FT_replaceFileContents s pcPath pvNewContents ulNewLength = some (pvOld, s1)) :
    FT_Inv s1 := by
  unfold FT_replaceFileContents at h
  cases hp : Path_new pcPath with
  | error e =>
    simp only [hp, Option.some.injEq, Prod.mk.injEq] at h
    rw [← h.2]
    exact hinv
  | ok p =>
    simp only [hp] at h
    split_ifs at h with h1
    · simp only [Option.some.injEq, Prod.mk.injEq] at h
      rw [← h.2]
      exact hinv
    · cases hroot : s.oNRoot with
      | none => simp [hroot, Node_deref] at h
      | some root =>
        cases hl : (FT_traversePath s.oNRoot p).2 with
        | none => simp [hl, Node_deref_none] at h
        | some l =>
          rw [hl, hroot] at h
          simp only [Node_deref] at h
          cases hm : Node_at root l with
          | none => simp [hm] at h
          | some m =>
            simp only [hm] at h
            split_ifs at h with h2 h3
            · simp only [Option.some.injEq, Prod.mk.injEq] at h
              rw [← h.2]
              exact hinv
            · simp only [Option.some.injEq, Prod.mk.injEq] at h
              rw [← h.2]
              exact hinv
            · simp only [Option.some.injEq, Prod.mk.injEq] at h
              rw [← h.2, ← hroot]
              exact FT_Inv_changeData s root m l pvNewContents ulNewLength hinv hroot hm

theorem FT_Inv_init (s : FT) (hinv : FT_Inv s) : FT_Inv (FT_init s).2 := by
  unfold FT_init
  split_ifs
  · exact hinv
  · exact FT_Inv_of_none _ rfl rfl

theorem FT_Inv_destroy (s : FT) (hinv : FT_Inv s) : FT_Inv (FT_destroy s).2 := by
  unfold FT_destroy
  split_ifs
  · exact hinv
  · cases hroot : s.oNRoot with
    | none => exact FT_Inv_of_none _ rfl (FT_Inv_none s hinv hroot)
    | some root =>
      obtain ⟨_, hc, _⟩ := FT_Inv_some s root hinv hroot
      refine FT_Inv_of_none _ rfl ?_
      simp only [Node_free, Node_at]
      omega

/-- Every state the program can be in satisfies the invariant. -/
theorem FT_reachable_Inv (s : FT) (h : FT_reachable s) : FT_Inv s := by
  induction h with
  | start => exact FT_Inv_of_none _ rfl rfl
  | init s _ ih => exact FT_Inv_init s ih
  | insertDir s mem pcPath _ ih => exact FT_Inv_insertDir s mem pcPath ih
  | insertFile s mem pcPath c l _ ih => exact FT_Inv_insertFile s mem pcPath c l ih
  | rmDir s pcPath _ ih => exact FT_Inv_rmDir s pcPath ih
  | rmFile s pcPath _ ih => exact FT_Inv_rmFile s pcPath ih
  | replaceFileContents s s1 pcPath c o l _ hr ih =>
    exact FT_Inv_replaceFileContents s s1 pcPath c o l ih hr
  | destroy s _ ih => exact FT_Inv_destroy s ih

/-! ## Invariant preservation -/

/-- C1: every state reachable from the start state by calls of `FT_init`,
`FT_insertDir`, `FT_insertFile`, `FT_rmDir`, `FT_rmFile`,
`FT_replaceFileContents` and `FT_destroy`, successful or failing, is accepted
by `CheckerDT_isValid`; `ulCount` is the number of nodes reachable from
`oNRoot`, and at every node of the tree the children are in strictly
increasing path order and each child has the node as its parent and the path
of the node plus one component as its path. -/
theorem FT_reachable_isValid (s : FT) (h : FT_reachable s) :
    CheckerDT_isValid s.bIsInitialized s.oNRoot s.ulCount = true ∧
      s.ulCount = (FT_entries s).length ∧
      ∀ root l n, s.oNRoot = some root → Node_at root l = some n →
        (Node_children n).Pairwise
          (fun a b => Path_comparePath (Node_getPath a) (Node_getPath b) < 0) ∧
        ∀ c ∈ Node_children n, Node_getParentPath c = some (Node_getPath n) ∧
          ∃ x, Node_getPath c = Node_getPath n ++ [x] := by
  have hinv := FT_reachable_Inv s h
  refine ⟨FT_Inv_isValid s hinv, ?_, ?_⟩
  · cases hroot : s.oNRoot with
    | none =>
      rw [FT_Inv_none s hinv hroot]
      simp [FT_entries, hroot]
    | some root =>
      rw [(FT_Inv_some s root hinv hroot).2.1]
      simp [FT_entries, hroot, Node_entries_length]
  · intro root l n hroot hn
    have hwf := Node_wf_at root n l (FT_Inv_some s root hinv hroot).2.2.1 hn
    obtain ⟨hpw, hall⟩ := (Node_wf_iff n).mp hwf
    refine ⟨hpw, ?_⟩
    intro c hc
    obtain ⟨h1, h2, h3, _⟩ := hall c hc
    refine ⟨h1, (Node_getPath c).getLast h2, ?_⟩
    rw [← h3]
    exact (List.dropLast_append_getLast h2).symm

/-- The tree with "/a", "/a/b", "/a/b/c" and "/a/f" is reached by `FT_init`,
`FT_insertDir`, `FT_insertFile`, `FT_insertDir`, and the checker accepts it. -/
theorem FT_reachable_isValid_witness :
    FT_reachable FT_sample_tree ∧
      CheckerDT_isValid FT_sample_tree.bIsInitialized FT_sample_tree.oNRoot
        FT_sample_tree.ulCount = true ∧
      FT_sample_tree.ulCount = (FT_entries FT_sample_tree).length ∧
      ∀ root l n, FT_sample_tree.oNRoot = some root → Node_at root l = some n →
        (Node_children n).Pairwise
          (fun a b => Path_comparePath (Node_getPath a) (Node_getPath b) < 0) ∧
        ∀ c ∈ Node_children n, Node_getParentPath c = some (Node_getPath n) ∧
          ∃ x, Node_getPath c = Node_getPath n ++ [x] :=
  ⟨FT_reachable.insertDir _ 2 "/a/b/c"
      (FT_reachable.insertFile _ 1 "/a/f" (VoidPtr.buf [1, 2]) 2
        (FT_reachable.insertDir _ 1 "/a" (FT_reachable.init FT_start FT_reachable.start))),
    FT_reachable_isValid FT_sample_tree
      (FT_reachable.insertDir _ 2 "/a/b/c"
        (FT_reachable.insertFile _ 1 "/a/f" (VoidPtr.buf [1, 2]) 2
          (FT_reachable.insertDir _ 1 "/a" (FT_reachable.init FT_start FT_reachable.start))))⟩

/-! ## The lenient accessors and `FT_stat` on absent nodes -/

/-- C7, as the code behaves: in every state without a root, initialized or
not, `FT_getFileContents` and `FT_replaceFileContents` of a well-formed path
read the type of a NULL node (line 491, line 537) instead of returning
NULL. -/
theorem FT_contents_no_root (s : FT) (pcPath : String) (p : Path) (pvNewContents : VoidPtr)
    (ulNewLength : Nat) (hroot : s.oNRoot = none) (hp : Path_new pcPath = .ok p) :
    FT_getFileContents s pcPath = none ∧
      FT_replaceFileContents s pcPath pvNewContents ulNewLength = none := by
  simp [FT_getFileContents, FT_replaceFileContents, hp, hroot, FT_traversePath, Node_deref]

/-- On the tree right after `FT_init`, both accessors of "/a" read the type
of a NULL node. -/
theorem FT_contents_no_root_witness :
    FT_empty.oNRoot = none ∧ Path_new "/a" = .ok [['a']] ∧
      FT_getFileContents FT_empty "/a" = none ∧
      FT_replaceFileContents FT_empty "/a" VoidPtr.NULL 0 = none :=
  ⟨rfl, rfl, FT_contents_no_root FT_empty "/a" [['a']] VoidPtr.NULL 0 rfl rfl⟩

/-- C10, as the code behaves: on an initialized tree without a root
`FT_stat` of a well-formed path reads the path of a NULL node (line 589),
and on a tree whose root is not the depth-1 prefix of the path `FT_stat`
returns MEMORY_ERROR (line 585), not NO_SUCH_PATH, with both output
parameters as they were. -/
theorem FT_stat_no_root (s : FT) (pcPath : String) (p : Path) (bIsFile : Bool) (ulSize : Nat)
    (hinit : s.bIsInitialized = true) (hp : Path_new pcPath = .ok p) :
    (s.oNRoot = none → FT_stat s pcPath bIsFile ulSize = none) ∧
      (∀ root, s.oNRoot = some root → Node_getPath root ≠ p.take 1 →
        FT_stat s pcPath bIsFile ulSize = some (MEMORY_ERROR, bIsFile, ulSize)) := by
  have hd := Path_new_depth pcPath p hp
  constructor
  · intro hroot
    simp [FT_stat, hinit, hp, hroot, FT_traversePath, Node_deref]
  · intro root hroot hne
    have hc : ¬ Path_comparePath (Node_getPath root) (p.take 1) = 0 :=
      fun h => hne (Path_comparePath_eq_zero.mp h)
    simp [FT_stat, hinit, hp, hroot, FT_traversePath, Path_prefix_ok p 1 (le_refl 1) hd, hc]

/-- `FT_stat` of "/b" on the tree right after `FT_init` reads the path of a
NULL node; on the tree that holds only "/a" it answers MEMORY_ERROR. -/
theorem FT_stat_no_root_witness :
    FT_empty.bIsInitialized = true ∧ Path_new "/b" = .ok [['b']] ∧
      FT_stat FT_empty "/b" false 7 = none ∧
      FT_stat FT_sample_dir "/b" false 7 = some (MEMORY_ERROR, false, 7) :=
  ⟨rfl, rfl, (FT_stat_no_root FT_empty "/b" [['b']] false 7 rfl rfl).1 rfl,
    (FT_stat_no_root FT_sample_dir "/b" [['b']] false 7 rfl rfl).2
      (Node.mk [['a']] none false VoidPtr.NULL 0 []) rfl (by decide)⟩

/-! ## `FT_stat` on a node of the tree, calls in the wrong initialization state -/

/-- C11: on an initialized tree, when the path names an existing node (the
tree contains it as a directory or as a file), `FT_stat` returns SUCCESS and
reports the type of that node, which is TRUE exactly when the tree contains
the path as a file; for a file the size reported is the stored length of the
node, for a directory the size is the value the caller passed. -/
theorem FT_stat_existing (s : FT) (pcPath : String) (bIsFile : Bool) (ulSize : Nat)
    (h : FT_containsDir s pcPath = true ∨ FT_containsFile s pcPath = true) :
    ∃ l m, s.bIsInitialized = true ∧ FT_findNode s pcPath = (SUCCESS, some l) ∧
      Node_deref s.oNRoot (some l) = some m ∧
      FT_stat s pcPath bIsFile ulSize
        = some (SUCCESS, Node_type m, if Node_type m = true then Node_len m else ulSize) ∧
      (Node_type m = true ↔ FT_containsFile s pcPath = true) ∧
      (Node_type m = true →
        FT_stat s pcPath bIsFile ulSize = some (SUCCESS, true, Node_len m)) ∧
      (Node_type m = false →
        FT_stat s pcPath bIsFile ulSize = some (SUCCESS, false, ulSize)) := by
  have key : (FT_findNode s pcPath).1 = SUCCESS := by
    rcases h with h | h
    · unfold FT_containsDir at h
      simp only [Bool.and_eq_true, decide_eq_true_eq] at h
      exact h.1
    · unfold FT_containsFile at h
      simp only [Bool.and_eq_true, decide_eq_true_eq] at h
      exact h.1
  obtain ⟨p, root, l, m, h1, h2, h3, h4, h5, h6, h7, h8, h9⟩ := FT_findNode_success s pcPath key
  have hd : Node_deref s.oNRoot (some l) = some m := by rw [h3]; simpa [Node_deref] using h6
  have hst : FT_stat s pcPath bIsFile ulSize
      = some (SUCCESS, Node_type m, if Node_type m = true then Node_len m else ulSize) := by
    unfold FT_stat
    simp only [h1, h2, h3, h4, Bool.not_true, Bool.false_eq_true, if_false, ne_eq,
      not_true_eq_false]
    rw [← h3, hd]
    simp [h7, Path_comparePath_self]
  refine ⟨l, m, h1, h9, hd, hst, ?_, ?_, ?_⟩
  · unfold FT_containsFile
    simp [h9, hd]
  · intro ht
    rw [hst]; simp [ht]
  · intro ht
    rw [hst]; simp [ht]

theorem FT_stat_existing_witness :
    ∃ l m, FT_sample_file.bIsInitialized = true ∧
      FT_findNode FT_sample_file "/a/f" = (SUCCESS, some l) ∧
      Node_deref FT_sample_file.oNRoot (some l) = some m ∧
      FT_stat FT_sample_file "/a/f" false 7
        = some (SUCCESS, Node_type m, if Node_type m = true then Node_len m else 7) ∧
      (Node_type m = true ↔ FT_containsFile FT_sample_file "/a/f" = true) ∧
      (Node_type m = true →
        FT_stat FT_sample_file "/a/f" false 7 = some (SUCCESS, true, Node_len m)) ∧
      (Node_type m = false →
        FT_stat FT_sample_file "/a/f" false 7 = some (SUCCESS, false, 7)) :=
  FT_stat_existing FT_sample_file "/a/f" false 7 (Or.inr (by decide))

/-- C12: on an uninitialized tree `FT_insertDir`, `FT_insertFile`, `FT_rmDir`,
`FT_rmFile`, `FT_stat` and `FT_destroy` return INITIALIZATION_ERROR for every
argument, and on an initialized tree `FT_init` returns INITIALIZATION_ERROR; the
state (and for `FT_stat` the two output cells) is unchanged in all these
cases. -/
theorem FT_initialization_errors (s : FT) (mem : Nat) (pcPath : String) (pvContents : VoidPtr)
    (ulLength : Nat) (bIsFile : Bool) (ulSize : Nat) :
    (s.bIsInitialized = false →
      FT_insertDir s mem pcPath = (INITIALIZATION_ERROR, s) ∧
      FT_insertFile s mem pcPath pvContents ulLength = (INITIALIZATION_ERROR, s) ∧
      FT_rmDir s pcPath = (INITIALIZATION_ERROR, s) ∧
      FT_rmFile s pcPath = (INITIALIZATION_ERROR, s) ∧
      FT_stat s pcPath bIsFile ulSize = some (INITIALIZATION_ERROR, bIsFile, ulSize) ∧
      FT_destroy s = (INITIALIZATION_ERROR, s)) ∧
    (s.bIsInitialized = true → FT_init s = (INITIALIZATION_ERROR, s)) := by
  constructor
  · intro h
    refine ⟨?_, ?_, ?_, ?_, ?_, ?_⟩
    · simp [FT_insertDir, h]
    · simp [FT_insertFile, h]
    · simp [FT_rmDir, FT_findNode, h]
    · simp [FT_rmFile, FT_findNode, h]
    · simp [FT_stat, h]
    · simp [FT_destroy, h]
  · intro h
    simp [FT_init, h]

theorem FT_initialization_errors_witness :
    (FT_insertDir FT_start 5 "a//b" = (INITIALIZATION_ERROR, FT_start) ∧
      FT_insertFile FT_start 5 "a//b" VoidPtr.NULL 0 = (INITIALIZATION_ERROR, FT_start) ∧
      FT_rmDir FT_start "a//b" = (INITIALIZATION_ERROR, FT_start) ∧
      FT_rmFile FT_start "a//b" = (INITIALIZATION_ERROR, FT_start) ∧
      FT_stat FT_start "a//b" true 3 = some (INITIALIZATION_ERROR, true, 3) ∧
      FT_destroy FT_start = (INITIALIZATION_ERROR, FT_start)) ∧
    FT_init FT_sample_dir = (INITIALIZATION_ERROR, FT_sample_dir) :=
  ⟨(FT_initialization_errors FT_start 5 "a//b" VoidPtr.NULL 0 true 3).1 rfl,
    (FT_initialization_errors FT_sample_dir 5 "a//b" VoidPtr.NULL 0 true 3).2 rfl⟩

/-- C14: on an initialized tree with no root, `FT_insertFile` with a
well-formed path returns CONFLICTING_PATH and leaves the state as it was, so
the tree stays empty: the root is still NULL and the count, when it was 0, is
still 0. -/
theorem FT_insertFile_no_root (s : FT) (mem : Nat) (pcPath : String) (p : Path)
    (pvContents : VoidPtr) (ulLength : Nat)
    (hinit : s.bIsInitialized = true) (hroot : s.oNRoot = none)
    (hp : Path_new pcPath = .ok p) :
    FT_insertFile s mem pcPath pvContents ulLength = (CONFLICTING_PATH, s) ∧
      (FT_insertFile s mem pcPath pvContents ulLength).2.oNRoot = none ∧
      (s.ulCount = 0 → (FT_insertFile s mem pcPath pvContents ulLength).2.ulCount = 0) := by
  have h : FT_insertFile s mem pcPath pvContents ulLength = (CONFLICTING_PATH, s) := by
    simp [FT_insertFile, hinit, hp, hroot]
  rw [h]
  exact ⟨rfl, hroot, fun hc => hc⟩

theorem FT_insertFile_no_root_witness :
    FT_insertFile FT_empty 9 "/a" (VoidPtr.buf [1]) 1 = (CONFLICTING_PATH, FT_empty) ∧
      (FT_insertFile FT_empty 9 "/a" (VoidPtr.buf [1]) 1).2.oNRoot = none ∧
      (FT_empty.ulCount = 0 → (FT_insertFile FT_empty 9 "/a" (VoidPtr.buf [1]) 1).2.ulCount = 0) :=
  FT_insertFile_no_root FT_empty 9 "/a" [['a']] (VoidPtr.buf [1]) 1 rfl rfl rfl

/-! ## Nodes by position and by entry -/

theorem Node_mem_entriesList (cs : List Node) (e : Path × Bool × VoidPtr × Nat) :
    e ∈ Node_entriesList cs ↔ ∃ c ∈ cs, e ∈ Node_entries c := by
  induction cs with
  | nil => simp [Node_entriesList]
  | cons x xs ih => simp [Node_entriesList, ih]

theorem Node_at_mem_entries (n m : Node) (l : List Nat) (h : Node_at n l = some m) :
    (Node_getPath m, Node_type m, Node_data m, Node_len m) ∈ Node_entries n := by
  induction l generalizing n with
  | nil =>
    simp only [Node_at, Option.some.injEq] at h
    subst h
    rw [Node_entries_eq]
    exact List.mem_cons_self _ _
  | cons i l ih =>
    rw [Node_at_cons] at h
    cases hc : (Node_children n)[i]? with
    | none => simp [hc] at h
    | some c =>
      simp only [hc, Option.some_bind] at h
      rw [Node_entries_eq]
      refine List.mem_cons_of_mem _ ?_
      rw [Node_mem_entriesList]
      exact ⟨c, List.mem_iff_getElem?.2 ⟨i, hc⟩, ih c h⟩

theorem Node_entries_mem_at (n : Node) (e : Path × Bool × VoidPtr × Nat)
    (h : e ∈ Node_entries n) :
    ∃ l m, Node_at n l = some m ∧
      e = (Node_getPath m, Node_type m, Node_data m, Node_len m) := by
  revert e
  refine Node.rec
    (motive_1 := fun n => ∀ e, e ∈ Node_entries n → ∃ l m, Node_at n l = some m ∧
      e = (Node_getPath m, Node_type m, Node_data m, Node_len m))
    (motive_2 := fun (cs : List Node) => ∀ e, e ∈ Node_entriesList cs → ∃ (i : Nat), ∃ c l m, cs[i]? = some c ∧
      Node_at c l = some m ∧ e = (Node_getPath m, Node_type m, Node_data m, Node_len m))
    ?_ ?_ ?_ n
  · intro p q t d len cs ih e he
    simp only [Node_entries, List.mem_cons] at he
    rcases he with he | he
    · exact ⟨[], _, rfl, he⟩
    · obtain ⟨i, c, l, m, h1, h2, h3⟩ := ih e he
      refine ⟨i :: l, m, ?_, h3⟩
      rw [Node_at_cons]
      simp [Node_children, h1, h2]
  · intro e he
    simp [Node_entriesList] at he
  · intro c cs ih1 ih2 e he
    simp only [Node_entriesList, List.mem_append] at he
    rcases he with he | he
    · obtain ⟨l, m, h1, h2⟩ := ih1 e he
      exact ⟨0, c, l, m, by simp, h1, h2⟩
    · obtain ⟨i, c1, l, m, h1, h2, h3⟩ := ih2 e he
      exact ⟨i + 1, c1, l, m, by simpa using h1, h2, h3⟩

/-- A path under the root is traversed with SUCCESS. -/
theorem FT_traversePath_under (root : Node) (p : Path) (hd : 1 ≤ Path_getDepth p)
    (hroot : Node_getPath root = p.take 1) :
    ∃ l m, FT_traversePath (some root) p = (SUCCESS, some l) ∧
      FT_traversePath_loop p (List.range' 2 (Path_getDepth p - 1)) root [] = (SUCCESS, some l) ∧
      Node_at root l = some m ∧
      l.length + 1 ≤ Path_getDepth p ∧ Node_getPath m = p.take (l.length + 1) ∧
      (l.length + 1 = Path_getDepth p ∨ (Node_hasChild m (p.take (l.length + 2))).1 = false) := by
  rcases FT_traversePath_some root p with h | ⟨l, m, h1, h2, h3, _, h5, h6, h7⟩
  · exfalso
    apply h.1
    unfold FT_traversePath
    rw [Path_prefix_ok p 1 (le_refl 1) hd]
    simp only
    rw [if_neg (by rw [hroot]; simp [Path_comparePath_self])]
    obtain ⟨l, m, h1, _⟩ :=
      FT_traversePath_loop_spec p (Path_getDepth p - 1) 1 root [] (le_refl 1) (by omega) hroot
    rw [h1]
  · exact ⟨l, m, h1, h2, h3, h5, h6, h7⟩

/-- C16: `FT_rmDir` on a path the tree contains as a file returns
NOT_A_DIRECTORY, `FT_rmFile` on a path the tree contains as a directory
returns NOT_A_FILE, and on an initialized tree both return NO_SUCH_PATH for a
well-formed path whose first component is the path of the root and that is
the path of no node of the tree; the state is unchanged in all three cases. -/
theorem FT_rm_wrong_kind (s : FT) (pcPath : String) :
    (FT_containsFile s pcPath = true → FT_rmDir s pcPath = (NOT_A_DIRECTORY, s)) ∧
    (FT_containsDir s pcPath = true → FT_rmFile s pcPath = (NOT_A_FILE, s)) ∧
    (∀ p root, s.bIsInitialized = true → Path_new pcPath = .ok p → s.oNRoot = some root →
      Node_getPath root = p.take 1 → (∀ e ∈ FT_entries s, e.1 ≠ p) →
      FT_rmDir s pcPath = (NO_SUCH_PATH, s) ∧ FT_rmFile s pcPath = (NO_SUCH_PATH, s)) := by
  refine ⟨?_, ?_, ?_⟩
  · intro h
    obtain ⟨p, root, l, m, h1, h2, h3, h4, h5, h6, h7, h8, h9⟩ := FT_containsFile_true s pcPath h
    unfold FT_containsFile at h
    simp only [Bool.and_eq_true, decide_eq_true_eq] at h
    obtain ⟨_, _, l1, _, _, _, _, _, _, _, _, _, h10⟩ := FT_findNode_success s pcPath h.1
    have h11 := h.2
    unfold FT_rmDir
    rw [h10] at h11 ⊢
    cases hd : Node_deref s.oNRoot (some l1) with
    | none => simp [hd] at h11
    | some m1 =>
      simp only [hd, beq_iff_eq] at h11
      simp only [ne_eq, not_true_eq_false, if_false]
      rw [hd]
      simp [h11]
  · intro h
    unfold FT_containsDir at h
    simp only [Bool.and_eq_true, decide_eq_true_eq] at h
    obtain ⟨_, _, l1, _, _, _, _, _, _, _, _, _, h10⟩ := FT_findNode_success s pcPath h.1
    have h11 := h.2
    unfold FT_rmFile
    rw [h10] at h11 ⊢
    cases hd : Node_deref s.oNRoot (some l1) with
    | none => simp [hd] at h11
    | some m1 =>
      simp only [hd, beq_iff_eq] at h11
      simp only [ne_eq, not_true_eq_false, if_false]
      rw [hd]
      simp [h11]
  · intro p root hinit hp hroot hunder hno
    obtain ⟨l, m, h1, h2, h3, h4, h5, h6⟩ :=
      FT_traversePath_under root p (Path_new_depth pcPath p hp) hunder
    have hne : Node_getPath m ≠ p := by
      intro hmp
      have := Node_at_mem_entries root m l h3
      have h7 := hno _ (by unfold FT_entries; rw [hroot]; exact this)
      exact h7 hmp
    have hf : FT_findNode s pcPath = (NO_SUCH_PATH, none) := by
      unfold FT_findNode
      simp only [hinit, hp, hroot, h1, Bool.not_true, Bool.false_eq_true, if_false, ne_eq,
        not_true_eq_false]
      simp only [Node_deref, h3]
      rw [if_pos]
      rw [Path_comparePath_eq_zero]
      exact hne
    constructor
    · unfold FT_rmDir
      rw [hf]
      simp
    · unfold FT_rmFile
      rw [hf]
      simp

theorem FT_rm_wrong_kind_witness :
    FT_rmDir FT_sample_file "/a/f" = (NOT_A_DIRECTORY, FT_sample_file) ∧
      FT_rmFile FT_sample_file "/a" = (NOT_A_FILE, FT_sample_file) ∧
      FT_rmDir FT_sample_file "/a/g" = (NO_SUCH_PATH, FT_sample_file) ∧
      FT_rmFile FT_sample_file "/a/g" = (NO_SUCH_PATH, FT_sample_file) :=
  ⟨(FT_rm_wrong_kind FT_sample_file "/a/f").1 (by decide),
    (FT_rm_wrong_kind FT_sample_file "/a").2.1 (by decide),
    (FT_rm_wrong_kind FT_sample_file "/a/g").2.2 [['a'], ['g']] _ rfl rfl rfl rfl (by decide)⟩

/-! ## `CheckerDT_treeCheck` as a property of every node -/

theorem Node_at_forall (n : Node) (Q : Node → Prop) :
    (∀ l m, Node_at n l = some m → Q m) ↔
      Q n ∧ ∀ x ∈ Node_children n, ∀ l m, Node_at x l = some m → Q m := by
  constructor
  · intro h
    refine ⟨h [] n rfl, ?_⟩
    intro x hx l m hm
    obtain ⟨i, hi⟩ := List.mem_iff_getElem?.1 hx
    apply h (i :: l) m
    rw [Node_at_cons, hi]
    simpa using hm
  · rintro ⟨h1, h2⟩ l m hm
    cases l with
    | nil =>
      simp only [Node_at, Option.some.injEq] at hm
      subst hm
      exact h1
    | cons i l =>
      rw [Node_at_cons] at hm
      cases hc : (Node_children n)[i]? with
      | none => simp [hc] at hm
      | some x =>
        simp only [hc, Option.some_bind] at hm
        exact h2 x (List.mem_iff_getElem?.2 ⟨i, hc⟩) l m hm

theorem CheckerDT_siblingCheck_false (prev : Option Path) (x : Node) :
    CheckerDT_siblingCheck prev x = false ↔
      ∀ q, prev = some q → Path_comparePath q (Node_getPath x) < 0 := by
  cases prev with
  | none => simp [CheckerDT_siblingCheck]
  | some q =>
    simp only [CheckerDT_siblingCheck, Bool.or_eq_false_iff, decide_eq_false_iff_not,
      Option.some.injEq, forall_eq']
    omega

theorem CheckerDT_treeCheck_node_iff (n : Node) :
    ∀ c, (CheckerDT_treeCheck_node n c).1 = true ↔
      ∀ l m, Node_at n l = some m → CheckerDT_Node_isValid (some m) = true ∧
        (Node_children m).Chain'
          (fun a b => Path_comparePath (Node_getPath a) (Node_getPath b) < 0) := by
  refine Node.rec
    (motive_1 := fun n => ∀ c, (CheckerDT_treeCheck_node n c).1 = true ↔
      ∀ l m, Node_at n l = some m → CheckerDT_Node_isValid (some m) = true ∧
        (Node_children m).Chain'
          (fun a b => Path_comparePath (Node_getPath a) (Node_getPath b) < 0))
    (motive_2 := fun cs => ∀ (prev : Option Path) (c : Nat),
      (CheckerDT_treeCheck_children cs prev c).1 = true ↔
        (prev.toList ++ cs.map Node_getPath).Chain' (fun a b => Path_comparePath a b < 0) ∧
        ∀ x ∈ cs, ∀ l m, Node_at x l = some m → CheckerDT_Node_isValid (some m) = true ∧
          (Node_children m).Chain'
            (fun a b => Path_comparePath (Node_getPath a) (Node_getPath b) < 0))
    ?_ ?_ ?_ n
  · intro p q t d len cs ih c
    rw [Node_at_forall, CheckerDT_treeCheck_node_eq]
    simp only [Node_children]
    have ih1 := ih none c
    simp only [Option.toList, List.nil_append, List.chain'_map] at ih1
    by_cases h1 : CheckerDT_Node_isValid (some (Node.mk p q t d len cs)) = true
    · by_cases h2 : (CheckerDT_treeCheck_children cs none c).1 = true
      · simp only [h1, h2, if_true, true_and, true_iff]
        exact ih1.1 h2
      · simp only [h1, h2, if_true, if_false, true_and]
        constructor
        · intro h; cases h
        · intro h; exact absurd (ih1.2 h) h2
    · simp only [h1]
      simp
  · intro prev c
    cases prev <;> simp [CheckerDT_treeCheck_children]
  · intro x xs ih1 ih2 prev c
    rw [CheckerDT_treeCheck_children_cons]
    have hchain : (prev.toList ++ (x :: xs).map Node_getPath).Chain'
          (fun a b => Path_comparePath a b < 0) ↔
        (∀ q, prev = some q → Path_comparePath q (Node_getPath x) < 0) ∧
        ((some (Node_getPath x)).toList ++ xs.map Node_getPath).Chain'
          (fun a b => Path_comparePath a b < 0) := by
      cases prev with
      | none => simp
      | some q => simp [List.chain'_cons]
    rw [hchain]
    by_cases h1 : CheckerDT_siblingCheck prev x = true
    · rw [if_pos h1]
      have : ¬ ∀ q, prev = some q → Path_comparePath q (Node_getPath x) < 0 := by
        rw [← CheckerDT_siblingCheck_false]
        simp [h1]
      simp [this]
    · rw [if_neg h1]
      have h1b : ∀ q, prev = some q → Path_comparePath q (Node_getPath x) < 0 := by
        rw [← CheckerDT_siblingCheck_false]
        simpa using h1
      by_cases h2 : (CheckerDT_treeCheck_node x c).1 = true
      · rw [if_pos h2, ih2]
        have hx := (ih1 c).1 h2
        simp only [List.mem_cons, forall_eq_or_imp]
        constructor
        · rintro ⟨h3, h4⟩
          exact ⟨⟨h1b, h3⟩, hx, h4⟩
        · rintro ⟨⟨_, h3⟩, _, h4⟩
          exact ⟨h3, h4⟩
      · rw [if_neg h2]
        simp only [List.mem_cons, forall_eq_or_imp]
        constructor
        · intro h; cases h
        · rintro ⟨_, hx, _⟩
          exact absurd ((ih1 c).2 hx) h2

/-- C20: on a node that is not NULL, `CheckerDT_treeCheck` returns TRUE exactly
when every node of the subtree passes `CheckerDT_Node_isValid` and at every
node each child is strictly above the child before it in path order; when it
returns TRUE the count has grown by the number of nodes of the subtree; on
NULL it returns TRUE and leaves the count. -/
theorem CheckerDT_treeCheck_iff (n : Node) (c : Nat) :
    ((CheckerDT_treeCheck (some n) c).1 = true ↔
      ∀ l m, Node_at n l = some m → CheckerDT_Node_isValid (some m) = true ∧
        (Node_children m).Chain'
          (fun a b => Path_comparePath (Node_getPath a) (Node_getPath b) < 0)) ∧
    ((CheckerDT_treeCheck (some n) c).1 = true →
      (CheckerDT_treeCheck (some n) c).2 = c + Node_size n) ∧
    CheckerDT_treeCheck none c = (true, c) :=
  ⟨CheckerDT_treeCheck_node_iff n c, CheckerDT_treeCheck_node_count n c, rfl⟩

theorem CheckerDT_treeCheck_iff_witness :
    ((CheckerDT_treeCheck FT_sample_file.oNRoot 0).1 = true ↔
      ∀ l m, Node_at (FT_chain [['a'], ['f']] 2 (some (VoidPtr.buf [1, 2], 2)) 1 1 none) l = some m →
        CheckerDT_Node_isValid (some m) = true ∧
        (Node_children m).Chain'
          (fun a b => Path_comparePath (Node_getPath a) (Node_getPath b) < 0)) ∧
    (CheckerDT_treeCheck FT_sample_file.oNRoot 0).2 = 0 + 2 ∧
    CheckerDT_treeCheck none 0 = (true, 0) :=
  ⟨(CheckerDT_treeCheck_iff (FT_chain [['a'], ['f']] 2 (some (VoidPtr.buf [1, 2], 2)) 1 1 none)
      0).1,
    (CheckerDT_treeCheck_iff (FT_chain [['a'], ['f']] 2 (some (VoidPtr.buf [1, 2], 2)) 1 1 none)
      0).2.1 (by decide),
    (CheckerDT_treeCheck_iff (FT_chain [['a'], ['f']] 2 (some (VoidPtr.buf [1, 2], 2)) 1 1 none)
      0).2.2⟩

/-- C19: `CheckerDT_Node_isValid` accepts a node with path `/a/b` whose parent
has path `/a/c`: the two paths share a prefix of depth 1, which is the depth
of the node less one, but the path of the parent has depth 2 and is not the
path of the node without its last component. -/
theorem CheckerDT_Node_isValid_sibling_parent :
    CheckerDT_Node_isValid
        (some (Node.mk [['a'], ['b']] (some [['a'], ['c']]) false VoidPtr.NULL 0 [])) = true ∧
      Path_getDepth [['a'], ['c']] ≠ Path_getDepth [['a'], ['b']] - 1 ∧
      ([['a'], ['c']] : Path) ≠ ([['a'], ['b']] : Path).dropLast := by
  decide

/-! ## Traversal of a tree that satisfies the invariant -/

/-- In a subtree that satisfies the invariant, the path of the node at a
position is the path of the top node plus one component per step. -/
theorem Node_wf_path_at (n m : Node) (l : List Nat) (hwf : Node_wf n = true)
    (hm : Node_at n l = some m) :
    ∃ suf, Node_getPath m = Node_getPath n ++ suf ∧ suf.length = l.length := by
  induction l generalizing n with
  | nil =>
    simp only [Node_at, Option.some.injEq] at hm
    subst hm
    exact ⟨[], by simp, rfl⟩
  | cons i l ih =>
    rw [Node_at_cons] at hm
    cases hc : (Node_children n)[i]? with
    | none => simp [hc] at hm
    | some c =>
      simp only [hc, Option.some_bind] at hm
      obtain ⟨_, h2⟩ := (Node_wf_iff n).1 hwf
      obtain ⟨_, h3, h4, h5⟩ := h2 c (List.mem_iff_getElem?.2 ⟨i, hc⟩)
      obtain ⟨suf, h6, h7⟩ := ih c h5 hm
      refine ⟨(Node_getPath c).getLast h3 :: suf, ?_, by simp [h7]⟩
      rw [h6]
      conv_lhs => rw [← List.dropLast_append_getLast h3, h4]
      simp

/-- In a node that satisfies the invariant, the search for the path of the
child at index `i` finds it at index `i`. -/
theorem Node_hasChild_wf (n c : Node) (i : Nat) (hwf : Node_wf n = true)
    (hc : (Node_children n)[i]? = some c) :
    Node_hasChild n (Node_getPath c) = (true, i) := by
  obtain ⟨h1, _⟩ := (Node_wf_iff n).1 hwf
  unfold Node_hasChild
  apply Node_hasChild_from_found _ _ i c hc rfl
  intro k d hk hd
  obtain ⟨hk1, hk2⟩ := List.getElem?_eq_some_iff.1 hd
  obtain ⟨hi1, hi2⟩ := List.getElem?_eq_some_iff.1 hc
  have := List.pairwise_iff_getElem.1 h1 k i hk1 hi1 hk
  rw [hk2, hi2] at this
  exact this

/-- In a subtree that satisfies the invariant, a node whose path is a prefix
of the target lies on the way the loop takes: the position where the loop ends
extends the position of the node. -/
theorem FT_traversePath_loop_complete (p : Path) (l1 : List Nat) :
    ∀ (len d : Nat) (n m1 : Node) (loc : List Nat), Node_wf n = true → 1 ≤ d →
      d + len ≤ Path_getDepth p → Node_getPath n = p.take d → Node_at n l1 = some m1 →
      Node_getPath m1 = p.take (d + l1.length) → l1.length ≤ len →
      ∃ rest, FT_traversePath_loop p (List.range' (d + 1) len) n loc
        = (SUCCESS, some (loc ++ l1 ++ rest)) := by
  induction l1 with
  | nil =>
    intro len d n m1 loc hwf hd hlen hn hm hp hl
    obtain ⟨l, m, h1, _⟩ := FT_traversePath_loop_spec p len d n loc hd hlen hn
    exact ⟨l, by simpa using h1⟩
  | cons i l1 ih =>
    intro len d n m1 loc hwf hd hlen hn hm hp hl
    cases len with
    | zero => simp at hl
    | succ len =>
      simp only [List.length_cons] at hl hp
      rw [Node_at_cons] at hm
      cases hc : (Node_children n)[i]? with
      | none => simp [hc] at hm
      | some c =>
        simp only [hc, Option.some_bind] at hm
        obtain ⟨_, h2⟩ := (Node_wf_iff n).1 hwf
        obtain ⟨_, h3, h4, h5⟩ := h2 c (List.mem_iff_getElem?.2 ⟨i, hc⟩)
        obtain ⟨suf, h6, h7⟩ := Node_wf_path_at c m1 l1 h5 hm
        have hclen : (Node_getPath c).length = d + 1 := by
          have := congrArg List.length (List.dropLast_append_getLast h3)
          rw [h4, hn] at this
          simp only [List.length_append, List.length_take, List.length_singleton] at this
          unfold Path_getDepth at hlen
          omega
        have hcp : Node_getPath c = p.take (d + 1) := by
          have h8 : (Node_getPath m1).take (d + 1) = Node_getPath c := by
            rw [h6, ← hclen]
            simp
          rw [← h8, hp, List.take_take]
          congr 1
          omega
        rw [List.range'_succ]
        simp only [FT_traversePath_loop]
        rw [Path_prefix_ok p (d + 1) (by omega) (by omega)]
        simp only
        have hh := Node_hasChild_wf n c i hwf hc
        rw [hcp] at hh
        rw [hh]
        simp only [if_true]
        rw [Node_getChild_ok n c _ hc]
        simp only
        obtain ⟨rest, h9⟩ := ih len (d + 1) c m1 (loc ++ [i]) h5 (by omega) (by omega) hcp hm
          (by rw [hp]; congr 1; omega) (by omega)
        exact ⟨rest, by rw [h9]; simp⟩

/-- In a tree that satisfies the invariant, the traversal for the path of a
node of the tree ends at the position of that node. -/
theorem FT_traversePath_wf_find (root m : Node) (l : List Nat) (hwf : Node_wf root = true)
    (hlen : (Node_getPath root).length = 1) (hm : Node_at root l = some m) :
    FT_traversePath (some root) (Node_getPath m) = (SUCCESS, some l) ∧
      FT_traversePath_loop (Node_getPath m) (List.range' 2 (Path_getDepth (Node_getPath m) - 1))
        root [] = (SUCCESS, some l) ∧
      Path_getDepth (Node_getPath m) = l.length + 1 := by
  obtain ⟨suf, h1, h2⟩ := Node_wf_path_at root m l hwf hm
  have hdepth : Path_getDepth (Node_getPath m) = l.length + 1 := by
    unfold Path_getDepth
    rw [h1, List.length_append, hlen, h2]
    omega
  have hroot : Node_getPath root = (Node_getPath m).take 1 := by
    rw [h1, ← hlen]
    simp
  obtain ⟨rest, h3⟩ := FT_traversePath_loop_complete (Node_getPath m) l
    (Path_getDepth (Node_getPath m) - 1) 1 root m [] hwf (le_refl 1) (by omega) hroot hm
    (by rw [Nat.add_comm, ← hdepth]; unfold Path_getDepth; simp) (by omega)
  obtain ⟨l2, m2, h4, h5, h6, h7, h8, h9⟩ :=
    FT_traversePath_under root (Node_getPath m) (by omega) hroot
  have h10 : l2 = l ++ rest := by
    change FT_traversePath_loop (Node_getPath m) (List.range' (1 + 1) _) root [] = _ at h3
    rw [h5] at h3
    simpa using h3
  have h11 : rest = [] := by
    have : l2.length = l.length + rest.length := by rw [h10]; simp
    have : rest.length = 0 := by omega
    exact List.length_eq_zero.1 this
  subst h11
  simp only [List.append_nil] at h10
  subst h10
  exact ⟨h4, h5, hdepth⟩

/-! ## What the tree contains -/

theorem FT_findNode_of_at (s : FT) (pcPath : String) (p : Path) (root m : Node) (l : List Nat)
    (hinit : s.bIsInitialized = true) (hp : Path_new pcPath = .ok p)
    (hroot : s.oNRoot = some root) (ht : FT_traversePath (some root) p = (SUCCESS, some l))
    (hm : Node_at root l = some m) (hpath : Node_getPath m = p) :
    FT_findNode s pcPath = (SUCCESS, some l) := by
  unfold FT_findNode
  simp only [hinit, hp, hroot, ht, Bool.not_true, Bool.false_eq_true, if_false, ne_eq,
    not_true_eq_false]
  simp only [Node_deref, hm]
  rw [if_neg]
  rw [hpath]
  simp [Path_comparePath_self]

/-- When the traversal of a well-formed path ends at a node with that path,
the tree contains the path as a directory or as a file, by the type of the
node. -/
theorem FT_contains_of_at (s : FT) (pcPath : String) (p : Path) (root m : Node) (l : List Nat)
    (hinit : s.bIsInitialized = true) (hp : Path_new pcPath = .ok p)
    (hroot : s.oNRoot = some root) (ht : FT_traversePath (some root) p = (SUCCESS, some l))
    (hm : Node_at root l = some m) (hpath : Node_getPath m = p) :
    FT_containsDir s pcPath = !Node_type m ∧ FT_containsFile s pcPath = Node_type m := by
  have hf := FT_findNode_of_at s pcPath p root m l hinit hp hroot ht hm hpath
  unfold FT_containsDir FT_containsFile
  rw [hf, hroot]
  simp only [Node_deref, hm]
  cases Node_type m <;> simp

/-- After a successful insertion the traversal of the path ends at a node with
that path, without children, that holds what the insertion was given. -/
theorem FT_insert_body_found (s : FT) (mem : Nat) (p : Path) (oFile : Option (VoidPtr × Nat))
    (hd : 1 ≤ Path_getDepth p) (h : (FT_insert_body s mem p oFile).1 = SUCCESS) :
    (FT_insert_body s mem p oFile).2.bIsInitialized = s.bIsInitialized ∧
    ∃ root1 l1 leaf, (FT_insert_body s mem p oFile).2.oNRoot = some root1 ∧
      FT_traversePath (some root1) p = (SUCCESS, some l1) ∧ Node_at root1 l1 = some leaf ∧
      Node_getPath leaf = p ∧
      Node_type leaf = (FT_newKind (Path_getDepth p) oFile (Path_getDepth p)).1 ∧
      Node_data leaf = (FT_newKind (Path_getDepth p) oFile (Path_getDepth p)).2.1 ∧
      Node_len leaf = (FT_newKind (Path_getDepth p) oFile (Path_getDepth p)).2.2 ∧
      Node_children leaf = [] := by
  rcases FT_insert_body_success s mem p oFile h with
    ⟨hroot, hmem⟩ | ⟨root, l, m, hroot, ht, htl, hm, hr, hdir, hpath, hlt, hnone, hmem⟩
  · rw [FT_insert_body_root s mem p oFile hroot hd hmem]
    obtain ⟨h1, leaf, h2⟩ := FT_traversePath_after_root p oFile (Path_getDepth p - 1) (by omega)
    exact ⟨rfl, _, _, leaf, rfl, h1, h2⟩
  · rw [FT_insert_body_under s mem p oFile root m l hroot ht hm hdir hpath hlt hmem]
    obtain ⟨h1, leaf, h2⟩ := FT_traversePath_after_under p oFile root m l
      (Path_getDepth p - (l.length + 2)) htl hm hr (by omega)
    exact ⟨rfl, _, _, leaf, rfl, h1, h2⟩

theorem FT_insertFile_success (s : FT) (mem : Nat) (pcPath : String) (pvContents : VoidPtr)
    (ulLength : Nat) (h : (FT_insertFile s mem pcPath pvContents ulLength).1 = SUCCESS) :
    s.bIsInitialized = true ∧ ∃ p, Path_new pcPath = .ok p ∧
      FT_insertFile s mem pcPath pvContents ulLength =
        FT_insert_body s mem p (some (pvContents, ulLength)) := by
  unfold FT_insertFile at h ⊢
  cases hi : s.bIsInitialized
  · simp [hi] at h
  · refine ⟨rfl, ?_⟩
    cases hp : Path_new pcPath with
    | error e =>
      have := Path_new_error pcPath e hp
      subst this
      simp [hi, hp] at h
    | ok p =>
      refine ⟨p, rfl, ?_⟩
      simp only [hi, hp, Bool.not_true, Bool.false_eq_true, if_false] at h ⊢
      by_cases hr : s.oNRoot.isNone = true
      · simp [hr] at h
      · simp [hr]

/-- After a successful `FT_insertDir` the tree contains the path as a
directory and not as a file. -/
theorem FT_insertDir_contains (s : FT) (mem : Nat) (pcPath : String)
    (h : (FT_insertDir s mem pcPath).1 = SUCCESS) :
    FT_containsFile (FT_insertDir s mem pcPath).2 pcPath = false ∧
      FT_containsDir (FT_insertDir s mem pcPath).2 pcPath = true := by
  obtain ⟨hinit, p, hp⟩ := FT_insertDir_success s mem pcPath h
  rw [FT_insertDir_eq_body s mem pcPath p hinit hp] at h ⊢
  obtain ⟨h0, root1, l1, leaf, h1, h2, h3, h4, h5, _⟩ :=
    FT_insert_body_found s mem p none (Path_new_depth pcPath p hp) h
  obtain ⟨h6, h7⟩ := FT_contains_of_at _ pcPath p root1 leaf l1 (by rw [h0]; exact hinit) hp h1
    h2 h3 h4
  rw [h6, h7, h5]
  simp [FT_newKind]

/-- After a successful `FT_insertFile` the tree contains the path as a file
and not as a directory, and the node found for the path holds the contents and
the length given. -/
theorem FT_insertFile_contains (s : FT) (mem : Nat) (pcPath : String) (pvContents : VoidPtr)
    (ulLength : Nat) (h : (FT_insertFile s mem pcPath pvContents ulLength).1 = SUCCESS) :
    FT_containsFile (FT_insertFile s mem pcPath pvContents ulLength).2 pcPath = true ∧
      FT_containsDir (FT_insertFile s mem pcPath pvContents ulLength).2 pcPath = false := by
  obtain ⟨hinit, p, hp, heq⟩ := FT_insertFile_success s mem pcPath pvContents ulLength h
  rw [heq] at h ⊢
  obtain ⟨h0, root1, l1, leaf, h1, h2, h3, h4, h5, _⟩ :=
    FT_insert_body_found s mem p _ (Path_new_depth pcPath p hp) h
  obtain ⟨h6, h7⟩ := FT_contains_of_at _ pcPath p root1 leaf l1 (by rw [h0]; exact hinit) hp h1
    h2 h3 h4
  rw [h6, h7, h5]
  simp [FT_newKind]

/-- In a state that satisfies the invariant, the tree contains a well-formed
path as a directory (as a file) exactly when one of its nodes has that path
and is a directory (a file). -/
theorem FT_contains_iff_entry (s : FT) (hinv : FT_Inv s) (pcPath : String) (p : Path)
    (hp : Path_new pcPath = .ok p) :
    (FT_containsDir s pcPath = true ↔ ∃ e ∈ FT_entries s, e.1 = p ∧ e.2.1 = false) ∧
    (FT_containsFile s pcPath = true ↔ ∃ e ∈ FT_entries s, e.1 = p ∧ e.2.1 = true) := by
  have back : ∀ e ∈ FT_entries s, e.1 = p →
      FT_containsDir s pcPath = !e.2.1 ∧ FT_containsFile s pcPath = e.2.1 := by
    intro e he hep
    unfold FT_entries at he
    cases hroot : s.oNRoot with
    | none => simp [hroot] at he
    | some root =>
      simp only [hroot] at he
      obtain ⟨l, m, hm, rfl⟩ := Node_entries_mem_at root e he
      obtain ⟨hinit, _, hwf, _, hlen⟩ := FT_Inv_some s root hinv hroot
      simp only at hep
      obtain ⟨ht, _⟩ := FT_traversePath_wf_find root m l hwf hlen hm
      rw [hep] at ht
      exact FT_contains_of_at s pcPath p root m l hinit hp hroot ht hm hep
  constructor
  · constructor
    · intro h
      obtain ⟨p1, root, l, m, h1, h2, h3, h4, h5, h6, h7, h8, h9, _⟩ :=
        FT_containsDir_true s pcPath h
      rw [hp] at h2
      cases h2
      refine ⟨(Node_getPath m, Node_type m, Node_data m, Node_len m), ?_, h7, h9⟩
      unfold FT_entries
      rw [h3]
      exact Node_at_mem_entries root m l h6
    · rintro ⟨e, he, h1, h2⟩
      rw [(back e he h1).1, h2]
      rfl
  · constructor
    · intro h
      obtain ⟨p1, root, l, m, h1, h2, h3, h4, h5, h6, h7, h8, h9⟩ :=
        FT_containsFile_true s pcPath h
      rw [hp] at h2
      cases h2
      refine ⟨(Node_getPath m, Node_type m, Node_data m, Node_len m), ?_, h7, h9⟩
      unfold FT_entries
      rw [h3]
      exact Node_at_mem_entries root m l h6
    · rintro ⟨e, he, h1, h2⟩
      rw [(back e he h1).2, h2]

/-- C18: after a successful `FT_insertDir` of a path the tree contains the
path as a directory and not as a file; after a successful `FT_rmDir` of the
path and then a successful `FT_insertFile` of it the tree contains the path as
a file and not as a directory; and in every state the program can reach, the
tree contains a well-formed path as a directory (as a file) exactly when one
of its nodes has that path and is a directory (a file). -/
theorem FT_contains_kind (s : FT) (mem1 mem2 : Nat) (pcPath : String) (pvContents : VoidPtr)
    (ulLength : Nat) :
    ((FT_insertDir s mem1 pcPath).1 = SUCCESS →
      (FT_containsFile (FT_insertDir s mem1 pcPath).2 pcPath = false ∧
        FT_containsDir (FT_insertDir s mem1 pcPath).2 pcPath = true) ∧
      ((FT_rmDir (FT_insertDir s mem1 pcPath).2 pcPath).1 = SUCCESS →
        (FT_insertFile (FT_rmDir (FT_insertDir s mem1 pcPath).2 pcPath).2 mem2 pcPath pvContents
          ulLength).1 = SUCCESS →
        FT_containsFile (FT_insertFile (FT_rmDir (FT_insertDir s mem1 pcPath).2 pcPath).2 mem2
          pcPath pvContents ulLength).2 pcPath = true ∧
        FT_containsDir (FT_insertFile (FT_rmDir (FT_insertDir s mem1 pcPath).2 pcPath).2 mem2
          pcPath pvContents ulLength).2 pcPath = false)) ∧
    (FT_reachable s → ∀ p, Path_new pcPath = .ok p →
      (FT_containsDir s pcPath = true ↔ ∃ e ∈ FT_entries s, e.1 = p ∧ e.2.1 = false) ∧
      (FT_containsFile s pcPath = true ↔ ∃ e ∈ FT_entries s, e.1 = p ∧ e.2.1 = true)) := by
  refine ⟨fun h => ⟨FT_insertDir_contains s mem1 pcPath h, fun _ h3 => ?_⟩, fun hs p hp => ?_⟩
  · exact FT_insertFile_contains _ mem2 pcPath pvContents ulLength h3
  · exact FT_contains_iff_entry s (FT_reachable_Inv s hs) pcPath p hp

theorem FT_contains_kind_witness :
    (FT_containsFile (FT_insertDir FT_sample_dir 1 "/a/b").2 "/a/b" = false ∧
      FT_containsDir (FT_insertDir FT_sample_dir 1 "/a/b").2 "/a/b" = true) ∧
    (FT_containsFile (FT_insertFile (FT_rmDir (FT_insertDir FT_sample_dir 1 "/a/b").2 "/a/b").2 1
        "/a/b" (VoidPtr.buf [7]) 1).2 "/a/b" = true ∧
      FT_containsDir (FT_insertFile (FT_rmDir (FT_insertDir FT_sample_dir 1 "/a/b").2 "/a/b").2 1
        "/a/b" (VoidPtr.buf [7]) 1).2 "/a/b" = false) ∧
    ((FT_containsDir FT_sample_file "/a/f" = true ↔
        ∃ e ∈ FT_entries FT_sample_file, e.1 = [['a'], ['f']] ∧ e.2.1 = false) ∧
      (FT_containsFile FT_sample_file "/a/f" = true ↔
        ∃ e ∈ FT_entries FT_sample_file, e.1 = [['a'], ['f']] ∧ e.2.1 = true)) :=
  ⟨((FT_contains_kind FT_sample_dir 1 1 "/a/b" (VoidPtr.buf [7]) 1).1 (by decide)).1,
    ((FT_contains_kind FT_sample_dir 1 1 "/a/b" (VoidPtr.buf [7]) 1).1 (by decide)).2
      (by decide) (by decide),
    (FT_contains_kind FT_sample_file 1 1 "/a/f" (VoidPtr.buf [7]) 1).2
      (FT_reachable.insertFile _ 1 "/a/f" (VoidPtr.buf [1, 2]) 2
        (FT_reachable.insertDir _ 1 "/a" (FT_reachable.init _ FT_reachable.start)))
      [['a'], ['f']] rfl⟩

/-! ## Files are leaves -/

theorem Node_leafFilesList_iff (cs : List Node) :
    Node_leafFilesList cs = true ↔ ∀ c ∈ cs, Node_leafFiles c = true := by
  induction cs with
  | nil => simp [Node_leafFilesList]
  | cons x xs ih => simp [Node_leafFilesList, ih]

theorem Node_leafFiles_iff (n : Node) :
    Node_leafFiles n = true ↔
      (Node_type n = true → Node_children n = []) ∧
      ∀ c ∈ Node_children n, Node_leafFiles c = true := by
  cases n with
  | mk p q t d l cs =>
    simp only [Node_leafFiles, Bool.and_eq_true, Bool.or_eq_true, Bool.not_eq_true',
      List.isEmpty_iff, Node_leafFilesList_iff, Node_type, Node_children]
    cases t <;> simp

theorem Node_leafFiles_at (n m : Node) (l : List Nat) (h : Node_leafFiles n = true)
    (hm : Node_at n l = some m) : Node_leafFiles m = true := by
  induction l generalizing n with
  | nil =>
    simp only [Node_at, Option.some.injEq] at hm
    subst hm
    exact h
  | cons i l ih =>
    rw [Node_at_cons] at hm
    cases hc : (Node_children n)[i]? with
    | none => simp [hc] at hm
    | some c =>
      simp only [hc, Option.some_bind] at hm
      exact ih c (((Node_leafFiles_iff n).1 h).2 c (List.mem_iff_getElem?.2 ⟨i, hc⟩)) hm

/-- In a tree whose files are leaves, a node with a child is a directory. -/
theorem Node_leafFiles_dir (n c : Node) (i : Nat) (h : Node_leafFiles n = true)
    (hc : (Node_children n)[i]? = some c) : Node_type n = false := by
  cases ht : Node_type n
  · rfl
  · have := ((Node_leafFiles_iff n).1 h).1 ht
    rw [this] at hc
    simp at hc

theorem Node_leafFiles_setChildren_set (n c c1 : Node) (i : Nat) (h : Node_leafFiles n = true)
    (hc : (Node_children n)[i]? = some c) (h1 : Node_leafFiles c1 = true) :
    Node_leafFiles (Node_setChildren n ((Node_children n).set i c1)) = true := by
  rw [Node_leafFiles_iff]
  simp only [Node_type_setChildren, Node_children_setChildren]
  constructor
  · intro ht
    rw [Node_leafFiles_dir n c i h hc] at ht
    cases ht
  · intro y hy
    rcases List.mem_or_eq_of_mem_set hy with hy | hy
    · exact ((Node_leafFiles_iff n).1 h).2 y hy
    · subst hy
      exact h1

theorem Node_leafFiles_updateAt (f : Node → Node) (n m : Node) (l : List Nat)
    (h : Node_leafFiles n = true) (hm : Node_at n l = some m)
    (hfm : Node_leafFiles (f m) = true) : Node_leafFiles (Node_updateAt f n l) = true := by
  induction l generalizing n with
  | nil =>
    simp only [Node_at, Option.some.injEq] at hm
    subst hm
    exact hfm
  | cons i l ih =>
    rw [Node_at_cons] at hm
    cases hc : (Node_children n)[i]? with
    | none => simp [hc] at hm
    | some c =>
      simp only [hc, Option.some_bind] at hm
      rw [Node_updateAt_cons f n c i l hc]
      exact Node_leafFiles_setChildren_set n c _ i h hc
        (ih c (((Node_leafFiles_iff n).1 h).2 c (List.mem_iff_getElem?.2 ⟨i, hc⟩)) hm)

theorem Node_leafFiles_addChild (m new : Node) (i : Nat) (h : Node_leafFiles m = true)
    (hdir : Node_type m = false) (hi : i ≤ (Node_children m).length)
    (hnew : Node_leafFiles new = true) : Node_leafFiles (Node_addChild m new i) = true := by
  rw [Node_leafFiles_iff]
  simp only [Node_addChild, Node_type_setChildren, Node_children_setChildren]
  constructor
  · intro ht
    rw [hdir] at ht
    cases ht
  · intro y hy
    rcases (List.mem_insertIdx hi).mp hy with hy | hy
    · subst hy
      exact hnew
    · exact ((Node_leafFiles_iff m).1 h).2 y hy

/-- In a chain only the last node can be a file. -/
theorem FT_chain_leafFiles (p : Path) (oFile : Option (VoidPtr × Nat)) (k : Nat) :
    ∀ (i : Nat) (q : Option Path), i + k ≤ Path_getDepth p →
      Node_leafFiles (FT_chain p (Path_getDepth p) oFile k i q) = true := by
  induction k with
  | zero =>
    intro i q _
    simp [FT_chain, Node_leafFiles, Node_leafFilesList]
  | succ k ih =>
    intro i q h
    rw [Node_leafFiles_iff, FT_chain_children_succ]
    constructor
    · intro ht
      exfalso
      have h1 : Node_type (FT_chain p (Path_getDepth p) oFile (k + 1) i q) = false := by
        simp only [FT_chain, Node_type, FT_newKind]
        cases oFile with
        | none => rfl
        | some cl =>
          obtain ⟨c, len⟩ := cl
          simp only
          rw [if_neg (by omega)]
      rw [h1] at ht
      cases ht
    · intro c hc
      simp only [List.mem_singleton] at hc
      subst hc
      exact ih (i + 1) _ (by omega)

theorem Node_leafFiles_eraseAt (n n1 : Node) (l : List Nat) (h : Node_leafFiles n = true)
    (he : Node_eraseAt n l = some n1) : Node_leafFiles n1 = true := by
  induction l generalizing n n1 with
  | nil => simp [Node_eraseAt] at he
  | cons i l ih =>
    cases hc : (Node_children n)[i]? with
    | none =>
      simp only [Node_eraseAt, hc, Option.some.injEq] at he
      subst he
      exact h
    | some c =>
      have hmem : c ∈ Node_children n := List.mem_iff_getElem?.mpr ⟨i, hc⟩
      rw [Node_eraseAt_cons n c i l hc] at he
      simp only [Option.some.injEq] at he
      cases hec : Node_eraseAt c l with
      | none =>
        rw [hec] at he
        simp only at he
        subst he
        rw [Node_leafFiles_iff]
        simp only [Node_type_setChildren, Node_children_setChildren]
        constructor
        · intro ht
          rw [Node_leafFiles_dir n c i h hc] at ht
          cases ht
        · intro y hy
          exact ((Node_leafFiles_iff n).1 h).2 y (List.mem_of_mem_eraseIdx hy)
      | some c1 =>
        rw [hec] at he
        simp only at he
        subst he
        exact Node_leafFiles_setChildren_set n c c1 i h hc
          (ih c c1 (((Node_leafFiles_iff n).1 h).2 c hmem) hec)

theorem FT_leafFiles_of_some (s : FT) (root : Node) (hroot : s.oNRoot = some root)
    (h : Node_leafFiles root = true) : FT_leafFiles s = true := by
  unfold FT_leafFiles
  rw [hroot]
  exact h

theorem FT_leafFiles_some (s : FT) (root : Node) (h : FT_leafFiles s = true)
    (hroot : s.oNRoot = some root) : Node_leafFiles root = true := by
  unfold FT_leafFiles at h
  rw [hroot] at h
  exact h

theorem FT_leafFiles_insert_body (s : FT) (mem : Nat) (p : Path)
    (oFile : Option (VoidPtr × Nat)) (h : FT_leafFiles s = true) (hd : 1 ≤ Path_getDepth p) :
    FT_leafFiles (FT_insert_body s mem p oFile).2 = true := by
  by_cases hs : (FT_insert_body s mem p oFile).1 = SUCCESS
  · rcases FT_insert_body_success s mem p oFile hs with
      ⟨hroot, hmem⟩ | ⟨root, l, m, hroot, ht, htl, hm, hr, hdir, hpath, hlt, hnone, hmem⟩
    · rw [FT_insert_body_root s mem p oFile hroot hd hmem]
      exact FT_leafFiles_of_some _ _ rfl (FT_chain_leafFiles p oFile _ 1 none (by omega))
    · rw [FT_insert_body_under s mem p oFile root m l hroot ht hm hdir hpath hlt hmem]
      have hl := FT_leafFiles_some s root h hroot
      refine FT_leafFiles_of_some _ _ rfl ?_
      apply Node_leafFiles_updateAt _ root m l hl hm
      exact Node_leafFiles_addChild m _ _ (Node_leafFiles_at root m l hl hm) hdir
        (Node_hasChild_spec m (p.take (l.length + 2))).1
        (FT_chain_leafFiles p oFile _ _ _ (by omega))
  · rw [FT_insert_body_fail s mem p oFile hs]
    exact h

theorem FT_leafFiles_insertDir (s : FT) (mem : Nat) (pcPath : String)
    (h : FT_leafFiles s = true) : FT_leafFiles (FT_insertDir s mem pcPath).2 = true := by
  unfold FT_insertDir
  cases hi : s.bIsInitialized
  · exact h
  · cases hp : Path_new pcPath with
    | error e => exact h
    | ok p => exact FT_leafFiles_insert_body s mem p none h (Path_new_depth pcPath p hp)

theorem FT_leafFiles_insertFile (s : FT) (mem : Nat) (pcPath : String) (pvContents : VoidPtr)
    (ulLength : Nat) (h : FT_leafFiles s = true) :
    FT_leafFiles (FT_insertFile s mem pcPath pvContents ulLength).2 = true := by
  unfold FT_insertFile
  cases hi : s.bIsInitialized
  · exact h
  · cases hp : Path_new pcPath with
    | error e => exact h
    | ok p =>
      simp only [Bool.not_true, Bool.false_eq_true, if_false]
      split_ifs
      · exact h
      · exact FT_leafFiles_insert_body s mem p _ h (Path_new_depth pcPath p hp)

theorem FT_leafFiles_rm_free (s : FT) (root m : Node) (l : List Nat) (hinv : FT_Inv s)
    (h : FT_leafFiles s = true) (hroot : s.oNRoot = some root) (hm : Node_at root l = some m) :
    FT_leafFiles (FT_rm_free s (some l)) = true := by
  obtain ⟨_, hc, _⟩ := FT_Inv_some s root hinv hroot
  obtain ⟨hnil, hcons⟩ := FT_rm_free_spec s root m l hroot hm hc
  by_cases hl : l = []
  · rw [hnil hl]
    rfl
  · obtain ⟨n1, he, _, _, _, _, hfree⟩ := hcons hl
    rw [hfree]
    exact FT_leafFiles_of_some _ n1 rfl
      (Node_leafFiles_eraseAt root n1 l (FT_leafFiles_some s root h hroot) he)

theorem FT_leafFiles_rmDir (s : FT) (pcPath : String) (hinv : FT_Inv s)
    (h : FT_leafFiles s = true) : FT_leafFiles (FT_rmDir s pcPath).2 = true := by
  unfold FT_rmDir
  simp only
  by_cases hs : (FT_findNode s pcPath).1 = SUCCESS
  · obtain ⟨p, root, l, m, _, _, hroot, _, _, hm, _, _, hfind⟩ := FT_findNode_success s pcPath hs
    simp only [hfind, hroot, Node_deref, hm, ne_eq, not_true_eq_false, if_false]
    split_ifs
    · exact h
    · exact FT_leafFiles_rm_free s root m l hinv h hroot hm
  · rw [if_pos hs]
    exact h

theorem FT_leafFiles_rmFile (s : FT) (pcPath : String) (hinv : FT_Inv s)
    (h : FT_leafFiles s = true) : FT_leafFiles (FT_rmFile s pcPath).2 = true := by
  unfold FT_rmFile
  simp only
  by_cases hs : (FT_findNode s pcPath).1 = SUCCESS
  · obtain ⟨p, root, l, m, _, _, hroot, _, _, hm, _, _, hfind⟩ := FT_findNode_success s pcPath hs
    simp only [hfind, hroot, Node_deref, hm, ne_eq, not_true_eq_false, if_false]
    split_ifs
    · exact h
    · exact FT_leafFiles_rm_free s root m l hinv h hroot hm
  · rw [if_pos hs]
    exact h

theorem FT_leafFiles_changeData (s : FT) (root m : Node) (l : List Nat)
    (pvNewContents : VoidPtr) (ulNewLength : Nat) (h : FT_leafFiles s = true)
    (hroot : s.oNRoot = some root) (hm : Node_at root l = some m) :
    FT_leafFiles { s with oNRoot := Node_changeData s.oNRoot (some l) pvNewContents ulNewLength }
      = true := by
  have hl := FT_leafFiles_some s root h hroot
  have hlm := Node_leafFiles_at root m l hl hm
  have hfm : Node_leafFiles (Node.mk (Node_getPath m) (Node_getParentPath m) (Node_type m)
      pvNewContents ulNewLength (Node_children m)) = true := by
    rw [Node_leafFiles_iff] at hlm ⊢
    exact hlm
  simp only [hroot, Node_changeData]
  exact FT_leafFiles_of_some _ _ rfl (Node_leafFiles_updateAt _ root m l hl hm hfm)

theorem FT_leafFiles_replaceFileContents (s s1 : FT) (pcPath : String)
    (pvNewContents pvOld : VoidPtr) (ulNewLength : Nat) (hinv : FT_leafFiles s = true)
    (h : FT_replaceFileContents s pcPath pvNewContents ulNewLength = some (pvOld, s1)) :
    FT_leafFiles s1 = true := by
  unfold FT_replaceFileContents at h
  cases hp : Path_new pcPath with
  | error e =>
    simp only [hp, Option.some.injEq, Prod.mk.injEq] at h
    rw [← h.2]
    exact hinv
  | ok p =>
    simp only [hp] at h
    split_ifs at h with h1
    · simp only [Option.some.injEq, Prod.mk.injEq] at h
      rw [← h.2]
      exact hinv
    · cases hroot : s.oNRoot with
      | none => simp [hroot, Node_deref] at h
      | some root =>
        cases hl : (FT_traversePath s.oNRoot p).2 with
        | none => simp [hl, Node_deref_none] at h
        | some l =>
          rw [hl, hroot] at h
          simp only [Node_deref] at h
          cases hm : Node_at root l with
          | none => simp [hm] at h
          | some m =>
            simp only [hm] at h
            split_ifs at h with h2 h3
            · simp only [Option.some.injEq, Prod.mk.injEq] at h
              rw [← h.2]
              exact hinv
            · simp only [Option.some.injEq, Prod.mk.injEq] at h
              rw [← h.2]
              exact hinv
            · simp only [Option.some.injEq, Prod.mk.injEq] at h
              rw [← h.2, ← hroot]
              exact FT_leafFiles_changeData s root m l pvNewContents ulNewLength hinv hroot hm

theorem FT_leafFiles_init (s : FT) (h : FT_leafFiles s = true) :
    FT_leafFiles (FT_init s).2 = true := by
  unfold FT_init
  split_ifs
  · exact h
  · rfl

theorem FT_leafFiles_destroy (s : FT) (h : FT_leafFiles s = true) :
    FT_leafFiles (FT_destroy s).2 = true := by
  unfold FT_destroy
  split_ifs
  · exact h
  · cases hroot : s.oNRoot with
    | none =>
      simp only
      unfold FT_leafFiles
      simp [hroot]
    | some root => rfl

/-- In every state the program can be in, every file is a leaf. -/
theorem FT_reachable_leafFiles (s : FT) (h : FT_reachable s) : FT_leafFiles s = true := by
  induction h with
  | start => rfl
  | init s _ ih => exact FT_leafFiles_init s ih
  | insertDir s mem pcPath _ ih => exact FT_leafFiles_insertDir s mem pcPath ih
  | insertFile s mem pcPath c l _ ih => exact FT_leafFiles_insertFile s mem pcPath c l ih
  | rmDir s pcPath hs ih => exact FT_leafFiles_rmDir s pcPath (FT_reachable_Inv s hs) ih
  | rmFile s pcPath hs ih => exact FT_leafFiles_rmFile s pcPath (FT_reachable_Inv s hs) ih
  | replaceFileContents s s1 pcPath c o l _ hr ih =>
    exact FT_leafFiles_replaceFileContents s s1 pcPath c o l ih hr
  | destroy s _ ih => exact FT_leafFiles_destroy s ih

/-! ## Ancestors of a node -/

/-- In a tree that satisfies the invariant and whose files are leaves, the
position of a node cut after `k` steps, short of the node, is the position of a
directory whose path is the prefix of depth `k + 1` of the path of the node. -/
theorem Node_at_ancestor (root m : Node) (l : List Nat) (k : Nat) (hwf : Node_wf root = true)
    (hleaf : Node_leafFiles root = true) (hlen : (Node_getPath root).length = 1)
    (hm : Node_at root l = some m) (hk : k < l.length) :
    ∃ mq, Node_at root (l.take k) = some mq ∧ Node_type mq = false ∧
      Node_getPath mq = (Node_getPath m).take (k + 1) := by
  have hsplit : l = l.take k ++ l.drop k := (List.take_append_drop k l).symm
  rw [hsplit, Node_at_append] at hm
  cases hq : Node_at root (l.take k) with
  | none => simp [hq] at hm
  | some mq =>
    simp only [hq, Option.some_bind] at hm
    refine ⟨mq, rfl, ?_, ?_⟩
    · cases hr : l.drop k with
      | nil =>
        have := congrArg List.length hr
        simp only [List.length_drop, List.length_nil] at this
        omega
      | cons i r =>
        rw [hr, Node_at_cons] at hm
        cases hc : (Node_children mq)[i]? with
        | none => simp [hc] at hm
        | some c => exact Node_leafFiles_dir mq c i (Node_leafFiles_at root mq _ hleaf hq) hc
    · obtain ⟨suf, h1, h2⟩ := Node_wf_path_at root mq _ hwf hq
      obtain ⟨suf2, h3, _⟩ := Node_wf_path_at mq m _ (Node_wf_at root mq _ hwf hq) hm
      have h4 : (Node_getPath mq).length = k + 1 := by
        rw [h1, List.length_append, hlen, h2, List.length_take]
        omega
      rw [h3, ← h4]
      simp

/-- C15: in every state the program can reach, when a node of the tree is a
file whose path is a proper prefix of a well-formed path, `FT_insertDir` and
`FT_insertFile` of that path return NOT_A_DIRECTORY and leave the state (the
tree and the count) as it was. -/
theorem FT_insert_below_file (s : FT) (mem : Nat) (pcPath : String) (p : Path) (j : Nat)
    (pvContents : VoidPtr) (ulLength : Nat) (hs : FT_reachable s)
    (hp : Path_new pcPath = .ok p) (hj : j < Path_getDepth p)
    (hfile : ∃ e ∈ FT_entries s, e.1 = p.take j ∧ e.2.1 = true) :
    FT_insertDir s mem pcPath = (NOT_A_DIRECTORY, s) ∧
      FT_insertFile s mem pcPath pvContents ulLength = (NOT_A_DIRECTORY, s) := by
  obtain ⟨e, he, he1, he2⟩ := hfile
  unfold FT_entries at he
  cases hroot : s.oNRoot with
  | none => simp [hroot] at he
  | some root =>
    simp only [hroot] at he
    obtain ⟨lq, mq, hmq, rfl⟩ := Node_entries_mem_at root e he
    simp only at he1 he2
    obtain ⟨hinit, _, hwf, _, hlen⟩ := FT_Inv_some s root (FT_reachable_Inv s hs) hroot
    have hleaf : Node_leafFiles root = true := by
      have := FT_reachable_leafFiles s hs
      unfold FT_leafFiles at this
      rw [hroot] at this
      exact this
    obtain ⟨_, _, hdq⟩ := FT_traversePath_wf_find root mq lq hwf hlen hmq
    have hjq : j = lq.length + 1 := by
      rw [he1] at hdq
      unfold Path_getDepth at hdq hj
      rw [List.length_take] at hdq
      omega
    obtain ⟨suf, hsuf, _⟩ := Node_wf_path_at root mq lq hwf hmq
    have hrootp : Node_getPath root = p.take 1 := by
      have h1 : Node_getPath root = (Node_getPath mq).take 1 := by
        rw [hsuf, ← hlen]
        simp
      rw [h1, he1, List.take_take]
      congr 1
      omega
    have hd := Path_new_depth pcPath p hp
    obtain ⟨rest, hrest⟩ := FT_traversePath_loop_complete p lq (Path_getDepth p - 1) 1 root mq []
      hwf (le_refl 1) (by omega) hrootp hmq (by rw [he1]; congr 1; omega) (by omega)
    obtain ⟨l, m, ht, htl, hm, hle, hpath, _⟩ := FT_traversePath_under root p hd hrootp
    have hl : l = lq ++ rest := by
      change FT_traversePath_loop p (List.range' 2 _) root [] = _ at hrest
      rw [htl] at hrest
      simpa using hrest
    have hnil : rest = [] := by
      cases hr : rest with
      | nil => rfl
      | cons i r =>
        exfalso
        rw [hl, hr, Node_at_append, hmq] at hm
        simp only [Option.some_bind] at hm
        rw [Node_at_cons] at hm
        cases hc : (Node_children mq)[i]? with
        | none => simp [hc] at hm
        | some c =>
          have := Node_leafFiles_dir mq c i (Node_leafFiles_at root mq lq hleaf hmq) hc
          rw [he2] at this
          cases this
    subst hnil
    simp only [List.append_nil] at hl
    subst hl
    rw [hmq] at hm
    simp only [Option.some.injEq] at hm
    subst hm
    have hdep : Path_getDepth (Node_getPath mq) = l.length + 1 := hdq
    have hbody : ∀ oFile, FT_insert_body s mem p oFile = (NOT_A_DIRECTORY, s) := by
      intro oFile
      rw [FT_insert_body_eq_some s mem p oFile root mq l hroot ht hmq hdep, if_pos he2]
    constructor
    · rw [FT_insertDir_eq_body s mem pcPath p hinit hp]
      exact hbody none
    · unfold FT_insertFile
      simp only [hinit, hp, hroot, Bool.not_true, Bool.false_eq_true, if_false,
        Option.isNone_some]
      exact hbody _

theorem FT_insert_below_file_witness :
    FT_insertDir FT_sample_file 5 "/a/f/g/h" = (NOT_A_DIRECTORY, FT_sample_file) ∧
      FT_insertFile FT_sample_file 5 "/a/f/g/h" (VoidPtr.buf [3]) 1
        = (NOT_A_DIRECTORY, FT_sample_file) :=
  FT_insert_below_file FT_sample_file 5 "/a/f/g/h" [['a'], ['f'], ['g'], ['h']] 2
    (VoidPtr.buf [3]) 1
    (FT_reachable.insertFile _ 1 "/a/f" (VoidPtr.buf [1, 2]) 2
      (FT_reachable.insertDir _ 1 "/a" (FT_reachable.init _ FT_reachable.start)))
    rfl (by decide) ⟨([['a'], ['f']], true, VoidPtr.buf [1, 2], 2), by decide, by decide⟩

/-! ## `FT_insertFile` -/

/-- The nodes of the chain that `FT_insertFile` creates: a directory for each
level but the last, then the file. -/
theorem Node_entries_chain_file (p : Path) (pvContents : VoidPtr) (ulLength k i : Nat)
    (q : Option Path) (hik : i + k = Path_getDepth p) :
    Node_entries (FT_chain p (Path_getDepth p) (some (pvContents, ulLength)) k i q) =
      (List.range' i k).map (fun j => (p.take j, false, VoidPtr.NULL, 0)) ++
        [(p, true, pvContents, ulLength)] := by
  rw [Node_entries_chain, List.range'_1_concat, List.map_append]
  congr 1
  · apply List.map_congr_left
    intro j hj
    rw [List.mem_range'_1] at hj
    simp only [FT_newKind]
    rw [if_neg (by omega)]
  · simp only [List.map_cons, List.map_nil, FT_newKind, hik, if_true]
    unfold Path_getDepth
    rw [List.take_length]

theorem FT_insertFile_rootless (s : FT) (mem : Nat) (pcPath : String) (p : Path)
    (pvContents : VoidPtr) (ulLength : Nat) (hinit : s.bIsInitialized = true)
    (hroot : s.oNRoot = none) (hp : Path_new pcPath = .ok p) :
    FT_insertFile s mem pcPath pvContents ulLength = (CONFLICTING_PATH, s) := by
  simp [FT_insertFile, hinit, hp, hroot]

theorem FT_getFileContents_of_at (s : FT) (pcPath : String) (p : Path) (root m : Node)
    (l : List Nat) (hp : Path_new pcPath = .ok p)
    (hroot : s.oNRoot = some root) (ht : FT_traversePath (some root) p = (SUCCESS, some l))
    (hm : Node_at root l = some m) (hpath : Node_getPath m = p) (hfile : Node_type m = true) :
    FT_getFileContents s pcPath = some (Node_data m) := by
  unfold FT_getFileContents
  simp only [hp, hroot, ht, ne_eq, not_true_eq_false, if_false]
  simp only [Node_deref, hm, hfile, Bool.true_eq_false, if_false]
  rw [if_neg]
  rw [hpath]
  simp [Path_comparePath_self]

theorem FT_stat_of_at (s : FT) (pcPath : String) (p : Path) (root m : Node)
    (l : List Nat) (bIsFile : Bool) (ulSize : Nat) (hinit : s.bIsInitialized = true)
    (hp : Path_new pcPath = .ok p)
    (hroot : s.oNRoot = some root) (ht : FT_traversePath (some root) p = (SUCCESS, some l))
    (hm : Node_at root l = some m) (hpath : Node_getPath m = p) :
    FT_stat s pcPath bIsFile ulSize =
      some (SUCCESS, Node_type m, if Node_type m = true then Node_len m else ulSize) := by
  unfold FT_stat
  simp only [hinit, hp, hroot, ht, Bool.not_true, Bool.false_eq_true, if_false, ne_eq,
    not_true_eq_false]
  simp only [Node_deref, hm]
  rw [if_neg]
  rw [hpath]
  simp [Path_comparePath_self]

/-- C13: in every state the program can reach, when `FT_insertFile` of a
well-formed path returns SUCCESS, the traversal had ended at a directory of
some depth `d` below the depth of the path; the call adds one directory for
each prefix of depth `d + 1 .. depth - 1` and the file for the path, and
nothing else, and raises the count by `depth - d`; afterwards the tree contains
the path as a file and not as a directory, contains every proper prefix as a
directory, `FT_getFileContents` gives the contents, and `FT_stat` reports a
file of the length given. -/
theorem FT_insertFile_creates (s : FT) (mem : Nat) (pcPath : String) (p : Path)
    (pvContents : VoidPtr) (ulLength : Nat) (hs : FT_reachable s)
    (hp : Path_new pcPath = .ok p)
    (h : (FT_insertFile s mem pcPath pvContents ulLength).1 = SUCCESS) :
    (∃ d l m, FT_traversePath s.oNRoot p = (SUCCESS, some l) ∧
      Node_deref s.oNRoot (some l) = some m ∧ Node_type m = false ∧
      Path_getDepth (Node_getPath m) = d ∧ d < Path_getDepth p ∧
      (FT_insertFile s mem pcPath pvContents ulLength).2.ulCount
        = s.ulCount + (Path_getDepth p - d) ∧
      (FT_entries (FT_insertFile s mem pcPath pvContents ulLength).2).Perm
        (FT_entries s ++ ((List.range' (d + 1) (Path_getDepth p - d - 1)).map
          (fun j => (p.take j, false, VoidPtr.NULL, 0)) ++ [(p, true, pvContents, ulLength)]))) ∧
    FT_containsFile (FT_insertFile s mem pcPath pvContents ulLength).2 pcPath = true ∧
    FT_containsDir (FT_insertFile s mem pcPath pvContents ulLength).2 pcPath = false ∧
    (∀ qc j, 1 ≤ j → j < Path_getDepth p → Path_new qc = .ok (p.take j) →
      FT_containsDir (FT_insertFile s mem pcPath pvContents ulLength).2 qc = true) ∧
    FT_getFileContents (FT_insertFile s mem pcPath pvContents ulLength).2 pcPath
      = some pvContents ∧
    ∀ bIsFile ulSize, FT_stat (FT_insertFile s mem pcPath pvContents ulLength).2 pcPath bIsFile
      ulSize = some (SUCCESS, true, ulLength) := by
  have hs1 := FT_reachable.insertFile s mem pcPath pvContents ulLength hs
  have hc := FT_insertFile_contains s mem pcPath pvContents ulLength h
  obtain ⟨hinit, p1, hp1, heq⟩ := FT_insertFile_success s mem pcPath pvContents ulLength h
  rw [hp] at hp1
  cases hp1
  have hd := Path_new_depth pcPath p hp
  have hinv1 := FT_reachable_Inv _ hs1
  have hleaf1 := FT_reachable_leafFiles _ hs1
  rw [heq] at h hinv1 hleaf1 hc ⊢
  obtain ⟨h0, root1, l1, leaf, hr1, ht1, hleaf, hpath1, hkind, hdata, hlen1, _⟩ :=
    FT_insert_body_found s mem p _ hd h
  simp only [FT_newKind, if_true] at hkind hdata hlen1
  have hinit1 : (FT_insert_body s mem p (some (pvContents, ulLength))).2.bIsInitialized = true := by
    rw [h0]; exact hinit
  obtain ⟨_, _, hwf1, _, hrlen1⟩ := FT_Inv_some _ root1 hinv1 hr1
  have hlf1 : Node_leafFiles root1 = true := by
    unfold FT_leafFiles at hleaf1
    rw [hr1] at hleaf1
    exact hleaf1
  refine ⟨?_, hc.1, hc.2, ?_, ?_, ?_⟩
  · cases hroot : s.oNRoot with
    | none =>
      have := (FT_insertFile_rootless s mem pcPath p pvContents ulLength hinit hroot hp)
      rw [heq] at this
      rw [this] at h
      cases h
    | some root =>
      rcases FT_insert_body_success s mem p _ h with
        ⟨hroot2, _⟩ | ⟨root2, l, m, hroot2, ht, htl, hm, hr, hdir, hpath, hlt, hnone, hmem⟩
      · rw [hroot] at hroot2
        cases hroot2
      · rw [hroot] at hroot2
        cases hroot2
        have hdm : Path_getDepth (Node_getPath m) = l.length + 1 := by
          rw [hpath]; exact Path_getDepth_take p _ (by omega)
        refine ⟨l.length + 1, l, m, ht, by simpa [Node_deref] using hm, hdir, hdm, hlt, ?_, ?_⟩
        · rw [FT_insert_body_under s mem p _ root m l hroot ht hm hdir hpath hlt hmem]
        · rw [FT_insert_body_under s mem p _ root m l hroot ht hm hdir hpath hlt hmem]
          simp only [FT_entries, hroot]
          apply Multiset.coe_eq_coe.mp
          have h1 := Node_entries_updateAt (fun x => Node_addChild x
              (FT_chain p (Path_getDepth p) (some (pvContents, ulLength))
                (Path_getDepth p - (l.length + 2)) (l.length + 2)
                (some (Node_getPath m))) (Node_hasChild m (p.take (l.length + 2))).2) root m l hm
          rw [Node_entries_addChild m _ _ (Node_hasChild_spec m _).1, ← add_assoc,
            add_right_comm] at h1
          have h2 := add_right_cancel h1
          rw [h2, Node_entries_chain_file p pvContents ulLength _ _ _ (by omega),
            Multiset.coe_add,
            show Path_getDepth p - (l.length + 1) - 1 = Path_getDepth p - (l.length + 2) by omega]
  · intro qc j hj1 hj2 hq
    obtain ⟨_, _, hdl⟩ := FT_traversePath_wf_find root1 leaf l1 hwf1 hrlen1 hleaf
    rw [hpath1] at hdl
    obtain ⟨mq, hmq, htq, hpq⟩ := Node_at_ancestor root1 leaf l1 (j - 1) hwf1 hlf1 hrlen1 hleaf
      (by omega)
    rw [hpath1, show j - 1 + 1 = j by omega] at hpq
    obtain ⟨htr, _⟩ := FT_traversePath_wf_find root1 mq _ hwf1 hrlen1 hmq
    rw [hpq] at htr
    have := (FT_contains_of_at _ qc (p.take j) root1 mq _ hinit1 hq hr1 htr hmq hpq).1
    rw [this, htq]
    rfl
  · rw [FT_getFileContents_of_at _ pcPath p root1 leaf l1 hp hr1 ht1 hleaf hpath1 hkind, hdata]
  · intro b n
    rw [FT_stat_of_at _ pcPath p root1 leaf l1 b n hinit1 hp hr1 ht1 hleaf hpath1, hkind, hlen1]
    rfl

theorem FT_insertFile_creates_witness :
    (∃ d l m, FT_traversePath FT_sample_dir.oNRoot [['a'], ['b'], ['f']] = (SUCCESS, some l) ∧
      Node_deref FT_sample_dir.oNRoot (some l) = some m ∧ Node_type m = false ∧
      Path_getDepth (Node_getPath m) = d ∧ d < Path_getDepth [['a'], ['b'], ['f']] ∧
      (FT_insertFile FT_sample_dir 2 "/a/b/f" (VoidPtr.buf [5]) 1).2.ulCount
        = FT_sample_dir.ulCount + (Path_getDepth [['a'], ['b'], ['f']] - d) ∧
      (FT_entries (FT_insertFile FT_sample_dir 2 "/a/b/f" (VoidPtr.buf [5]) 1).2).Perm
        (FT_entries FT_sample_dir ++
          ((List.range' (d + 1) (Path_getDepth [['a'], ['b'], ['f']] - d - 1)).map
            (fun j => (([['a'], ['b'], ['f']] : Path).take j, false, VoidPtr.NULL, 0)) ++
            [([['a'], ['b'], ['f']], true, VoidPtr.buf [5], 1)]))) ∧
    FT_containsFile (FT_insertFile FT_sample_dir 2 "/a/b/f" (VoidPtr.buf [5]) 1).2 "/a/b/f"
      = true ∧
    FT_containsDir (FT_insertFile FT_sample_dir 2 "/a/b/f" (VoidPtr.buf [5]) 1).2 "/a/b/f"
      = false ∧
    (∀ qc j, 1 ≤ j → j < Path_getDepth [['a'], ['b'], ['f']] →
      Path_new qc = .ok (([['a'], ['b'], ['f']] : Path).take j) →
      FT_containsDir (FT_insertFile FT_sample_dir 2 "/a/b/f" (VoidPtr.buf [5]) 1).2 qc = true) ∧
    FT_getFileContents (FT_insertFile FT_sample_dir 2 "/a/b/f" (VoidPtr.buf [5]) 1).2 "/a/b/f"
      = some (VoidPtr.buf [5]) ∧
    ∀ bIsFile ulSize, FT_stat (FT_insertFile FT_sample_dir 2 "/a/b/f" (VoidPtr.buf [5]) 1).2
      "/a/b/f" bIsFile ulSize = some (SUCCESS, true, 1) :=
  FT_insertFile_creates FT_sample_dir 2 "/a/b/f" [['a'], ['b'], ['f']] (VoidPtr.buf [5]) 1
    (FT_reachable.insertDir _ 1 "/a" (FT_reachable.init _ FT_reachable.start)) rfl (by decide)

/-! ## `FT_preOrderTraversal` and `FT_toString` -/

/-- The length that `FT_strlenAccumulate` counts over an array is the length
of the text that `FT_strcatAccumulate` writes over it, both on top of what
they start from. -/
theorem FT_strlenAccumulate_foldl (d : DynArray_T) (pcAcc : List Char) (ulAcc : Nat) :
    d.foldl (fun acc oNNode => FT_strlenAccumulate oNNode acc) (ulAcc + pcAcc.length) =
      ulAcc + (d.foldl (fun acc oNNode => FT_strcatAccumulate oNNode acc) pcAcc).length := by
  induction d generalizing pcAcc with
  | nil => rfl
  | cons x xs ih =>
    simp only [List.foldl_cons]
    rw [← ih]
    congr 1
    cases x with
    | none => rfl
    | some n =>
      simp only [FT_strlenAccumulate, FT_strcatAccumulate, List.length_append,
        List.length_singleton]
      omega

/-- C21: `CheckerDT_isValid` returns TRUE exactly when all of these hold:
without initialization the root is NULL and the count is 0; with
initialization and a NULL root the count is 0; with initialization and a root
the count is at least 1; `CheckerDT_treeCheck` returns TRUE from the root; and
the number of nodes below the root (0 for a NULL root) is the count. -/
theorem CheckerDT_isValid_iff (bIsInitialized : Bool) (oNRoot : Option Node) (ulCount : Nat) :
    CheckerDT_isValid bIsInitialized oNRoot ulCount = true ↔
      (bIsInitialized = false → oNRoot = none ∧ ulCount = 0) ∧
      (bIsInitialized = true → oNRoot = none → ulCount = 0) ∧
      (bIsInitialized = true → oNRoot ≠ none → 1 ≤ ulCount) ∧
      (CheckerDT_treeCheck oNRoot 0).1 = true ∧
      (match oNRoot with
        | none => 0
        | some root => Node_size root) = ulCount := by
  unfold CheckerDT_isValid
  cases oNRoot with
  | none =>
    cases bIsInitialized <;> simp [CheckerDT_treeCheck]
  | some root =>
    have hpos := Node_size_pos root
    have hcount := CheckerDT_treeCheck_node_count root 0
    simp only [CheckerDT_treeCheck]
    by_cases ht : (CheckerDT_treeCheck_node root 0).1 = true
    · have h2 := hcount ht
      cases bIsInitialized
      · simp [ht, h2]
      · simp [ht, h2]
        omega
    · cases bIsInitialized <;> simp [ht]

theorem CheckerDT_isValid_iff_witness :
    CheckerDT_isValid true FT_sample_file.oNRoot 2 = true :=
  (CheckerDT_isValid_iff true FT_sample_file.oNRoot 2).2
    ⟨fun h => (by cases h), fun _ h => (by cases h), fun _ _ => (by decide), (by decide),
      (by decide)⟩

/-- Each of the five conditions in turn is the only one that fails: the
verdict is FALSE. -/
theorem CheckerDT_isValid_samples :
    CheckerDT_isValid false none 1 = false ∧
      CheckerDT_isValid true none 1 = false ∧
      CheckerDT_isValid true FT_sample_file.oNRoot 0 = false ∧
      CheckerDT_isValid true
        (some (Node.mk [['a']] none false VoidPtr.NULL 0
          [Node.mk [['a'], ['c']] (some [['a']]) false VoidPtr.NULL 0 [],
            Node.mk [['a'], ['b']] (some [['a']]) false VoidPtr.NULL 0 []])) 3 = false ∧
      CheckerDT_isValid true FT_sample_file.oNRoot 3 = false := by
  decide

/-! ## The furthest node -/

/-- In a subtree that satisfies the invariant, the position of a node cut
after `k` steps is the position of a node whose path is the path of the node
cut after `k` components more than the top node has. -/
theorem Node_at_take_path (root m : Node) (l : List Nat) (k : Nat) (hwf : Node_wf root = true)
    (hm : Node_at root l = some m) :
    ∃ mq, Node_at root (l.take k) = some mq ∧
      Node_getPath mq = (Node_getPath m).take ((Node_getPath root).length + min k l.length) := by
  have hsplit : l = l.take k ++ l.drop k := (List.take_append_drop k l).symm
  rw [hsplit, Node_at_append] at hm
  cases hq : Node_at root (l.take k) with
  | none => simp [hq] at hm
  | some mq =>
    simp only [hq, Option.some_bind] at hm
    refine ⟨mq, rfl, ?_⟩
    obtain ⟨suf, h1, h2⟩ := Node_wf_path_at root mq _ hwf hq
    obtain ⟨suf2, h3, _⟩ := Node_wf_path_at mq m _ (Node_wf_at root mq _ hwf hq) hm
    have h4 : (Node_getPath mq).length = (Node_getPath root).length + min k l.length := by
      rw [h1, List.length_append, h2, List.length_take]
    rw [h3, ← h4]
    simp

/-- C22: in a state that satisfies the invariant and for a well-formed path,
`FT_traversePath` returns SUCCESS and NULL when the root is NULL, and
CONFLICTING_PATH and NULL when the path of the root is not the prefix of depth
1; otherwise it returns SUCCESS and a node whose path is the prefix of some
depth `k`, where the tree has a node for the prefix of depth `j` exactly when
`j` is at most `k`. And `FT_findNode` returns SUCCESS exactly when a node of the
tree has the path. -/
theorem FT_traversePath_furthest (s : FT) (pcPath : String) (p : Path) (hinv : FT_Inv s)
    (hp : Path_new pcPath = .ok p) :
    (s.oNRoot = none → FT_traversePath s.oNRoot p = (SUCCESS, none)) ∧
    (∀ root, s.oNRoot = some root → Node_getPath root ≠ p.take 1 →
      FT_traversePath s.oNRoot p = (CONFLICTING_PATH, none)) ∧
    (∀ root, s.oNRoot = some root → Node_getPath root = p.take 1 →
      ∃ l m, FT_traversePath s.oNRoot p = (SUCCESS, some l) ∧
        Node_deref s.oNRoot (some l) = some m ∧ l.length + 1 ≤ Path_getDepth p ∧
        Node_getPath m = p.take (l.length + 1) ∧
        ∀ j, 1 ≤ j → j ≤ Path_getDepth p →
          ((∃ e ∈ FT_entries s, e.1 = p.take j) ↔ j ≤ l.length + 1)) ∧
    ((FT_findNode s pcPath).1 = SUCCESS ↔ ∃ e ∈ FT_entries s, e.1 = p) := by
  have hd := Path_new_depth pcPath p hp
  refine ⟨?_, ?_, ?_, ?_⟩
  · intro hroot
    rw [hroot]
    rfl
  · intro root hroot hne
    rw [hroot]
    unfold FT_traversePath
    rw [Path_prefix_ok p 1 (le_refl 1) hd]
    simp only
    rw [if_pos]
    rw [ne_eq, Path_comparePath_eq_zero]
    exact hne
  · intro root hroot hr
    obtain ⟨_, _, hwf, _, hlen⟩ := FT_Inv_some s root hinv hroot
    obtain ⟨l, m, ht, htl, hm, hle, hpath, _⟩ := FT_traversePath_under root p hd hr
    refine ⟨l, m, by rw [hroot]; exact ht, by rw [hroot]; simpa [Node_deref] using hm, hle,
      hpath, ?_⟩
    intro j hj1 hj2
    simp only [FT_entries, hroot]
    constructor
    · rintro ⟨e, he, hej⟩
      obtain ⟨l1, m1, hm1, rfl⟩ := Node_entries_mem_at root e he
      simp only at hej
      obtain ⟨suf, h1, h2⟩ := Node_wf_path_at root m1 l1 hwf hm1
      have hjl : j = l1.length + 1 := by
        have := congrArg List.length h1
        rw [hej, List.length_append, hlen, h2, List.length_take] at this
        unfold Path_getDepth at hj2
        omega
      obtain ⟨rest, hrest⟩ := FT_traversePath_loop_complete p l1 (Path_getDepth p - 1) 1 root m1
        [] hwf (le_refl 1) (by omega) hr hm1 (by rw [hej]; congr 1; omega) (by omega)
      have hl : l = l1 ++ rest := by
        change FT_traversePath_loop p (List.range' 2 _) root [] = _ at hrest
        rw [htl] at hrest
        simpa using hrest
      rw [hl, List.length_append]
      omega
    · intro hjk
      obtain ⟨mq, hmq, hpq⟩ := Node_at_take_path root m l (j - 1) hwf hm
      refine ⟨_, Node_at_mem_entries root mq _ hmq, ?_⟩
      simp only
      rw [hpq, hpath, hlen, List.take_take]
      congr 1
      omega
  · constructor
    · intro h
      obtain ⟨p1, root, l, m, _, h2, h3, _, _, h6, h7, _⟩ := FT_findNode_success s pcPath h
      rw [hp] at h2
      cases h2
      refine ⟨(Node_getPath m, Node_type m, Node_data m, Node_len m), ?_, h7⟩
      unfold FT_entries
      rw [h3]
      exact Node_at_mem_entries root m l h6
    · rintro ⟨e, he, hep⟩
      unfold FT_entries at he
      cases hroot : s.oNRoot with
      | none => simp [hroot] at he
      | some root =>
        simp only [hroot] at he
        obtain ⟨l, m, hm, rfl⟩ := Node_entries_mem_at root e he
        simp only at hep
        obtain ⟨hinit, _, hwf, _, hlen⟩ := FT_Inv_some s root hinv hroot
        obtain ⟨ht, _⟩ := FT_traversePath_wf_find root m l hwf hlen hm
        rw [hep] at ht
        rw [FT_findNode_of_at s pcPath p root m l hinit hp hroot ht hm hep]

theorem FT_traversePath_furthest_witness :
    (FT_sample_tree.oNRoot = none → FT_traversePath FT_sample_tree.oNRoot
        [['a'], ['b'], ['x'], ['y']] = (SUCCESS, none)) ∧
    (∀ root, FT_sample_tree.oNRoot = some root →
      Node_getPath root ≠ ([['a'], ['b'], ['x'], ['y']] : Path).take 1 →
      FT_traversePath FT_sample_tree.oNRoot [['a'], ['b'], ['x'], ['y']]
        = (CONFLICTING_PATH, none)) ∧
    (∀ root, FT_sample_tree.oNRoot = some root →
      Node_getPath root = ([['a'], ['b'], ['x'], ['y']] : Path).take 1 →
      ∃ l m, FT_traversePath FT_sample_tree.oNRoot [['a'], ['b'], ['x'], ['y']]
          = (SUCCESS, some l) ∧
        Node_deref FT_sample_tree.oNRoot (some l) = some m ∧
        l.length + 1 ≤ Path_getDepth [['a'], ['b'], ['x'], ['y']] ∧
        Node_getPath m = ([['a'], ['b'], ['x'], ['y']] : Path).take (l.length + 1) ∧
        ∀ j, 1 ≤ j → j ≤ Path_getDepth [['a'], ['b'], ['x'], ['y']] →
          ((∃ e ∈ FT_entries FT_sample_tree,
            e.1 = ([['a'], ['b'], ['x'], ['y']] : Path).take j) ↔ j ≤ l.length + 1)) ∧
    ((FT_findNode FT_sample_tree "/a/b/x/y").1 = SUCCESS ↔
      ∃ e ∈ FT_entries FT_sample_tree, e.1 = [['a'], ['b'], ['x'], ['y']]) :=
  FT_traversePath_furthest FT_sample_tree "/a/b/x/y" [['a'], ['b'], ['x'], ['y']]
    (FT_reachable_Inv _ (FT_reachable.insertDir _ 2 "/a/b/c"
      (FT_reachable.insertFile _ 1 "/a/f" (VoidPtr.buf [1, 2]) 2
        (FT_reachable.insertDir _ 1 "/a" (FT_reachable.init _ FT_reachable.start)))))
    rfl

/-! ## The nodes of the tree after an insertion -/

theorem Node_entries_chain_starts (p : Path) (D : Nat) (oFile : Option (VoidPtr × Nat))
    (k i : Nat) (q : Option Path) (e : Path × Bool × VoidPtr × Nat)
    (he : e ∈ Node_entries (FT_chain p D oFile k i q)) : e.1 <+: p := by
  rw [Node_entries_chain, List.mem_map] at he
  obtain ⟨j, _, rfl⟩ := he
  exact List.take_prefix j p

/-- A successful insertion keeps every node of the tree, and every node it
adds has a prefix of the path as its path. -/
theorem FT_insert_body_entries (s : FT) (mem : Nat) (p : Path) (oFile : Option (VoidPtr × Nat))
    (hd : 1 ≤ Path_getDepth p) (h : (FT_insert_body s mem p oFile).1 = SUCCESS) :
    (∀ e ∈ FT_entries s, e ∈ FT_entries (FT_insert_body s mem p oFile).2) ∧
    (∀ e ∈ FT_entries (FT_insert_body s mem p oFile).2, e ∈ FT_entries s ∨ e.1 <+: p) := by
  rcases FT_insert_body_success s mem p oFile h with
    ⟨hroot, hmem⟩ | ⟨root, l, m, hroot, ht, htl, hm, hr, hdir, hpath, hlt, hnone, hmem⟩
  · rw [FT_insert_body_root s mem p oFile hroot hd hmem]
    constructor
    · intro e he
      simp [FT_entries, hroot] at he
    · intro e he
      right
      simp only [FT_entries] at he
      exact Node_entries_chain_starts p _ oFile _ _ _ e he
  · rw [FT_insert_body_under s mem p oFile root m l hroot ht hm hdir hpath hlt hmem]
    simp only [FT_entries, hroot]
    have h1 := Node_entries_updateAt (fun x => Node_addChild x
        (FT_chain p (Path_getDepth p) oFile (Path_getDepth p - (l.length + 2)) (l.length + 2)
          (some (Node_getPath m))) (Node_hasChild m (p.take (l.length + 2))).2) root m l hm
    rw [Node_entries_addChild m _ _ (Node_hasChild_spec m _).1, ← add_assoc,
      add_right_comm] at h1
    have h2 := add_right_cancel h1
    have h3 : ∀ e, e ∈ Node_entries (Node_updateAt (fun x => Node_addChild x
        (FT_chain p (Path_getDepth p) oFile (Path_getDepth p - (l.length + 2)) (l.length + 2)
          (some (Node_getPath m))) (Node_hasChild m (p.take (l.length + 2))).2) root l) ↔
        e ∈ Node_entries root ∨ e ∈ Node_entries (FT_chain p (Path_getDepth p) oFile
          (Path_getDepth p - (l.length + 2)) (l.length + 2) (some (Node_getPath m))) := by
      intro e
      rw [← Multiset.mem_coe, h2, Multiset.mem_add, Multiset.mem_coe, Multiset.mem_coe]
    constructor
    · intro e he
      exact (h3 e).2 (Or.inl he)
    · intro e he
      rcases (h3 e).1 he with he | he
      · exact Or.inl he
      · exact Or.inr (Node_entries_chain_starts p _ oFile _ _ _ e he)

/-! ## Lookups by the nodes of the tree -/

/-- In a tree that satisfies the invariant two nodes with the same path are
the same node. -/
theorem Node_wf_entry_unique (root : Node) (hwf : Node_wf root = true)
    (hlen : (Node_getPath root).length = 1) (e e1 : Path × Bool × VoidPtr × Nat)
    (he : e ∈ Node_entries root) (he1 : e1 ∈ Node_entries root) (hp : e.1 = e1.1) : e = e1 := by
  obtain ⟨l, m, hm, rfl⟩ := Node_entries_mem_at root e he
  obtain ⟨l1, m1, hm1, rfl⟩ := Node_entries_mem_at root e1 he1
  simp only at hp
  obtain ⟨ht, _⟩ := FT_traversePath_wf_find root m l hwf hlen hm
  obtain ⟨ht1, _⟩ := FT_traversePath_wf_find root m1 l1 hwf hlen hm1
  rw [hp, ht1] at ht
  simp only [Prod.mk.injEq, Option.some.injEq, true_and] at ht
  subst ht
  rw [hm] at hm1
  cases hm1
  rfl

/-- Two states that satisfy the invariant and have the same nodes with a
path contain the path in the same way. -/
theorem FT_contains_congr (s s1 : FT) (hinv : FT_Inv s) (hinv1 : FT_Inv s1) (qcPath : String)
    (q : Path) (hq : Path_new qcPath = .ok q)
    (h : ∀ e, e.1 = q → (e ∈ FT_entries s1 ↔ e ∈ FT_entries s)) :
    FT_containsDir s1 qcPath = FT_containsDir s qcPath ∧
      FT_containsFile s1 qcPath = FT_containsFile s qcPath := by
  obtain ⟨h1, h2⟩ := FT_contains_iff_entry s hinv qcPath q hq
  obtain ⟨h3, h4⟩ := FT_contains_iff_entry s1 hinv1 qcPath q hq
  constructor
  · rw [Bool.eq_iff_iff, h1, h3]
    constructor
    · rintro ⟨e, he, h5, h6⟩
      exact ⟨e, (h e h5).1 he, h5, h6⟩
    · rintro ⟨e, he, h5, h6⟩
      exact ⟨e, (h e h5).2 he, h5, h6⟩
  · rw [Bool.eq_iff_iff, h2, h4]
    constructor
    · rintro ⟨e, he, h5, h6⟩
      exact ⟨e, (h e h5).1 he, h5, h6⟩
    · rintro ⟨e, he, h5, h6⟩
      exact ⟨e, (h e h5).2 he, h5, h6⟩

/-- A state that satisfies the invariant and has no node with a path does
not contain the path. -/
theorem FT_contains_false (s : FT) (hinv : FT_Inv s) (qcPath : String) (q : Path)
    (hq : Path_new qcPath = .ok q) (h : ∀ e ∈ FT_entries s, e.1 ≠ q) :
    FT_containsDir s qcPath = false ∧ FT_containsFile s qcPath = false := by
  obtain ⟨h1, h2⟩ := FT_contains_iff_entry s hinv qcPath q hq
  constructor
  · rw [← Bool.not_eq_true, h1]
    rintro ⟨e, he, h5, _⟩
    exact h e he h5
  · rw [← Bool.not_eq_true, h2]
    rintro ⟨e, he, h5, _⟩
    exact h e he h5

/-- In a state that satisfies the invariant and has a root,
`FT_getFileContents` returns the contents of the file with the path when the
tree has one and NULL when it has none. -/
theorem FT_getFileContents_wf (s : FT) (hinv : FT_Inv s) (root : Node)
    (hroot : s.oNRoot = some root) (qcPath : String) (q : Path) (hq : Path_new qcPath = .ok q) :
    (∀ e ∈ FT_entries s, e.1 = q → e.2.1 = true → FT_getFileContents s qcPath = some e.2.2.1) ∧
    ((∀ e ∈ FT_entries s, e.1 = q → e.2.1 = false) →
      FT_getFileContents s qcPath = some VoidPtr.NULL) := by
  obtain ⟨hinit, _, hwf, _, hlen⟩ := FT_Inv_some s root hinv hroot
  constructor
  · intro e he hep het
    simp only [FT_entries, hroot] at he
    obtain ⟨l, m, hm, rfl⟩ := Node_entries_mem_at root e he
    simp only at hep het ⊢
    obtain ⟨ht, _⟩ := FT_traversePath_wf_find root m l hwf hlen hm
    rw [hep] at ht
    exact FT_getFileContents_of_at s qcPath q root m l hq hroot ht hm hep het
  · intro hno
    unfold FT_getFileContents
    simp only [hq, hroot]
    rcases FT_traversePath_some root q with ⟨h1, _⟩ | ⟨l, m, ht, _, hm, _, _, _, _⟩
    · rw [if_pos h1]
    · rw [ht]
      simp only [ne_eq, not_true_eq_false, if_false, Node_deref, hm]
      by_cases hty : Node_type m = false
      · rw [if_pos hty]
      · rw [if_neg hty]
        by_cases hpm : Path_comparePath (Node_getPath m) q = 0
        · exfalso
          have h2 := hno (Node_getPath m, Node_type m, Node_data m, Node_len m)
            (by simp only [FT_entries, hroot]; exact Node_at_mem_entries root m l hm)
            (Path_comparePath_eq_zero.1 hpm)
          exact hty h2
        · rw [if_pos hpm]

/-- Two states that satisfy the invariant, have a root and have the same
nodes with a path give the same `FT_getFileContents` for the path. -/
theorem FT_getFileContents_congr (s s1 : FT) (hinv : FT_Inv s) (hinv1 : FT_Inv s1)
    (root root1 : Node) (hroot : s.oNRoot = some root) (hroot1 : s1.oNRoot = some root1)
    (qcPath : String) (q : Path) (hq : Path_new qcPath = .ok q)
    (h : ∀ e, e.1 = q → (e ∈ FT_entries s1 ↔ e ∈ FT_entries s)) :
    FT_getFileContents s1 qcPath = FT_getFileContents s qcPath := by
  obtain ⟨h1, h2⟩ := FT_getFileContents_wf s hinv root hroot qcPath q hq
  obtain ⟨h3, h4⟩ := FT_getFileContents_wf s1 hinv1 root1 hroot1 qcPath q hq
  by_cases hex : ∃ e ∈ FT_entries s, e.1 = q ∧ e.2.1 = true
  · obtain ⟨e, he, hep, het⟩ := hex
    rw [h1 e he hep het, h3 e ((h e hep).2 he) hep het]
  · have hno : ∀ e ∈ FT_entries s, e.1 = q → e.2.1 = false := by
      intro e he hep
      cases het : e.2.1
      · rfl
      · exact absurd ⟨e, he, hep, het⟩ hex
    rw [h2 hno, h4 (fun e he hep => hno e ((h e hep).1 he) hep)]

/-! ## The nodes of the tree after a removal -/

theorem Node_wf_child_ne (n c c1 : Node) (i j : Nat) (hwf : Node_wf n = true)
    (hc : (Node_children n)[i]? = some c) (hc1 : (Node_children n)[j]? = some c1)
    (hij : i ≠ j) : Node_getPath c ≠ Node_getPath c1 := by
  obtain ⟨hpw, _⟩ := (Node_wf_iff n).1 hwf
  obtain ⟨hi1, hi2⟩ := List.getElem?_eq_some_iff.1 hc
  obtain ⟨hj1, hj2⟩ := List.getElem?_eq_some_iff.1 hc1
  intro heq
  rcases Nat.lt_or_gt_of_ne hij with h | h
  · have := List.pairwise_iff_getElem.1 hpw i j hi1 hj1 h
    rw [hi2, hj2, heq, Path_comparePath_self] at this
    exact absurd this (by decide)
  · have := List.pairwise_iff_getElem.1 hpw j i hj1 hi1 h
    rw [hi2, hj2, heq, Path_comparePath_self] at this
    exact absurd this (by decide)

/-- In a subtree that satisfies the invariant the path of every node starts
with the path of the top node. -/
theorem Node_entries_starts (n : Node) (hwf : Node_wf n = true)
    (e : Path × Bool × VoidPtr × Nat) (he : e ∈ Node_entries n) : Node_getPath n <+: e.1 := by
  obtain ⟨l, m, hm, rfl⟩ := Node_entries_mem_at n e he
  obtain ⟨suf, h1, _⟩ := Node_wf_path_at n m l hwf hm
  exact ⟨suf, h1.symm⟩

theorem Node_wf_child_length (n c : Node) (hwf : Node_wf n = true) (hc : c ∈ Node_children n) :
    (Node_getPath c).length = (Node_getPath n).length + 1 := by
  obtain ⟨_, h2⟩ := (Node_wf_iff n).1 hwf
  obtain ⟨_, h3, h4, _⟩ := h2 c hc
  have := congrArg List.length (List.dropLast_append_getLast h3)
  rw [h4] at this
  simp only [List.length_append, List.length_singleton] at this
  exact this.symm

theorem List_prefix_eq_of_length {α : Type} (a b x : List α) (ha : a <+: x) (hb : b <+: x)
    (hl : a.length = b.length) : a = b :=
  (List.prefix_of_prefix_length_le ha hb (le_of_eq hl)).eq_of_length hl

theorem Node_eraseAt_eq_none (n : Node) (l : List Nat) (h : Node_eraseAt n l = none) :
    l = [] := by
  by_contra hl
  obtain ⟨n1, h1, _⟩ := Node_eraseAt_ne_nil n l hl
  rw [h] at h1
  cases h1

/-- After a subtree has been unlinked from a tree that satisfies the
invariant, no node of the tree has a path that starts with the path of the top
node of the subtree. -/
theorem Node_eraseAt_gone (n n1 m : Node) (l : List Nat) (hwf : Node_wf n = true)
    (hm : Node_at n l = some m) (he : Node_eraseAt n l = some n1) :
    ∀ e ∈ Node_entries n1, ¬ Node_getPath m <+: e.1 := by
  induction l generalizing n n1 with
  | nil => simp [Node_eraseAt] at he
  | cons i r ih =>
    rw [Node_at_cons] at hm
    cases hc : (Node_children n)[i]? with
    | none => simp [hc] at hm
    | some c =>
      simp only [hc, Option.some_bind] at hm
      have hcmem : c ∈ Node_children n := List.mem_iff_getElem?.2 ⟨i, hc⟩
      obtain ⟨_, hall⟩ := (Node_wf_iff n).1 hwf
      have hwfc := (hall c hcmem).2.2.2
      obtain ⟨suf, hsuf, _⟩ := Node_wf_path_at c m r hwfc hm
      have hclen := Node_wf_child_length n c hwf hcmem
      have hother : ∀ (j : Nat) (c1 : Node), j ≠ i → (Node_children n)[j]? = some c1 →
          ∀ e ∈ Node_entries c1, ¬ Node_getPath m <+: e.1 := by
        intro j c1 hj hc1 e hec1 hpre
        have hc1mem : c1 ∈ Node_children n := List.mem_iff_getElem?.2 ⟨j, hc1⟩
        have h1 := Node_entries_starts c1 (hall c1 hc1mem).2.2.2 e hec1
        have h2 : Node_getPath c <+: e.1 := List.IsPrefix.trans ⟨suf, hsuf.symm⟩ hpre
        have h3 := List_prefix_eq_of_length _ _ _ h2 h1
          (by rw [hclen, Node_wf_child_length n c1 hwf hc1mem])
        exact Node_wf_child_ne n c c1 i j hwf hc hc1 (Ne.symm hj) h3
      have htop : ¬ Node_getPath m <+: Node_getPath n := by
        intro hpre
        have := hpre.length_le
        rw [hsuf, List.length_append, hclen] at this
        omega
      rw [Node_eraseAt_cons n c i r hc] at he
      simp only [Option.some.injEq] at he
      intro e hen1
      cases hec : Node_eraseAt c r with
      | none =>
        rw [hec] at he
        simp only at he
        subst he
        rw [Node_entries_setChildren, List.mem_cons] at hen1
        rcases hen1 with rfl | hen1
        · exact htop
        · rw [Node_mem_entriesList] at hen1
          obtain ⟨c1, hc1, hec1⟩ := hen1
          obtain ⟨j, hj⟩ := List.mem_iff_getElem?.1 hc1
          rw [List.getElem?_eraseIdx] at hj
          split_ifs at hj with hlt
          · exact hother j c1 (by omega) hj e hec1
          · exact hother (j + 1) c1 (by omega) hj e hec1
      | some c2 =>
        rw [hec] at he
        simp only at he
        subst he
        rw [Node_entries_setChildren, List.mem_cons] at hen1
        rcases hen1 with rfl | hen1
        · exact htop
        · rw [Node_mem_entriesList] at hen1
          obtain ⟨c1, hc1, hec1⟩ := hen1
          obtain ⟨j, hj⟩ := List.mem_iff_getElem?.1 hc1
          by_cases hji : j = i
          · subst hji
            have hlt := getElem?_lt_of_eq_some hc
            rw [List.getElem?_set_self hlt] at hj
            simp only [Option.some.injEq] at hj
            subst hj
            exact ih c c2 hwfc hm hec e hec1
          · rw [List.getElem?_set_ne (fun h => hji h.symm)] at hj
            exact hother j c1 hji hj e hec1

/-- The nodes of the tree after `FT_rmDir` or `FT_rmFile` has freed the node
found: the nodes it had before whose path does not start with the path of
that node. -/
theorem FT_rm_free_entries (s : FT) (root m : Node) (l : List Nat) (hinv : FT_Inv s)
    (hroot : s.oNRoot = some root) (hm : Node_at root l = some m)
    (e : Path × Bool × VoidPtr × Nat) :
    e ∈ FT_entries (FT_rm_free s (some l)) ↔ e ∈ FT_entries s ∧ ¬ Node_getPath m <+: e.1 := by
  obtain ⟨_, hc, hwf, _, _⟩ := FT_Inv_some s root hinv hroot
  obtain ⟨hnil, hcons⟩ := FT_rm_free_spec s root m l hroot hm hc
  have hsub : ∀ x ∈ Node_entries m, Node_getPath m <+: x.1 :=
    fun x hx => Node_entries_starts m (Node_wf_at root m l hwf hm) x hx
  by_cases hl : l = []
  · rw [hnil hl]
    subst hl
    simp only [Node_at, Option.some.injEq] at hm
    subst hm
    simp only [FT_entries, hroot, List.not_mem_nil, false_iff, not_and, not_not]
    exact hsub e
  · obtain ⟨n1, he, _, _, _, _, hfree⟩ := hcons hl
    rw [hfree]
    simp only [FT_entries, hroot]
    have hms := Node_entries_eraseAt root m l hm
    rw [he] at hms
    simp only at hms
    have hmem : e ∈ Node_entries root ↔ e ∈ Node_entries n1 ∨ e ∈ Node_entries m := by
      rw [← Multiset.mem_coe, ← hms, Multiset.mem_add, Multiset.mem_coe, Multiset.mem_coe]
    constructor
    · intro h
      exact ⟨hmem.2 (Or.inl h), Node_eraseAt_gone root n1 m l hwf hm he e h⟩
    · rintro ⟨h1, h2⟩
      rcases hmem.1 h1 with h | h
      · exact h
      · exact absurd (hsub e h) h2

/-! ## The frame of an insertion and of a removal -/

theorem FT_getFileContents_no_root (s : FT) (qcPath : String) (q : Path)
    (hroot : s.oNRoot = none) (hq : Path_new qcPath = .ok q) :
    FT_getFileContents s qcPath = none := by
  unfold FT_getFileContents
  simp [hq, hroot, FT_traversePath, Node_deref]

/-- A successful insertion changes no lookup of a path that is not a prefix
of the path inserted, except that `FT_getFileContents`, which has no defined
outcome on a tree without a root, returns NULL once the tree has one. -/
theorem FT_insert_body_frame (s : FT) (mem : Nat) (p : Path) (oFile : Option (VoidPtr × Nat))
    (qcPath : String) (q : Path) (hinv : FT_Inv s) (hinit : s.bIsInitialized = true)
    (hd : 1 ≤ Path_getDepth p) (h : (FT_insert_body s mem p oFile).1 = SUCCESS)
    (hq : Path_new qcPath = .ok q) (hnp : ¬ q <+: p) :
    FT_containsDir (FT_insert_body s mem p oFile).2 qcPath = FT_containsDir s qcPath ∧
    FT_containsFile (FT_insert_body s mem p oFile).2 qcPath = FT_containsFile s qcPath ∧
    (s.oNRoot ≠ none →
      FT_getFileContents (FT_insert_body s mem p oFile).2 qcPath = FT_getFileContents s qcPath) ∧
    (s.oNRoot = none → FT_getFileContents s qcPath = none ∧
      FT_getFileContents (FT_insert_body s mem p oFile).2 qcPath = some VoidPtr.NULL) := by
  have hinv1 := FT_Inv_insert_body s mem p oFile hinv hinit hd
  obtain ⟨hkeep, hnew⟩ := FT_insert_body_entries s mem p oFile hd h
  obtain ⟨_, root1, _, _, hroot1, _⟩ := FT_insert_body_found s mem p oFile hd h
  have hiff : ∀ e, e.1 = q →
      (e ∈ FT_entries (FT_insert_body s mem p oFile).2 ↔ e ∈ FT_entries s) := by
    intro e heq
    constructor
    · intro he
      rcases hnew e he with h1 | h1
      · exact h1
      · rw [heq] at h1
        exact absurd h1 hnp
    · exact hkeep e
  obtain ⟨h1, h2⟩ := FT_contains_congr s _ hinv hinv1 qcPath q hq hiff
  refine ⟨h1, h2, ?_, ?_⟩
  · intro hne
    cases hroot : s.oNRoot with
    | none => exact absurd hroot hne
    | some root =>
      exact FT_getFileContents_congr s _ hinv hinv1 root root1 hroot hroot1 qcPath q hq hiff
  · intro hroot
    refine ⟨FT_getFileContents_no_root s qcPath q hroot hq, ?_⟩
    apply (FT_getFileContents_wf _ hinv1 root1 hroot1 qcPath q hq).2
    intro e he heq
    have := (hiff e heq).1 he
    simp [FT_entries, hroot] at this

/-- After the node found has been freed, the tree contains no path that
starts with the path of that node, and contains every other path as
before. -/
theorem FT_rm_free_frame (s : FT) (root m : Node) (l : List Nat) (qcPath : String) (q : Path)
    (hinv : FT_Inv s) (hroot : s.oNRoot = some root) (hm : Node_at root l = some m)
    (hq : Path_new qcPath = .ok q) :
    (Node_getPath m <+: q →
      FT_containsDir (FT_rm_free s (some l)) qcPath = false ∧
      FT_containsFile (FT_rm_free s (some l)) qcPath = false) ∧
    (¬ Node_getPath m <+: q →
      FT_containsDir (FT_rm_free s (some l)) qcPath = FT_containsDir s qcPath ∧
      FT_containsFile (FT_rm_free s (some l)) qcPath = FT_containsFile s qcPath) := by
  have hinv1 := FT_Inv_rm_free s root m l hinv hroot hm
  constructor
  · intro hpre
    apply FT_contains_false _ hinv1 qcPath q hq
    intro e he heq
    rw [FT_rm_free_entries s root m l hinv hroot hm] at he
    rw [heq] at he
    exact he.2 hpre
  · intro hpre
    apply FT_contains_congr s _ hinv hinv1 qcPath q hq
    intro e heq
    rw [FT_rm_free_entries s root m l hinv hroot hm, heq]
    exact ⟨fun h => h.1, fun h => ⟨h, hpre⟩⟩

theorem FT_rmDir_success (s : FT) (pcPath : String) (h : (FT_rmDir s pcPath).1 = SUCCESS) :
    ∃ p root l m, Path_new pcPath = .ok p ∧ s.oNRoot = some root ∧ Node_at root l = some m ∧
      Node_getPath m = p ∧ (FT_rmDir s pcPath).2 = FT_rm_free s (some l) := by
  unfold FT_rmDir at h ⊢
  simp only at h ⊢
  by_cases hs : (FT_findNode s pcPath).1 = SUCCESS
  · obtain ⟨p, root, l, m, _, hp, hroot, _, _, hm, hpath, _, hfind⟩ :=
      FT_findNode_success s pcPath hs
    refine ⟨p, root, l, m, hp, hroot, hm, hpath, ?_⟩
    simp only [hfind, hroot, Node_deref, hm, ne_eq, not_true_eq_false, if_false] at h ⊢
    by_cases ht : Node_type m = true
    · simp [ht] at h
    · simp [ht]
  · rw [if_pos hs] at h
    exact absurd h hs

theorem FT_rmFile_success (s : FT) (pcPath : String) (h : (FT_rmFile s pcPath).1 = SUCCESS) :
    ∃ p root l m, Path_new pcPath = .ok p ∧ s.oNRoot = some root ∧ Node_at root l = some m ∧
      Node_getPath m = p ∧ (FT_rmFile s pcPath).2 = FT_rm_free s (some l) := by
  unfold FT_rmFile at h ⊢
  simp only at h ⊢
  by_cases hs : (FT_findNode s pcPath).1 = SUCCESS
  · obtain ⟨p, root, l, m, _, hp, hroot, _, _, hm, hpath, _, hfind⟩ :=
      FT_findNode_success s pcPath hs
    refine ⟨p, root, l, m, hp, hroot, hm, hpath, ?_⟩
    simp only [hfind, hroot, Node_deref, hm, ne_eq, not_true_eq_false, if_false] at h ⊢
    by_cases ht : Node_type m = false
    · simp [ht] at h
    · simp [ht]
  · rw [if_pos hs] at h
    exact absurd h hs

/-- C23, as the code behaves: in a state that satisfies the invariant, after a
successful `FT_insertDir` or `FT_insertFile` of a path, `FT_containsDir` and
`FT_containsFile` are as before for every well-formed path that is not a prefix
of it, and so is `FT_getFileContents` when the tree had a root; on a tree
without a root `FT_getFileContents` had no defined outcome before
`FT_insertDir` and returns NULL after it. After a successful `FT_rmDir` or
`FT_rmFile` of a path, `FT_containsDir` and `FT_containsFile` are FALSE for
every well-formed path that starts with it and as before for every other. -/
theorem FT_mutation_frame (s : FT) (mem : Nat) (pcPath qcPath : String) (p q : Path)
    (pvContents : VoidPtr) (ulLength : Nat) (hinv : FT_Inv s) (hp : Path_new pcPath = .ok p)
    (hq : Path_new qcPath = .ok q) :
    ((FT_insertDir s mem pcPath).1 = SUCCESS → ¬ q <+: p →
      FT_containsDir (FT_insertDir s mem pcPath).2 qcPath = FT_containsDir s qcPath ∧
      FT_containsFile (FT_insertDir s mem pcPath).2 qcPath = FT_containsFile s qcPath ∧
      (s.oNRoot ≠ none →
        FT_getFileContents (FT_insertDir s mem pcPath).2 qcPath = FT_getFileContents s qcPath) ∧
      (s.oNRoot = none → FT_getFileContents s qcPath = none ∧
        FT_getFileContents (FT_insertDir s mem pcPath).2 qcPath = some VoidPtr.NULL)) ∧
    ((FT_insertFile s mem pcPath pvContents ulLength).1 = SUCCESS → ¬ q <+: p →
      FT_containsDir (FT_insertFile s mem pcPath pvContents ulLength).2 qcPath
        = FT_containsDir s qcPath ∧
      FT_containsFile (FT_insertFile s mem pcPath pvContents ulLength).2 qcPath
        = FT_containsFile s qcPath ∧
      FT_getFileContents (FT_insertFile s mem pcPath pvContents ulLength).2 qcPath
        = FT_getFileContents s qcPath) ∧
    ((FT_rmDir s pcPath).1 = SUCCESS →
      (p <+: q → FT_containsDir (FT_rmDir s pcPath).2 qcPath = false ∧
        FT_containsFile (FT_rmDir s pcPath).2 qcPath = false) ∧
      (¬ p <+: q → FT_containsDir (FT_rmDir s pcPath).2 qcPath = FT_containsDir s qcPath ∧
        FT_containsFile (FT_rmDir s pcPath).2 qcPath = FT_containsFile s qcPath)) ∧
    ((FT_rmFile s pcPath).1 = SUCCESS →
      (p <+: q → FT_containsDir (FT_rmFile s pcPath).2 qcPath = false ∧
        FT_containsFile (FT_rmFile s pcPath).2 qcPath = false) ∧
      (¬ p <+: q → FT_containsDir (FT_rmFile s pcPath).2 qcPath = FT_containsDir s qcPath ∧
        FT_containsFile (FT_rmFile s pcPath).2 qcPath = FT_containsFile s qcPath)) := by
  have hd := Path_new_depth pcPath p hp
  refine ⟨?_, ?_, ?_, ?_⟩
  · intro h hnp
    obtain ⟨hinit, _⟩ := FT_insertDir_success s mem pcPath h
    rw [FT_insertDir_eq_body s mem pcPath p hinit hp] at h ⊢
    exact FT_insert_body_frame s mem p none qcPath q hinv hinit hd h hq hnp
  · intro h hnp
    obtain ⟨hinit, p1, hp1, heq⟩ := FT_insertFile_success s mem pcPath pvContents ulLength h
    rw [hp] at hp1
    cases hp1
    have hroot : s.oNRoot ≠ none := by
      intro hroot
      rw [FT_insertFile_rootless s mem pcPath p pvContents ulLength hinit hroot hp] at h
      cases h
    rw [heq] at h ⊢
    obtain ⟨h1, h2, h3, _⟩ := FT_insert_body_frame s mem p _ qcPath q hinv hinit hd h hq hnp
    exact ⟨h1, h2, h3 hroot⟩
  · intro h
    obtain ⟨p1, root, l, m, hp1, hroot, hm, hpath, hst⟩ := FT_rmDir_success s pcPath h
    rw [hp] at hp1
    cases hp1
    rw [hst, ← hpath]
    exact FT_rm_free_frame s root m l qcPath q hinv hroot hm hq
  · intro h
    obtain ⟨p1, root, l, m, hp1, hroot, hm, hpath, hst⟩ := FT_rmFile_success s pcPath h
    rw [hp] at hp1
    cases hp1
    rw [hst, ← hpath]
    exact FT_rm_free_frame s root m l qcPath q hinv hroot hm hq

/-- On the empty tree `FT_getFileContents("/b")` reads the type of a NULL
node, and after `FT_insertDir("/a")` it returns NULL; after
`FT_rmDir("/a/b")` on the sample tree "/a/b/c" is gone and "/a/f" is still a
file. -/
theorem FT_mutation_frame_witness :
    (FT_getFileContents FT_empty "/b" = none ∧
      FT_getFileContents (FT_insertDir FT_empty 1 "/a").2 "/b" = some VoidPtr.NULL) ∧
    (FT_containsDir (FT_rmDir FT_sample_tree "/a/b").2 "/a/b/c" = false ∧
      FT_containsFile (FT_rmDir FT_sample_tree "/a/b").2 "/a/b/c" = false) ∧
    (FT_containsDir (FT_rmDir FT_sample_tree "/a/b").2 "/a/f"
        = FT_containsDir FT_sample_tree "/a/f" ∧
      FT_containsFile (FT_rmDir FT_sample_tree "/a/b").2 "/a/f"
        = FT_containsFile FT_sample_tree "/a/f") :=
  ⟨((FT_mutation_frame FT_empty 1 "/a" "/b" [['a']] [['b']] VoidPtr.NULL 0
      (FT_Inv_of_none _ rfl rfl) rfl rfl).1 (by decide) (by decide)).2.2.2 rfl,
    ((FT_mutation_frame FT_sample_tree 1 "/a/b" "/a/b/c" [['a'], ['b']] [['a'], ['b'], ['c']]
      VoidPtr.NULL 0
      (FT_reachable_Inv _ (FT_reachable.insertDir _ 2 "/a/b/c"
        (FT_reachable.insertFile _ 1 "/a/f" (VoidPtr.buf [1, 2]) 2
          (FT_reachable.insertDir _ 1 "/a" (FT_reachable.init _ FT_reachable.start)))))
      rfl rfl).2.2.1 (by decide)).1 (by decide),
    ((FT_mutation_frame FT_sample_tree 1 "/a/b" "/a/f" [['a'], ['b']] [['a'], ['f']]
      VoidPtr.NULL 0
      (FT_reachable_Inv _ (FT_reachable.insertDir _ 2 "/a/b/c"
        (FT_reachable.insertFile _ 1 "/a/f" (VoidPtr.buf [1, 2]) 2
          (FT_reachable.insertDir _ 1 "/a" (FT_reachable.init _ FT_reachable.start)))))
      rfl rfl).2.2.1 (by decide)).2 (by decide)⟩

/-! ## `FT_insertDir` on the states the program can reach -/

/-- In a state that satisfies the invariant the count is the number of nodes
of the tree. -/
theorem FT_Inv_count_entries (s : FT) (hinv : FT_Inv s) : s.ulCount = (FT_entries s).length := by
  cases hroot : s.oNRoot with
  | none =>
    rw [FT_Inv_none s hinv hroot]
    simp [FT_entries, hroot]
  | some root =>
    obtain ⟨_, hc, _⟩ := FT_Inv_some s root hinv hroot
    simp only [FT_entries, hroot]
    rw [Node_entries_length, hc]

/-- C2, as amended: in every state the program can reach, on an initialized
tree, for a well-formed path whose furthest existing ancestor is a directory at
depth `d` below the depth of the path (`d = 0` on the empty tree), and with
memory for every missing level, `FT_insertDir` returns SUCCESS, adds exactly
one directory for each prefix of depth `d + 1 .. depth`, and nothing else,
raises `ulCount`, which is the number of nodes before and after the call, by
`depth - d`, and on the empty tree makes the node of the depth-1 prefix the
root. -/
theorem FT_insertDir_creates (s : FT) (mem : Nat) (pcPath : String) (p : Path) (d : Nat)
    (hs : FT_reachable s)
    (hinit : s.bIsInitialized = true) (hp : Path_new pcPath = .ok p)
    (hanc : (s.oNRoot = none ∧ d = 0) ∨
      ∃ l m, FT_traversePath s.oNRoot p = (SUCCESS, some l) ∧
        Node_deref s.oNRoot (some l) = some m ∧ Node_type m = false ∧
        Path_getDepth (Node_getPath m) = d)
    (hd : d < Path_getDepth p) (hmem : Path_getDepth p - d ≤ mem) :
    (FT_insertDir s mem pcPath).1 = SUCCESS ∧
      (FT_insertDir s mem pcPath).2.bIsInitialized = true ∧
      s.ulCount = (FT_entries s).length ∧
      (FT_insertDir s mem pcPath).2.ulCount = (FT_entries (FT_insertDir s mem pcPath).2).length ∧
      (FT_insertDir s mem pcPath).2.ulCount = s.ulCount + (Path_getDepth p - d) ∧
      (FT_entries (FT_insertDir s mem pcPath).2).Perm
        (FT_entries s ++ (List.range' (d + 1) (Path_getDepth p - d)).map
          (fun j => (p.take j, false, VoidPtr.NULL, 0))) ∧
      (s.oNRoot = none → ∃ r, (FT_insertDir s mem pcPath).2.oNRoot = some r ∧
        Node_getPath r = p.take 1 ∧ Node_getParentPath r = none) := by
  obtain ⟨h1, h2, h3, h4, h5⟩ := FT_insertDir_adds s mem pcPath p d hinit hp hanc hd hmem
  exact ⟨h1, h2, FT_Inv_count_entries s (FT_reachable_Inv s hs),
    FT_Inv_count_entries _ (FT_reachable_Inv _ (FT_reachable.insertDir s mem pcPath hs)),
    h3, h4, h5⟩

/-- With "/a" present and "/a/b" absent, `FT_insertDir("/a/b/c")` with
memory for two nodes creates exactly "/a/b" and "/a/b/c" and raises the count
from 1 to 3. -/
theorem FT_insertDir_creates_witness :
    (FT_insertDir FT_sample_dir 2 "/a/b/c").1 = SUCCESS ∧
      (FT_insertDir FT_sample_dir 2 "/a/b/c").2.bIsInitialized = true ∧
      FT_sample_dir.ulCount = (FT_entries FT_sample_dir).length ∧
      (FT_insertDir FT_sample_dir 2 "/a/b/c").2.ulCount
        = (FT_entries (FT_insertDir FT_sample_dir 2 "/a/b/c").2).length ∧
      (FT_insertDir FT_sample_dir 2 "/a/b/c").2.ulCount = FT_sample_dir.ulCount + 2 ∧
      (FT_entries (FT_insertDir FT_sample_dir 2 "/a/b/c").2).Perm
        (FT_entries FT_sample_dir ++
          [([['a'], ['b']], false, VoidPtr.NULL, 0),
            ([['a'], ['b'], ['c']], false, VoidPtr.NULL, 0)]) ∧
      (FT_sample_dir.oNRoot = none → ∃ r,
        (FT_insertDir FT_sample_dir 2 "/a/b/c").2.oNRoot = some r ∧
        Node_getPath r = [['a']] ∧ Node_getParentPath r = none) :=
  FT_insertDir_creates FT_sample_dir 2 "/a/b/c" [['a'], ['b'], ['c']] 1
    (FT_reachable.insertDir _ 1 "/a" (FT_reachable.init _ FT_reachable.start)) rfl rfl
    (Or.inr ⟨[], Node.mk [['a']] none false VoidPtr.NULL 0 [], rfl, rfl, rfl, rfl⟩)
    (by decide) (by decide)

end A4
